import Mathlib

/-!
# Auction state machine of `js/script.js`

A shallow embedding of the auction engine: the application state, the
versioned store (`loadState`, `saveState`), the engine operations
(`startAuction`, `setTurnOrder`, `requestCandidate`, `acceptRequest`,
`rejectRequest`, `stopAuction`, `nextTurn`), the turn timer (`updateTimer`)
and the results export (`downloadResults`).

Modelling conventions.
* The global `state` is passed explicitly; every operation maps a state to
  the state left once the operation and the `saveState` calls it awaits have
  run to completion (operations are run one at a time).
* `Date.now()` is the parameter `now` (epoch milliseconds).
* The text typed into `prompt` is the parameter `orderStr`
  (`none` when the prompt is cancelled).
* `userState.team` is the parameter `team` of `requestCandidate`.
* A JavaScript number that may be `NaN` is an `Option`, `none` being `NaN`.
* Operations that call `alert` return the messages shown next to the state.
-/

namespace Auction

/-! ## Data model -/

/-- The three values of `state.auction.status`. -/
inductive Status where
  | not_started
  | in_progress
  | completed
deriving DecidableEq, Repr

/-- A candidate object `{ name, class, admissionNumber, assigned, image }`. -/
structure Candidate where
  name : String
  cls : String
  admissionNumber : String
  assigned : Bool
  image : Option String
deriving DecidableEq, Repr

/-- A team object `{ name, leader, assistant, roster }`. -/
structure Team where
  name : String
  leader : String
  assistant : String
  roster : List Candidate
deriving DecidableEq, Repr

/-- The object stored in `pendingRequest`: `{ team, candidate, class }`. -/
structure PendingRequest where
  team : String
  candidate : String
  cls : String
deriving DecidableEq, Repr

/-- An entry of `selections`: `{ candidate, class, team }`. -/
structure Selection where
  candidate : String
  cls : String
  team : String
deriving DecidableEq, Repr

/-- The object stored in `lastSelection`: the request spread plus `time`. -/
structure LastSelection where
  team : String
  candidate : String
  cls : String
  time : Nat
deriving DecidableEq, Repr

/-- The object `state.auction`. `currentTeamIndex` is `none` when it is `NaN`;
`turnStartTime` is `none` when it is `null`. -/
structure AuctionState where
  status : Status
  currentClass : String
  currentTeamIndex : Option Nat
  turnOrder : List String
  selections : List Selection
  pendingRequest : Option PendingRequest
  lastSelection : Option LastSelection
  turnStartTime : Option Nat
  stateVersion : Nat
deriving DecidableEq, Repr

/-- The global `state`. -/
structure State where
  candidates : List Candidate
  teams : List Team
  auction : AuctionState
deriving DecidableEq, Repr

/-- The per-tab globals `state` and `lastStateVersion`. -/
structure Tab where
  state : State
  lastStateVersion : Nat
deriving DecidableEq, Repr

/-- Result of an operation that may call `alert`: the state left behind and
the messages shown. -/
structure Outcome where
  state : State
  alerts : List String
deriving DecidableEq, Repr

/-- The constant `TURN_DURATION` (seconds). -/
def TURN_DURATION : Nat := 30

/-- The constant `defaultState`. -/
def defaultState : State :=
  { candidates := []
    teams := []
    auction :=
      { status := Status.not_started
        currentClass := "1"
        currentTeamIndex := some 0
        turnOrder := []
        selections := []
        pendingRequest := none
        lastSelection := none
        turnStartTime := none
        stateVersion := 0 } }

/-! ## JavaScript primitives used by the engine -/

/-- The remainder `a % b` on non-negative integers; `NaN` when `b` is 0. -/
def jsMod (a b : Nat) : Option Nat :=
  if b = 0 then none else some (a % b)

/-- White space and line terminators, as stripped by `trim` and `parseInt`. -/
def isJsWhitespace (c : Char) : Bool :=
  let n := c.toNat
  n == 9 || n == 10 || n == 11 || n == 12 || n == 13 || n == 32 || n == 160
    || n == 0x1680 || (0x2000 ≤ n && n ≤ 0x200A) || n == 0x2028 || n == 0x2029
    || n == 0x202F || n == 0x205F || n == 0x3000 || n == 0xFEFF

/-- Value of a digit character in the given radix (10 or 16). -/
def digitValue (radix : Nat) (c : Char) : Option Nat :=
  let n := c.toNat
  if 48 ≤ n ∧ n ≤ 57 then some (n - 48)
  else if radix = 16 ∧ 97 ≤ n ∧ n ≤ 102 then some (n - 87)
  else if radix = 16 ∧ 65 ≤ n ∧ n ≤ 70 then some (n - 55)
  else none

/-- Longest run of leading digits, accumulated into `acc`
(`none` while no digit has been read). -/
def parseDigits (radix : Nat) : Option Nat → List Char → Option Nat
  | acc, [] => acc
  | acc, c :: cs =>
    match digitValue radix c with
    | none => acc
    | some d => parseDigits radix (some (acc.getD 0 * radix + d)) cs

/-- The unsigned part of `parseInt`: an optional `0x`/`0X` marker and digits. -/
def parseMagnitude : List Char → Option Nat
  | '0' :: 'x' :: cs => parseDigits 16 none cs
  | '0' :: 'X' :: cs => parseDigits 16 none cs
  | cs => parseDigits 10 none cs

/-- The one-argument `parseInt(str)`: leading white space is skipped, a sign
is read, then the longest run of digits; `NaN` when there is no digit.
Integers are exact (the source's doubles are exact below 2^53). -/
def parseInt (str : String) : Option Int :=
  match str.toList.dropWhile isJsWhitespace with
  | '-' :: cs => (parseMagnitude cs).map (fun n => - (n : Int))
  | '+' :: cs => (parseMagnitude cs).map (fun n => (n : Int))
  | cs => (parseMagnitude cs).map (fun n => (n : Int))

/-- The method `toString()` of an integer-valued number, `"NaN"` for `NaN`. -/
def numToString : Option Int → String
  | none => "NaN"
  | some n => toString n

/-- The method `trim()`. -/
def jsTrim (str : String) : String :=
  String.mk ((str.toList.dropWhile isJsWhitespace).reverse.dropWhile isJsWhitespace).reverse

/-- Splitting a character list on a separator character. -/
def splitChars (sep : Char) : List Char → List (List Char)
  | [] => [[]]
  | c :: cs =>
    if c = sep then [] :: splitChars sep cs
    else
      match splitChars sep cs with
      | [] => [[c]]
      | w :: ws => (c :: w) :: ws

/-- The call `str.split(',')`. -/
def jsSplitComma (str : String) : List String :=
  (splitChars ',' str.toList).map String.mk

/-- The entries of `new Set(xs)` in insertion order: first occurrences. -/
def uniqueValues : List String → List String
  | [] => []
  | x :: xs => x :: (uniqueValues xs).filter (fun y => y != x)

/-- JavaScript truthiness of `turnStartTime`: `null` and `0` are falsy. -/
def timeIsSet : Option Nat → Bool
  | some (_ + 1) => true
  | _ => false

/-! ## State store -/

/-- The function `saveState`: the version is incremented and the state is
persisted; the result is both the new local state and the stored copy. -/
def saveState (s : State) : State :=
  { s with auction := { s.auction with stateVersion := s.auction.stateVersion + 1 } }

/-- The function `loadState`, given the content of the `appState` entry
(`none` when the entry is absent). The entry is a complete state as written
by `saveState`, so the spread over the defaults is the entry itself. -/
def loadState (localData : Option State) (t : Tab) : Tab :=
  match localData with
  | none => t
  | some data =>
    if data.auction.stateVersion > t.lastStateVersion then
      { state := data, lastStateVersion := data.auction.stateVersion }
    else t

/-! ## Candidate and team management -/

/-- The function `addCandidate`. -/
def addCandidate (candidate : Candidate) (s : State) : State :=
  saveState { s with candidates := s.candidates ++ [candidate] }

/-- The function `addTeam`. -/
def addTeam (team : Team) (s : State) : State :=
  saveState { s with teams := s.teams ++ [team] }

/-- The function `deleteCandidate`. -/
def deleteCandidate (name classNum : String) (s : State) : Outcome :=
  if s.auction.status = Status.in_progress then
    { state := s, alerts := ["Cannot delete candidates during auction."] }
  else
    { state := saveState { s with
        candidates := s.candidates.filter (fun c => c.name != name || c.cls != classNum) }
      alerts := [] }

/-- The function `deleteTeam`. -/
def deleteTeam (name : String) (s : State) : Outcome :=
  if s.auction.status = Status.in_progress then
    { state := s, alerts := ["Cannot delete teams during auction."] }
  else
    { state := saveState { s with teams := s.teams.filter (fun t => t.name != name) }
      alerts := [] }

/-! ## Auction management -/

/-- The function `setTurnOrder` after the prompt: `order` is validated
against the team names and stored. -/
def setTurnOrder (now : Nat) (orderStr : Option String) (s : State) : Outcome :=
  match orderStr with
  | none => { state := s, alerts := [] }
  | some str =>
    if str = "" then { state := s, alerts := [] }
    else
      let order := (jsSplitComma str).map jsTrim
      let teamNames := s.teams.map (fun t => t.name)
      let uniqueOrder := uniqueValues order
      if uniqueOrder.length = teamNames.length ∧
          uniqueOrder.all (fun o => teamNames.contains o) = true then
        { state := saveState { s with auction := { s.auction with
            turnOrder := order
            currentTeamIndex := some 0
            turnStartTime := some now
            stateVersion := s.auction.stateVersion + 1 } }
          alerts := [] }
      else
        { state := s
          alerts := ["Invalid order. Must include all teams exactly once without duplicates."] }

/-- The state written by `startAuction` once its three checks have passed,
up to and including its `saveState`, before the turn order is prompted. -/
def startAuctionReset (now : Nat) (s : State) : State :=
  saveState
    { candidates := s.candidates.map (fun c => { c with assigned := false })
      teams := s.teams.map (fun t => { t with roster := [] })
      auction :=
        { status := Status.in_progress
          currentClass := "1"
          currentTeamIndex := some 0
          turnOrder := []
          selections := []
          pendingRequest := none
          lastSelection := none
          turnStartTime := some now
          stateVersion := s.auction.stateVersion + 1 } }

/-- The function `startAuction`; `orderStr` is the answer to the prompt of
the `setTurnOrder` call that ends it. -/
def startAuction (now : Nat) (orderStr : Option String) (s : State) : Outcome :=
  if s.candidates.length = 0 then
    { state := s, alerts := ["Please add at least one candidate."] }
  else if s.teams.length < 2 then
    { state := s, alerts := ["Please add at least two teams."] }
  else if s.candidates.length < s.teams.length then
    { state := s, alerts := ["Not enough candidates for the number of teams."] }
  else
    setTurnOrder now orderStr (startAuctionReset now s)

/-! ## Auction operations -/

/-- The test `!c.assigned && c.class === label` of `nextTurn`. -/
def isUnassignedIn (label : String) (c : Candidate) : Bool :=
  !c.assigned && c.cls == label

/-- The test `c.name === name && c.class === classNum && !c.assigned` used by
`requestCandidate` and `acceptRequest`. -/
def isAvailable (name classNum : String) (c : Candidate) : Bool :=
  c.name == name && c.cls == classNum && !c.assigned

/-- The `while` loop of `nextTurn`: starting from the label `nextClass`, the
first label whose number is at most 9 and that has an unassigned candidate.
`fuel` bounds the number of loop tests. -/
def scanClasses (candidates : List Candidate) : Nat → String → Option String
  | 0, _ => none
  | fuel + 1, nextClass =>
    match parseInt nextClass with
    | none => none
    | some n =>
      if n ≤ 9 then
        if candidates.any (isUnassignedIn nextClass) then some nextClass
        else scanClasses candidates fuel (numToString (some (n + 1)))
      else none

/-- Number of loop tests `nextTurn` can make from the class `currentClass`:
one per label from `parseInt(currentClass) + 1` to 10. -/
def scanFuel (currentClass : String) : Nat :=
  match parseInt currentClass with
  | none => 1
  | some n => (10 - (n + 1)).toNat + 1

/-- The function `nextTurn`. -/
def nextTurn (now : Nat) (s : State) : State :=
  let remaining := (s.candidates.filter (isUnassignedIn s.auction.currentClass)).length
  if remaining = 0 then
    let nextClass := numToString ((parseInt s.auction.currentClass).map (fun n => n + 1))
    match scanClasses s.candidates (scanFuel s.auction.currentClass) nextClass with
    | some label =>
      saveState { s with auction := { s.auction with
        currentClass := label
        turnOrder := []
        currentTeamIndex := some 0
        turnStartTime := none
        stateVersion := s.auction.stateVersion + 1 } }
    | none =>
      saveState { s with auction := { s.auction with
        status := Status.completed
        turnOrder := []
        currentTeamIndex := some 0
        turnStartTime := none
        stateVersion := s.auction.stateVersion + 1 } }
  else
    saveState { s with auction := { s.auction with
      currentTeamIndex :=
        s.auction.currentTeamIndex.bind (fun i => jsMod (i + 1) s.auction.turnOrder.length)
      turnStartTime := some now
      stateVersion := s.auction.stateVersion + 1 } }

/-- The function `requestCandidate`, called by the leader of `team`. -/
def requestCandidate (team name classNum : String) (s : State) : Outcome :=
  if s.auction.status ≠ Status.in_progress then
    { state := s, alerts := ["Auction is not in progress."] }
  else
    match s.auction.currentTeamIndex.bind (fun i => s.auction.turnOrder[i]?) with
    | none => { state := s, alerts := ["Not your turn."] }
    | some currentTeam =>
      if currentTeam ≠ team then { state := s, alerts := ["Not your turn."] }
      else if s.auction.pendingRequest.isSome then
        { state := s, alerts := ["There is already a pending request."] }
      else
        match s.candidates.find? (isAvailable name classNum) with
        | none => { state := s, alerts := ["Candidate not available."] }
        | some _ =>
          { state := saveState { s with auction := { s.auction with
              pendingRequest :=
                some { team := currentTeam, candidate := name, cls := classNum } } }
            alerts := [] }

/-- The assignment `candidate.assigned = true` on the object returned by
`find`: the first candidate satisfying `p` is marked. -/
def markAssigned (p : Candidate → Bool) : List Candidate → List Candidate
  | [] => []
  | c :: cs => if p c then { c with assigned := true } :: cs else c :: markAssigned p cs

/-- The statements `team = teams.find(t => t.name === name)` and
`team.roster.unshift(candidate)`: the first team of that name gets the
candidate at the head of its roster. -/
def unshiftRoster (name : String) (candidate : Candidate) : List Team → List Team
  | [] => []
  | t :: ts =>
    if t.name == name then { t with roster := candidate :: t.roster } :: ts
    else t :: unshiftRoster name candidate ts

/-- The function `acceptRequest`. -/
def acceptRequest (now : Nat) (s : State) : State :=
  match s.auction.pendingRequest with
  | none => s
  | some req =>
    match s.candidates.find? (isAvailable req.candidate req.cls) with
    | none => saveState { s with auction := { s.auction with pendingRequest := none } }
    | some candidate =>
      saveState (nextTurn now
        { candidates := markAssigned (isAvailable req.candidate req.cls) s.candidates
          teams := unshiftRoster req.team { candidate with assigned := true } s.teams
          auction := { s.auction with
            selections := s.auction.selections ++
              [{ candidate := req.candidate, cls := req.cls, team := req.team }]
            lastSelection := some
              { team := req.team, candidate := req.candidate, cls := req.cls, time := now }
            pendingRequest := none
            stateVersion := s.auction.stateVersion + 1 } })

/-- The function `rejectRequest`. -/
def rejectRequest (s : State) : State :=
  saveState { s with auction := { s.auction with
    pendingRequest := none
    stateVersion := s.auction.stateVersion + 1 } }

/-- The function `stopAuction`. -/
def stopAuction (s : State) : State :=
  saveState { s with auction := { s.auction with
    status := Status.not_started
    turnOrder := []
    currentTeamIndex := some 0
    pendingRequest := none
    turnStartTime := none
    stateVersion := s.auction.stateVersion + 1 } }

/-! ## Timer -/

/-- The value `timeLeft` of `updateTimer`:
`Math.max(0, TURN_DURATION - Math.floor((now - turnStartTime) / 1000))`. -/
def timeLeft (now start : Nat) : Int :=
  max 0 ((TURN_DURATION : Int) - ((now : Int) - (start : Int)) / 1000)

/-- The guard that makes `updateTimer` return early. -/
def timerIdle (s : State) : Bool :=
  decide (s.auction.status ≠ Status.in_progress) || decide (s.auction.turnOrder.length = 0)
    || !timeIsSet s.auction.turnStartTime

/-- The number `updateTimer` writes into the `.timer` elements. -/
def timerDisplay (now : Nat) (s : State) : Int :=
  if timerIdle s then (TURN_DURATION : Int)
  else timeLeft now (s.auction.turnStartTime.getD 0)

/-- The function `updateTimer`: the state left by one tick at time `now`. -/
def updateTimer (now : Nat) (s : State) : State :=
  if timerIdle s then s
  else if timeLeft now (s.auction.turnStartTime.getD 0) ≤ 0 then
    if s.auction.pendingRequest.isSome then acceptRequest now s
    else saveState (nextTurn now s)
  else s


/-! ## Operations as data -/

/-- The operations that act on the local state, with their inputs. -/
inductive Op where
  | saveState
  | addCandidate (candidate : Candidate)
  | addTeam (team : Team)
  | deleteCandidate (name classNum : String)
  | deleteTeam (name : String)
  | startAuction (now : Nat) (orderStr : Option String)
  | setTurnOrder (now : Nat) (orderStr : Option String)
  | requestCandidate (team name classNum : String)
  | acceptRequest (now : Nat)
  | rejectRequest
  | stopAuction
  | nextTurn (now : Nat)
  | updateTimer (now : Nat)
deriving DecidableEq, Repr

/-- The state an operation leaves. -/
def runOp : Op → State → State
  | Op.saveState, s => saveState s
  | Op.addCandidate c, s => addCandidate c s
  | Op.addTeam t, s => addTeam t s
  | Op.deleteCandidate name classNum, s => (deleteCandidate name classNum s).state
  | Op.deleteTeam name, s => (deleteTeam name s).state
  | Op.startAuction now orderStr, s => (startAuction now orderStr s).state
  | Op.setTurnOrder now orderStr, s => (setTurnOrder now orderStr s).state
  | Op.requestCandidate team name classNum, s => (requestCandidate team name classNum s).state
  | Op.acceptRequest now, s => acceptRequest now s
  | Op.rejectRequest, s => rejectRequest s
  | Op.stopAuction, s => stopAuction s
  | Op.nextTurn now, s => nextTurn now s
  | Op.updateTimer now, s => updateTimer now s

/-! ## Reachable states -/

/-- The three checks of `startAuction` pass. -/
def StartOk (s : State) : Prop :=
  s.candidates ≠ [] ∧ 2 ≤ s.teams.length ∧ s.teams.length ≤ s.candidates.length

/-- Operations a user or the timer can trigger. `nextTurn` is not among
them: it is not exported and runs only inside `acceptRequest` and
`updateTimer`. A team is added with an empty roster, as the team form
builds it. -/
def userOp : Op → Prop
  | Op.nextTurn _ => False
  | Op.addTeam team => team.roster = []
  | _ => True

/-- States reached from a successful `startAuction` by operations a user or
the timer can trigger, run one at a time. -/
inductive Reachable : State → Prop where
  | start (now : Nat) (orderStr : Option String) (s : State) :
      StartOk s → Reachable (startAuction now orderStr s).state
  | step (op : Op) (s : State) : userOp op → Reachable s → Reachable (runOp op s)

/-- The test `name` and `class` of a candidate against a key. -/
def hasKey (name classNum : String) (c : Candidate) : Bool :=
  c.name == name && c.cls == classNum

/-- Facts kept by every reachable state: a request is pending only while the
auction is in progress; during the auction the turn order names teams only and
every roster entry has the name and class of an assigned candidate; the team
of a pending request is a team. -/
structure Inv (s : State) : Prop where
  idle : s.auction.status ≠ Status.in_progress → s.auction.pendingRequest = none
  order : s.auction.status = Status.in_progress →
    ∀ n ∈ s.auction.turnOrder, n ∈ s.teams.map (fun t => t.name)
  request : ∀ r, s.auction.pendingRequest = some r → r.team ∈ s.teams.map (fun t => t.name)
  roster : s.auction.status = Status.in_progress →
    ∀ t ∈ s.teams, ∀ e ∈ t.roster,
      ∃ x ∈ s.candidates, x.assigned = true ∧ x.name = e.name ∧ x.cls = e.cls

/-- Two candidates with the same name, class and admission number, as a CSV
file with a repeated row adds them, and two teams. -/
def twinStart : State :=
  { candidates := [⟨"Ann", "1", "17", false, none⟩, ⟨"Ann", "1", "17", false, none⟩]
    teams := [⟨"A", "x", "", []⟩, ⟨"B", "y", "", []⟩]
    auction := defaultState.auction }

/-- The state after the start with order A, B, a request of A for Ann that
is accepted, and a request of B for Ann. -/
def twinPending : State :=
  runOp (Op.requestCandidate "B" "Ann" "1")
    (runOp (Op.acceptRequest 2000)
      (runOp (Op.requestCandidate "A" "Ann" "1")
        (startAuction 1000 (some "A,B") twinStart).state))

/-! ## Reference definition of the turn advance -/

/-- The class label of the number `k`: its decimal numeral. -/
def classLabel (k : Nat) : String := toString k

/-- Some candidate of the state is unassigned and has class `label`. -/
def hasUnassigned (s : State) (label : String) : Prop :=
  ∃ c ∈ s.candidates, c.assigned = false ∧ c.cls = label

/-- The advance of the turn as the specification words it, for a state
whose current class is the label of `cur`, relating the state before to the
state after. Branch (a): a candidate of the current class is unassigned and
the index rotates. Branch (b): none is, and the smallest label above `cur`
and at most 9 with an unassigned candidate becomes the current class.
Branch (c): no such label exists and the auction is completed. Candidates,
teams (rosters), selections and pendingRequest are the same in every branch.
The remainder by a length of zero has no value (`jsMod`), and neither has the
rotation of an index that is not a number. -/
def NextTurnSpec (cur : Nat) (s s' : State) : Prop :=
  s'.candidates = s.candidates ∧ s'.teams = s.teams ∧
  s'.auction.selections = s.auction.selections ∧
  s'.auction.pendingRequest = s.auction.pendingRequest ∧
  ((hasUnassigned s s.auction.currentClass ∧
      s'.auction.currentTeamIndex =
        s.auction.currentTeamIndex.bind (fun i => jsMod (i + 1) s.auction.turnOrder.length) ∧
      s'.auction.currentClass = s.auction.currentClass ∧
      s'.auction.turnOrder = s.auction.turnOrder ∧
      s'.auction.status = s.auction.status) ∨
   (¬ hasUnassigned s s.auction.currentClass ∧
      ∃ k, cur < k ∧ k ≤ 9 ∧ hasUnassigned s (classLabel k) ∧
        (∀ j, cur < j → j < k → ¬ hasUnassigned s (classLabel j)) ∧
        s'.auction.currentClass = classLabel k ∧
        s'.auction.turnOrder = [] ∧
        s'.auction.currentTeamIndex = some 0 ∧
        s'.auction.turnStartTime = none ∧
        s'.auction.status = s.auction.status) ∨
   (¬ hasUnassigned s s.auction.currentClass ∧
      (∀ k, cur < k → k ≤ 9 → ¬ hasUnassigned s (classLabel k)) ∧
      s'.auction.status = Status.completed ∧
      s'.auction.turnOrder = [] ∧
      s'.auction.currentTeamIndex = some 0 ∧
      s'.auction.turnStartTime = none))

/-! ## Runs of operations -/

/-- States reached from a state satisfying `init` by operations that
`allowed` admits in the state where they run, one at a time. -/
inductive ReachBy (allowed : State → Op → Prop) (init : State → Prop) : State → Prop where
  | base (s : State) : init s → ReachBy allowed init s
  | step (op : Op) (s : State) :
      allowed s op → ReachBy allowed init s → ReachBy allowed init (runOp op s)

/-- Candidates and teams enter the state as the forms and the CSV upload
build them: a candidate unassigned, a team with an empty roster and a name no
team has yet. Every other operation is admitted. -/
def formOp (s : State) : Op → Prop
  | Op.addCandidate candidate => candidate.assigned = false
  | Op.addTeam team => team.roster = [] ∧ team.name ∉ s.teams.map (fun t => t.name)
  | _ => True

/-- States reached from the empty initial state. -/
def FromEmpty (s : State) : Prop :=
  ReachBy formOp (fun s0 => s0 = defaultState) s

/-- The operations of a running auction: setTurnOrder, requestCandidate,
acceptRequest, rejectRequest and the timer tick. -/
def auctionOp : Op → Prop
  | Op.setTurnOrder _ _ => True
  | Op.requestCandidate _ _ _ => True
  | Op.acceptRequest _ => True
  | Op.rejectRequest => True
  | Op.updateTimer _ => True
  | _ => False

/-- The operations of a running auction and the bare turn advance. -/
def engineOp : Op → Prop
  | Op.nextTurn _ => True
  | op => auctionOp op

/-- The state `acceptRequest` hands to `nextTurn` once the candidate `c` found
for the request `req` is marked, put on the roster and recorded. -/
def acceptedState (now : Nat) (s : State) (req : PendingRequest) (c : Candidate) : State :=
  { candidates := markAssigned (isAvailable req.candidate req.cls) s.candidates
    teams := unshiftRoster req.team { c with assigned := true } s.teams
    auction := { s.auction with
      selections := s.auction.selections ++
        [{ candidate := req.candidate, cls := req.cls, team := req.team }]
      lastSelection := some
        { team := req.team, candidate := req.candidate, cls := req.cls, time := now }
      pendingRequest := none
      stateVersion := s.auction.stateVersion + 1 } }

/-- The state on which `acceptRequest` calls `nextTurn`, when it does. -/
def acceptCall (now : Nat) (s : State) : Option State :=
  match s.auction.pendingRequest with
  | none => none
  | some req =>
    match s.candidates.find? (isAvailable req.candidate req.cls) with
    | none => none
    | some c => some (acceptedState now s req c)

/-- The state on which an operation calls `nextTurn`, when it does. -/
def nextTurnCall : Op → State → Option State
  | Op.nextTurn _, s => some s
  | Op.acceptRequest now, s => acceptCall now s
  | Op.updateTimer now, s =>
    if timerIdle s then none
    else if timeLeft now (s.auction.turnStartTime.getD 0) ≤ 0 then
      if s.auction.pendingRequest.isSome then acceptCall now s else some s
    else none
  | _, _ => none

/-- The test of `nextTurn` for its rotation branch: `remaining` is not 0. -/
def rotates (s : State) : Prop :=
  (s.candidates.filter (isUnassignedIn s.auction.currentClass)).length ≠ 0

/-- The current class is one of the labels 1 to 9. -/
def ClassOk (s : State) : Prop :=
  ∃ cur, 1 ≤ cur ∧ cur ≤ 9 ∧ s.auction.currentClass = classLabel cur

/-- The index is a number, it is within a non-empty turn order, and a
request is pending only with a non-empty turn order. -/
structure TurnInv (s : State) : Prop where
  index : ∃ i, s.auction.currentTeamIndex = some i ∧
    (s.auction.turnOrder ≠ [] → i < s.auction.turnOrder.length)
  pending : s.auction.pendingRequest ≠ none → s.auction.turnOrder ≠ []

/-! ## The two-team scenario -/

/-- Two candidates of class 1 and the teams A and B, before the start. -/
def scenarioStart : State :=
  { candidates := [⟨"c1", "1", "101", false, none⟩, ⟨"c2", "1", "102", false, none⟩]
    teams := [⟨"A", "x", "", []⟩, ⟨"B", "y", "", []⟩]
    auction := defaultState.auction }

/-- The scenario after `startAuction` (prompt left unanswered) and
`setTurnOrder` with the answer A,B. -/
def scenarioOrdered : State :=
  runOp (Op.setTurnOrder 1000 (some "A,B")) (startAuction 1000 none scenarioStart).state

/-- The scenario after team A has requested c1. -/
def scenarioRequested : State :=
  runOp (Op.requestCandidate "A" "c1" "1") scenarioOrdered

/-- The scenario after the request of A has been accepted. -/
def scenarioFirstPick : State :=
  runOp (Op.acceptRequest 2000) scenarioRequested

/-- The scenario after team B has requested c2. -/
def scenarioSecondRequest : State :=
  runOp (Op.requestCandidate "B" "c2" "1") scenarioFirstPick

/-- The scenario after the request of B has been accepted. -/
def scenarioCompleted : State :=
  runOp (Op.acceptRequest 3000) scenarioSecondRequest

/-- A state with two candidates of class 1 and the teams A and B; names,
admission numbers, flags, images, leaders, rosters and the auction record are
left open. -/
def pairState (n1 ad1 : String) (f1 : Bool) (im1 : Option String)
    (n2 ad2 : String) (f2 : Bool) (im2 : Option String)
    (tA tB : Team) (a0 : AuctionState) : State :=
  { candidates := [⟨n1, "1", ad1, f1, im1⟩, ⟨n2, "1", ad2, f2, im2⟩]
    teams := [{ tA with name := "A" }, { tB with name := "B" }]
    auction := a0 }

/-- The run startAuction, setTurnOrder with A,B, requestCandidate by A for
the candidate named `n1`, acceptRequest. -/
def firstPick (t0 t1 t2 : Nat) (n1 : String) (s : State) : State :=
  acceptRequest t2
    (requestCandidate "A" n1 "1"
      (setTurnOrder t1 (some "A,B") (startAuction t0 none s).state).state).state

/-- The run continued by requestCandidate by B for the candidate named `n2`
and acceptRequest. -/
def secondPick (t3 : Nat) (n2 : String) (s : State) : State :=
  acceptRequest t3 (requestCandidate "B" n2 "1" s).state

/-! ## Results export -/

/-- The test `str.includes(',')`. -/
def includesComma (str : String) : Bool :=
  str.toList.contains ','

/-- The value `escapedCandidate` of `downloadResults`: a name that contains a
comma is put between double quotes. -/
def escapeCandidate (name : String) : String :=
  if includesComma name then "\"" ++ name ++ "\"" else name

/-- The line `downloadResults` appends for an entry of `selections`. -/
def selectionLine (x : Selection) : String :=
  escapeCandidate x.candidate ++ "," ++ x.cls ++ "," ++ x.team ++ "\n"

/-- The line `downloadResults` appends for an unassigned candidate. -/
def unassignedLine (c : Candidate) : String :=
  escapeCandidate c.name ++ "," ++ c.cls ++ "," ++ "Unassigned" ++ "\n"

/-- The function `downloadResults`: the text of the file offered for
download, or `none` when it shows the alert that no results are available. -/
def downloadResults (s : State) : Option String :=
  if s.auction.selections.length = 0 ∧ s.candidates.all (fun c => c.assigned) = true then none
  else
    some ((s.candidates.filter (fun c => !c.assigned)).foldl
      (fun csv c => csv ++ unassignedLine c)
      (s.auction.selections.foldl (fun csv x => csv ++ selectionLine x)
        "Candidate,Class,Team\n"))

/-- The rows of the export as the specification lists them, each row the list
of its three fields: the header, one row per selection in order, one row per
unassigned candidate in order. -/
def exportRows (s : State) : List (List String) :=
  ["Candidate", "Class", "Team"] ::
    (s.auction.selections.map (fun x => [x.candidate, x.cls, x.team]) ++
      (s.candidates.filter (fun c => !c.assigned)).map
        (fun c => [c.name, c.cls, "Unassigned"]))

/-- The text of a row: its fields separated by commas, the first one escaped
as a candidate name, ended by a line feed. -/
def renderRow : List String → String
  | [] => "\n"
  | first :: rest => escapeCandidate first ++ rest.foldr (fun field acc => "," ++ field ++ acc) "\n"

/-- Concatenation of the texts of a list. -/
def concatLines : List String → String
  | [] => ""
  | x :: xs => x ++ concatLines xs

/-! ## Runs of a started auction -/

/-- Every candidate of the state has one of the class labels 1 to 9. -/
def LabelsOk (s : State) : Prop :=
  ∀ c ∈ s.candidates, ∃ j, 1 ≤ j ∧ j ≤ 9 ∧ c.cls = classLabel j

/-- The state left by a successful `startAuction` on candidates whose class
labels are all among 1 to 9. -/
def LabelledStart (s : State) : Prop :=
  ∃ now orderStr s0, StartOk s0 ∧ LabelsOk s0 ∧ s = (startAuction now orderStr s0).state

/-- States of a run that begins with such a start and continues with
setTurnOrder, requestCandidate, acceptRequest, rejectRequest and timer ticks. -/
def AuctionRun (s : State) : Prop :=
  ReachBy (fun _ op => auctionOp op) LabelledStart s

/-- The current class is the label of a number `cur` between 1 and 9, every
candidate has a label between 1 and 9 which is at least `cur` when the
candidate is unassigned, and every candidate is assigned once the status is
completed. -/
def LowInv (s : State) : Prop :=
  ∃ cur, 1 ≤ cur ∧ cur ≤ 9 ∧ s.auction.currentClass = classLabel cur ∧
    (∀ c ∈ s.candidates, ∃ j, 1 ≤ j ∧ j ≤ 9 ∧ c.cls = classLabel j ∧
      (c.assigned = false → cur ≤ j)) ∧
    (s.auction.status = Status.completed → ∀ c ∈ s.candidates, c.assigned = true)

/-! ## States reached from the empty initial state -/

/-- Facts kept by every state reached from the empty initial state: team
names are pairwise distinct; while the auction is in progress the turn order
and the team of a pending request name teams only, and for every name and
class the rosters hold as many entries of that name and class as there are
assigned candidates of that name and class. -/
structure EmptyInv (s : State) : Prop where
  names : (s.teams.map (fun t => t.name)).Nodup
  order : s.auction.status = Status.in_progress →
    ∀ n ∈ s.auction.turnOrder, n ∈ s.teams.map (fun t => t.name)
  request : s.auction.status = Status.in_progress →
    ∀ r, s.auction.pendingRequest = some r → r.team ∈ s.teams.map (fun t => t.name)
  tally : s.auction.status = Status.in_progress → ∀ name classNum,
    (s.teams.map (fun t => t.roster.countP (hasKey name classNum))).sum =
      s.candidates.countP (fun c => c.assigned && hasKey name classNum c)

/-- The empty initial state after the teams A and B and the candidates c1
and c2 of class 1 have been added. -/
def populated : State :=
  runOp (Op.addCandidate ⟨"c2", "1", "102", false, none⟩)
    (runOp (Op.addCandidate ⟨"c1", "1", "101", false, none⟩)
      (runOp (Op.addTeam ⟨"B", "y", "", []⟩)
        (runOp (Op.addTeam ⟨"A", "x", "", []⟩) defaultState)))

/-- The populated state after the start with the order A, B and the
addition of a third team C. -/
def lateTeam : State :=
  runOp (Op.addTeam ⟨"C", "z", "", []⟩)
    (runOp (Op.startAuction 1000 (some "A,B")) populated)

/-- The populated state after the start with the order A, B, the request of
A for c1 and its acceptance, the stop of the auction and the deletion of
team A. -/
def strandedPick : State :=
  runOp (Op.deleteTeam "A")
    (runOp Op.stopAuction
      (runOp (Op.acceptRequest 2000)
        (runOp (Op.requestCandidate "A" "c1" "1")
          (runOp (Op.startAuction 1000 (some "A,B")) populated))))

/-- Two candidates named Ann of class 1 with the same admission number (as a
CSV file with a repeated row adds them), a candidate of class 2 and the teams
A and B added to the empty initial state, the start with the order A, B, and
both candidates named Ann requested and accepted, the first by A and the
second by B. -/
def twinPicks : State :=
  runOp (Op.acceptRequest 3000)
    (runOp (Op.requestCandidate "B" "Ann" "1")
      (runOp (Op.acceptRequest 2000)
        (runOp (Op.requestCandidate "A" "Ann" "1")
          (runOp (Op.startAuction 1000 (some "A,B"))
            (runOp (Op.addCandidate ⟨"Cy", "2", "19", false, none⟩)
              (runOp (Op.addCandidate ⟨"Ann", "1", "17", false, none⟩)
                (runOp (Op.addCandidate ⟨"Ann", "1", "17", false, none⟩)
                  (runOp (Op.addTeam ⟨"B", "y", "", []⟩)
                    (runOp (Op.addTeam ⟨"A", "x", "", []⟩) defaultState)))))))))

/-- The populated state after the start with the order A, B, the request of
A for c1 and its acceptance. -/
def populatedPick : State :=
  runOp (Op.acceptRequest 2000)
    (runOp (Op.requestCandidate "A" "c1" "1")
      (runOp (Op.startAuction 1000 (some "A,B")) populated))

/-! ## Runs in which candidates and teams are only added -/

/-- The operations of a running auction together with the addition of a
candidate (unassigned) and of a team (empty roster, a name no team has yet),
as the forms and the CSV upload add them. -/
def growOp (s : State) : Op → Prop
  | Op.addCandidate candidate => candidate.assigned = false
  | Op.addTeam team => team.roster = [] ∧ team.name ∉ s.teams.map (fun t => t.name)
  | op => auctionOp op

/-- The state left by a successful `startAuction` on teams with pairwise
distinct names, as the team form keeps them. -/
def NamedStart (s : State) : Prop :=
  ∃ now orderStr s0, StartOk s0 ∧ (s0.teams.map (fun t => t.name)).Nodup ∧
    s = (startAuction now orderStr s0).state

/-- States of a run that begins with such a start and continues with
setTurnOrder, requestCandidate, acceptRequest, rejectRequest, timer ticks and
additions of candidates and teams. -/
def GrowingRun (s : State) : Prop :=
  ReachBy growOp NamedStart s

/-- Facts kept by every state of such a run: team names are pairwise
distinct; the turn order, a pending request and the selections name teams
only; the selections are as many as the assigned candidates and as the roster
entries, and each team has as many selections naming it as roster entries. -/
structure TallyInv (s : State) : Prop where
  names : (s.teams.map (fun t => t.name)).Nodup
  order : ∀ n ∈ s.auction.turnOrder, n ∈ s.teams.map (fun t => t.name)
  request : ∀ r, s.auction.pendingRequest = some r → r.team ∈ s.teams.map (fun t => t.name)
  known : ∀ x ∈ s.auction.selections, x.team ∈ s.teams.map (fun t => t.name)
  assigned : s.auction.selections.length = s.candidates.countP (fun c => c.assigned)
  rosters : s.auction.selections.length = (s.teams.map (fun t => t.roster.length)).sum
  perTeam : ∀ t ∈ s.teams,
    s.auction.selections.countP (fun x => x.team == t.name) = t.roster.length

/-- Every roster entry carries the flag `assigned`. -/
def RosterFlags (s : State) : Prop :=
  ∀ t ∈ s.teams, ∀ e ∈ t.roster, e.assigned = true

/-! ## Basic facts about the operations -/

theorem saveState_candidates (s : State) : (saveState s).candidates = s.candidates := rfl

theorem saveState_teams (s : State) : (saveState s).teams = s.teams := rfl

theorem saveState_stateVersion (s : State) :
    (saveState s).auction.stateVersion = s.auction.stateVersion + 1 := rfl

theorem nextTurn_candidates (now : Nat) (s : State) :
    (nextTurn now s).candidates = s.candidates := by
  unfold nextTurn
  simp only []
  split
  · split <;> rfl
  · rfl

theorem nextTurn_teams (now : Nat) (s : State) :
    (nextTurn now s).teams = s.teams := by
  unfold nextTurn
  simp only []
  split
  · split <;> rfl
  · rfl

theorem nextTurn_pendingRequest (now : Nat) (s : State) :
    (nextTurn now s).auction.pendingRequest = s.auction.pendingRequest := by
  unfold nextTurn
  simp only []
  split
  · split <;> rfl
  · rfl

theorem nextTurn_selections (now : Nat) (s : State) :
    (nextTurn now s).auction.selections = s.auction.selections := by
  unfold nextTurn
  simp only []
  split
  · split <;> rfl
  · rfl

theorem nextTurn_stateVersion (now : Nat) (s : State) :
    (nextTurn now s).auction.stateVersion = s.auction.stateVersion + 2 := by
  unfold nextTurn
  simp only []
  split
  · split <;> rfl
  · rfl

theorem acceptRequest_pendingRequest (now : Nat) (s : State) :
    (acceptRequest now s).auction.pendingRequest = none := by
  unfold acceptRequest
  split
  · assumption
  · split
    · rfl
    · simp [saveState, nextTurn_pendingRequest]

/-! ## Claims -/

/-- C1: requestCandidate succeeds (shows no alert) exactly when the status is
in_progress, the calling team is `turnOrder[currentTeamIndex]`, no request is
pending and some unassigned candidate has the given name and class, whatever
the current class is. When it fails the whole state, stateVersion included, is
unchanged; when it succeeds pendingRequest is the record of team, name and
class while candidates, teams, selections, turnOrder, currentTeamIndex and
currentClass are unchanged. -/
theorem requestCandidate_contract (team name classNum : String) (s : State) :
    ((requestCandidate team name classNum s).alerts = [] ↔
      (s.auction.status = Status.in_progress ∧
        s.auction.currentTeamIndex.bind (fun i => s.auction.turnOrder[i]?) = some team ∧
        s.auction.pendingRequest = none ∧
        ∃ c ∈ s.candidates, c.name = name ∧ c.cls = classNum ∧ c.assigned = false)) ∧
    ((requestCandidate team name classNum s).alerts ≠ [] →
      (requestCandidate team name classNum s).state = s) ∧
    ((requestCandidate team name classNum s).alerts = [] →
      (requestCandidate team name classNum s).state.auction.pendingRequest =
          some { team := team, candidate := name, cls := classNum } ∧
        (requestCandidate team name classNum s).state.candidates = s.candidates ∧
        (requestCandidate team name classNum s).state.teams = s.teams ∧
        (requestCandidate team name classNum s).state.auction.selections =
          s.auction.selections ∧
        (requestCandidate team name classNum s).state.auction.turnOrder =
          s.auction.turnOrder ∧
        (requestCandidate team name classNum s).state.auction.currentTeamIndex =
          s.auction.currentTeamIndex ∧
        (requestCandidate team name classNum s).state.auction.currentClass =
          s.auction.currentClass) := by
  unfold requestCandidate
  by_cases hst : s.auction.status = Status.in_progress
  swap
  · simp [hst]
  simp only [hst, ne_eq, not_true_eq_false, if_false, true_and]
  cases hcur : s.auction.currentTeamIndex.bind (fun i => s.auction.turnOrder[i]?) with
  | none => simp
  | some currentTeam =>
    by_cases hteam : currentTeam = team
    swap
    · simp [hteam]
    subst hteam
    cases hpend : s.auction.pendingRequest with
    | some p => simp
    | none =>
      cases hfind : s.candidates.find? (isAvailable name classNum) with
      | none =>
        have hnone := List.find?_eq_none.mp hfind
        have hno : ¬ ∃ c ∈ s.candidates, c.name = name ∧ c.cls = classNum ∧ c.assigned = false := by
          rintro ⟨c, hc, hn, hcl, ha⟩
          exact hnone c hc (by simp [isAvailable, hn, hcl, ha])
        simp [hno]
      | some c =>
        have hmem := List.mem_of_find?_eq_some hfind
        have hp := List.find?_some hfind
        simp only [isAvailable, Bool.and_eq_true, beq_iff_eq, Bool.not_eq_true'] at hp
        have hyes : ∃ c ∈ s.candidates, c.name = name ∧ c.cls = classNum ∧ c.assigned = false :=
          ⟨c, hmem, hp.1.1, hp.1.2, hp.2⟩
        simp [hyes, saveState]


/-- C1 at a concrete state: team A holds the turn, nothing is pending and the
candidate Ann of class 2 is unassigned while the current class is 1. -/
theorem requestCandidate_contract_witness :
    (requestCandidate "A" "Ann" "2"
      { candidates := [⟨"Ann", "2", "17", false, none⟩]
        teams := [⟨"A", "x", "", []⟩, ⟨"B", "y", "", []⟩]
        auction := { defaultState.auction with
          status := Status.in_progress, turnOrder := ["A", "B"] } }).state.auction.pendingRequest
      = some { team := "A", candidate := "Ann", cls := "2" } :=
  ((requestCandidate_contract "A" "Ann" "2" _).2.2 (by decide)).1

/-- C5: startAuction fails, leaving the whole state unchanged, unless there is
a candidate, at least two teams and at least as many candidates as teams. When
the three conditions hold, the state right after the start (with the prompt for
the turn order left unanswered) has status in_progress, current class 1,
current team index 0, no selections, no pending request, every candidate
unassigned and every roster empty; the same holds whatever is answered to the
prompt. -/
theorem startAuction_contract (now : Nat) (orderStr : Option String) (s : State) :
    (¬ (s.candidates ≠ [] ∧ 2 ≤ s.teams.length ∧ s.teams.length ≤ s.candidates.length) →
      (startAuction now orderStr s).state = s ∧ (startAuction now orderStr s).alerts ≠ []) ∧
    ((s.candidates ≠ [] ∧ 2 ≤ s.teams.length ∧ s.teams.length ≤ s.candidates.length) →
      startAuction now none s = { state := startAuctionReset now s, alerts := [] } ∧
      (startAuction now orderStr s).state.auction.status = Status.in_progress ∧
      (startAuction now orderStr s).state.auction.currentClass = "1" ∧
      (startAuction now orderStr s).state.auction.currentTeamIndex = some 0 ∧
      (startAuction now orderStr s).state.auction.selections = [] ∧
      (startAuction now orderStr s).state.auction.pendingRequest = none ∧
      (∀ c ∈ (startAuction now orderStr s).state.candidates, c.assigned = false) ∧
      (∀ t ∈ (startAuction now orderStr s).state.teams, t.roster = []) ∧
      (startAuction now orderStr s).state.candidates.length = s.candidates.length ∧
      (startAuction now orderStr s).state.teams.length = s.teams.length) := by
  constructor
  · intro h
    unfold startAuction
    by_cases h1 : s.candidates.length = 0
    · simp [h1]
    by_cases h2 : s.teams.length < 2
    · simp [h1, h2]
    by_cases h3 : s.candidates.length < s.teams.length
    · simp [h1, h2, h3]
    exfalso
    apply h
    refine ⟨fun hnil => h1 (by simp [hnil]), by omega, by omega⟩
  · rintro ⟨hc, ht, hct⟩
    have h1 : ¬ s.candidates.length = 0 := fun h => hc (List.length_eq_zero.mp h)
    have h2 : ¬ s.teams.length < 2 := by omega
    have h3 : ¬ s.candidates.length < s.teams.length := by omega
    have hstart : startAuction now orderStr s = setTurnOrder now orderStr (startAuctionReset now s) := by
      simp [startAuction, h1, h2, h3]
    have hnone : startAuction now none s = { state := startAuctionReset now s, alerts := [] } := by
      simp [startAuction, h1, h2, h3, setTurnOrder]
    refine ⟨hnone, ?_⟩
    rw [hstart]
    unfold setTurnOrder
    split
    · simp [startAuctionReset, saveState]
    · split
      · simp [startAuctionReset, saveState]
      · simp only []
        split <;> simp [startAuctionReset, saveState]

/-- C5 at a concrete state: two candidates, two teams, one candidate assigned
and sitting in a roster beforehand. -/
theorem startAuction_contract_witness :
    (startAuction 5 none
      { candidates := [⟨"Ann", "1", "17", true, none⟩, ⟨"Bob", "2", "18", false, none⟩]
        teams := [⟨"A", "x", "", [⟨"Ann", "1", "17", true, none⟩]⟩, ⟨"B", "y", "", []⟩]
        auction := defaultState.auction }).state.auction.status = Status.in_progress :=
  ((startAuction_contract 5 none _).2 (by decide)).2.1

/-- C6: rejectRequest clears pendingRequest and does not advance the turn:
turnOrder, currentTeamIndex, currentClass, status, turnStartTime, selections,
the candidates (hence every assigned flag) and the teams (hence every roster)
are unchanged, and stateVersion strictly increases. -/
theorem rejectRequest_frame (s : State) :
    (rejectRequest s).auction.pendingRequest = none ∧
    (rejectRequest s).auction.turnOrder = s.auction.turnOrder ∧
    (rejectRequest s).auction.currentTeamIndex = s.auction.currentTeamIndex ∧
    (rejectRequest s).auction.currentClass = s.auction.currentClass ∧
    (rejectRequest s).auction.status = s.auction.status ∧
    (rejectRequest s).auction.turnStartTime = s.auction.turnStartTime ∧
    (rejectRequest s).auction.selections = s.auction.selections ∧
    (rejectRequest s).candidates = s.candidates ∧
    (rejectRequest s).candidates.map (fun c => c.assigned) =
      s.candidates.map (fun c => c.assigned) ∧
    (rejectRequest s).teams = s.teams ∧
    (rejectRequest s).teams.map (fun t => t.roster) = s.teams.map (fun t => t.roster) ∧
    s.auction.stateVersion < (rejectRequest s).auction.stateVersion := by
  refine ⟨rfl, rfl, rfl, rfl, rfl, rfl, rfl, rfl, rfl, rfl, rfl, ?_⟩
  simp only [rejectRequest, saveState]
  omega

/-- C7: with no pending request acceptRequest leaves the whole state,
stateVersion included, unchanged; and for every state a second acceptRequest in
a row gives the same state as the first. -/
theorem acceptRequest_idempotent (now later : Nat) (s : State) :
    (s.auction.pendingRequest = none → acceptRequest now s = s) ∧
    acceptRequest later (acceptRequest now s) = acceptRequest now s := by
  have hnoop : ∀ (n : Nat) (t : State), t.auction.pendingRequest = none → acceptRequest n t = t := by
    intro n t h
    unfold acceptRequest
    simp [h]
  exact ⟨hnoop now s, hnoop later _ (acceptRequest_pendingRequest now s)⟩

/-- C9: loadState replaces the local state by the fetched one only if the
fetched stateVersion is strictly greater than lastStateVersion; when that
version is smaller or equal, or when nothing is stored, the local state and
lastStateVersion are unchanged; and when the fetched version is greater the
fetched state becomes the local state and its version becomes
lastStateVersion. -/
theorem loadState_version_gate (t : Tab) (fetched : State) :
    loadState none t = t ∧
    (fetched.auction.stateVersion ≤ t.lastStateVersion → loadState (some fetched) t = t) ∧
    (t.lastStateVersion < fetched.auction.stateVersion →
      (loadState (some fetched) t).state = fetched ∧
      (loadState (some fetched) t).lastStateVersion = fetched.auction.stateVersion) ∧
    (loadState (some fetched) t ≠ t → t.lastStateVersion < fetched.auction.stateVersion) := by
  refine ⟨rfl, ?_, ?_, ?_⟩
  · intro h
    have : ¬ fetched.auction.stateVersion > t.lastStateVersion := by omega
    simp [loadState, this]
  · intro h
    have : fetched.auction.stateVersion > t.lastStateVersion := h
    simp [loadState, this]
  · intro h
    by_contra hlt
    apply h
    have : ¬ fetched.auction.stateVersion > t.lastStateVersion := hlt
    simp [loadState, this]


/-! ## The class scan of `nextTurn` -/

theorem parseInt_classLabel (n : Nat) (h : n ≤ 10) : parseInt (classLabel n) = some (n : Int) := by
  interval_cases n <;> decide

theorem numToString_natCast (n : Nat) : numToString (some (n : Int)) = classLabel n := rfl

theorem any_isUnassignedIn_iff (s : State) (label : String) :
    s.candidates.any (isUnassignedIn label) = true ↔ hasUnassigned s label := by
  simp [List.any_eq_true, isUnassignedIn, hasUnassigned]

theorem scanClasses_spec (cands : List Candidate) (d : Nat) : ∀ n : Nat, n + d = 10 →
    (scanClasses cands (d + 1) (classLabel n) = none ∧
      ∀ j, n ≤ j → j ≤ 9 → cands.any (isUnassignedIn (classLabel j)) = false) ∨
    (∃ k, n ≤ k ∧ k ≤ 9 ∧ scanClasses cands (d + 1) (classLabel n) = some (classLabel k) ∧
      cands.any (isUnassignedIn (classLabel k)) = true ∧
      ∀ j, n ≤ j → j < k → cands.any (isUnassignedIn (classLabel j)) = false) := by
  induction d with
  | zero =>
    intro n hn
    have h10 : n = 10 := by omega
    subst h10
    left
    have hparse := parseInt_classLabel 10 (le_refl 10)
    refine ⟨?_, fun j h1 h2 => by omega⟩
    simp only [scanClasses, hparse]
    simp
  | succ d ih =>
    intro n hn
    have hle : n ≤ 10 := by omega
    have hparse := parseInt_classLabel n hle
    have h9 : ((n : Int) ≤ 9) := by omega
    by_cases hany : cands.any (isUnassignedIn (classLabel n)) = true
    · right
      refine ⟨n, le_refl n, by omega, ?_, hany, fun j h1 h2 => by omega⟩
      simp only [scanClasses, hparse, h9, if_true, hany]
    · have hstep : scanClasses cands (d + 1 + 1) (classLabel n) =
          scanClasses cands (d + 1) (classLabel (n + 1)) := by
        have hcast : ((n : Int) + 1) = ((n + 1 : Nat) : Int) := by push_cast; rfl
        simp only [scanClasses, hparse, h9, if_true, hany, hcast, numToString_natCast]
        simp
      have hfalse : cands.any (isUnassignedIn (classLabel n)) = false := by
        simpa using hany
      rcases ih (n + 1) (by omega) with ⟨hnone, hall⟩ | ⟨k, hk1, hk2, hsome, hk, hbelow⟩
      · left
        refine ⟨by rw [hstep]; exact hnone, fun j h1 h2 => ?_⟩
        rcases Nat.eq_or_lt_of_le h1 with h | h
        · subst h; exact hfalse
        · exact hall j h h2
      · right
        refine ⟨k, by omega, hk2, by rw [hstep]; exact hsome, hk, fun j h1 h2 => ?_⟩
        rcases Nat.eq_or_lt_of_le h1 with h | h
        · subst h; exact hfalse
        · exact hbelow j h h2


theorem remaining_eq_zero_iff (s : State) (label : String) :
    (s.candidates.filter (isUnassignedIn label)).length = 0 ↔ ¬ hasUnassigned s label := by
  rw [← any_isUnassignedIn_iff, List.length_eq_zero, List.filter_eq_nil_iff, List.any_eq_true]
  simp

theorem scanFuel_classLabel (cur : Nat) (h : cur ≤ 9) :
    scanFuel (classLabel cur) = (9 - cur) + 1 := by
  have hparse := parseInt_classLabel cur (by omega)
  simp only [scanFuel, hparse]
  omega

theorem nextLabel_classLabel (cur : Nat) (h : cur ≤ 9) :
    numToString ((parseInt (classLabel cur)).map (fun n => n + 1)) = classLabel (cur + 1) := by
  have hparse := parseInt_classLabel cur (by omega)
  have hcast : ((cur : Int) + 1) = ((cur + 1 : Nat) : Int) := by push_cast; rfl
  simp only [hparse, Option.map_some', hcast, numToString_natCast]

/-- C3: for every state whose current class is one of the labels 1 to 9,
nextTurn satisfies the reference definition of the turn advance: rotation of
the index modulo the length of turnOrder when the current class still has an
unassigned candidate, move to the smallest higher label up to 9 that has one
otherwise, completion when there is none; candidates, rosters, selections and
pendingRequest are unchanged in every branch. -/
theorem nextTurn_refines_spec (now : Nat) (s : State) (cur : Nat)
    (hlo : 1 ≤ cur) (hhi : cur ≤ 9) (hcur : s.auction.currentClass = classLabel cur) :
    NextTurnSpec cur s (nextTurn now s) := by
  refine ⟨nextTurn_candidates now s, nextTurn_teams now s, nextTurn_selections now s,
    nextTurn_pendingRequest now s, ?_⟩
  by_cases hrem : (s.candidates.filter (isUnassignedIn s.auction.currentClass)).length = 0
  · have hnot := (remaining_eq_zero_iff s _).mp hrem
    right
    have hfuel := scanFuel_classLabel cur hhi
    have hnext := nextLabel_classLabel cur hhi
    have hrem' := hrem
    rw [hcur] at hrem'
    have hscan := scanClasses_spec s.candidates (9 - cur) (cur + 1) (by omega)
    rcases hscan with ⟨hnone, hall⟩ | ⟨k, hk1, hk2, hsome, hk, hbelow⟩
    · right
      have hrun : nextTurn now s = saveState { s with auction := { s.auction with
          status := Status.completed
          turnOrder := []
          currentTeamIndex := some 0
          turnStartTime := none
          stateVersion := s.auction.stateVersion + 1 } } := by
        simp only [nextTurn, hcur, hrem', if_true, hfuel, hnext, hnone]
      refine ⟨hnot, fun j h1 h2 hj => ?_, ?_⟩
      · have := hall j (by omega) h2
        rw [(any_isUnassignedIn_iff s _).mpr hj] at this
        exact absurd this (by simp)
      · rw [hrun]
        exact ⟨rfl, rfl, rfl, rfl⟩
    · left
      have hrun : nextTurn now s = saveState { s with auction := { s.auction with
          currentClass := classLabel k
          turnOrder := []
          currentTeamIndex := some 0
          turnStartTime := none
          stateVersion := s.auction.stateVersion + 1 } } := by
        simp only [nextTurn, hcur, hrem', if_true, hfuel, hnext, hsome]
      refine ⟨hnot, k, by omega, hk2, (any_isUnassignedIn_iff s _).mp hk, fun j h1 h2 hj => ?_, ?_⟩
      · have := hbelow j (by omega) h2
        rw [(any_isUnassignedIn_iff s _).mpr hj] at this
        exact absurd this (by simp)
      · rw [hrun]
        exact ⟨rfl, rfl, rfl, rfl, rfl⟩
  · have hyes : hasUnassigned s s.auction.currentClass := by
      by_contra h
      exact hrem ((remaining_eq_zero_iff s _).mpr h)
    left
    have hrun : nextTurn now s = saveState { s with auction := { s.auction with
        currentTeamIndex :=
          s.auction.currentTeamIndex.bind (fun i => jsMod (i + 1) s.auction.turnOrder.length)
        turnStartTime := some now
        stateVersion := s.auction.stateVersion + 1 } } := by
      simp only [nextTurn, hrem, if_false]
    rw [hrun]
    exact ⟨hyes, rfl, rfl, rfl, rfl⟩

/-- C3 at a concrete state: class 1 is exhausted, classes 2 and 3 are empty,
class 4 has an unassigned candidate. -/
theorem nextTurn_refines_spec_witness :
    NextTurnSpec 1
      { candidates := [⟨"Ann", "1", "17", true, none⟩, ⟨"Bob", "4", "18", false, none⟩]
        teams := [⟨"A", "x", "", [⟨"Ann", "1", "17", true, none⟩]⟩, ⟨"B", "y", "", []⟩]
        auction := { defaultState.auction with
          status := Status.in_progress, turnOrder := ["A", "B"] } }
      (nextTurn 7
        { candidates := [⟨"Ann", "1", "17", true, none⟩, ⟨"Bob", "4", "18", false, none⟩]
          teams := [⟨"A", "x", "", [⟨"Ann", "1", "17", true, none⟩]⟩, ⟨"B", "y", "", []⟩]
          auction := { defaultState.auction with
            status := Status.in_progress, turnOrder := ["A", "B"] } }) :=
  nextTurn_refines_spec 7 _ 1 (by decide) (by decide) (by decide)


/-! ## The timer -/

theorem mem_markAssigned_of_find (p : Candidate → Bool) (c : Candidate) :
    ∀ l : List Candidate, l.find? p = some c → { c with assigned := true } ∈ markAssigned p l := by
  intro l
  induction l with
  | nil => intro h; simp at h
  | cons x xs ih =>
    intro h
    by_cases hx : p x = true
    · simp only [List.find?, hx] at h
      have hxc : x = c := Option.some.inj h
      subst hxc
      simp [markAssigned, hx]
    · have hx' : p x = false := by simpa using hx
      simp only [List.find?, hx'] at h
      simp only [markAssigned, hx', Bool.false_eq_true, if_false]
      exact List.mem_cons_of_mem _ (ih h)

theorem acceptRequest_candidates (now : Nat) (s : State) (req : PendingRequest) (c : Candidate)
    (hreq : s.auction.pendingRequest = some req)
    (hfind : s.candidates.find? (isAvailable req.candidate req.cls) = some c) :
    (acceptRequest now s).candidates =
      markAssigned (isAvailable req.candidate req.cls) s.candidates := by
  simp only [acceptRequest, hreq, hfind, saveState_candidates, nextTurn_candidates]

theorem acceptRequest_stateVersion_lt (now : Nat) (s : State) (req : PendingRequest)
    (hreq : s.auction.pendingRequest = some req) :
    s.auction.stateVersion < (acceptRequest now s).auction.stateVersion := by
  unfold acceptRequest
  simp only [hreq]
  split
  · simp only [saveState]
    omega
  · simp only [saveState_stateVersion, nextTurn_stateVersion]
    omega

theorem timeLeft_eq (now start : Nat) (h : start ≤ now) :
    timeLeft now start = ((TURN_DURATION - (now - start) / 1000 : Nat) : Int) := by
  simp only [timeLeft, TURN_DURATION, max_def]
  split_ifs <;> omega

theorem timerIdle_eq_false (s : State) (start : Nat)
    (hst : s.auction.status = Status.in_progress) (hto : s.auction.turnOrder ≠ [])
    (hstart : s.auction.turnStartTime = some start) (hpos : 0 < start) :
    timerIdle s = false := by
  obtain ⟨n, rfl⟩ : ∃ n, start = n + 1 := ⟨start - 1, by omega⟩
  simp [timerIdle, hst, hto, hstart, timeIsSet]

/-- C8: at a tick at time `now` in a state with status in_progress, a
non-empty turnOrder and a set turnStartTime `start` not after `now`, the
remaining time shown is max(0, 30 - floor((now - start) / 1000)), it lies
between 0 and 30, and the tick changes the state exactly when
now - start is at least 30000 ms: it then runs acceptRequest when a request is
pending (the candidate found for the request becomes assigned) and nextTurn,
followed by the saveState the timer adds, when none is. When the status is not
in_progress, or turnOrder is empty, or turnStartTime is unset, the tick
changes no state and shows the full duration. -/
theorem updateTimer_tick (now : Nat) (s : State) :
    (∀ start : Nat, s.auction.status = Status.in_progress → s.auction.turnOrder ≠ [] →
      s.auction.turnStartTime = some start → 0 < start → start ≤ now →
      timerDisplay now s = max 0 (30 - ((now : Int) - (start : Int)) / 1000) ∧
      timerDisplay now s = ((30 - (now - start) / 1000 : Nat) : Int) ∧
      0 ≤ timerDisplay now s ∧ timerDisplay now s ≤ 30 ∧
      (updateTimer now s ≠ s ↔ 30000 ≤ now - start) ∧
      (30000 ≤ now - start → s.auction.pendingRequest ≠ none →
        updateTimer now s = acceptRequest now s ∧
        ∀ req c, s.auction.pendingRequest = some req →
          s.candidates.find? (isAvailable req.candidate req.cls) = some c →
          { c with assigned := true } ∈ (updateTimer now s).candidates) ∧
      (30000 ≤ now - start → s.auction.pendingRequest = none →
        updateTimer now s = saveState (nextTurn now s))) ∧
    ((s.auction.status ≠ Status.in_progress ∨ s.auction.turnOrder = [] ∨
        timeIsSet s.auction.turnStartTime = false) →
      updateTimer now s = s ∧ timerDisplay now s = 30) := by
  constructor
  · intro start hst hto hstart hpos hle
    have hidle := timerIdle_eq_false s start hst hto hstart hpos
    have hleft := timeLeft_eq now start hle
    have hdisp : timerDisplay now s = timeLeft now start := by
      simp [timerDisplay, hidle, hstart]
    have hexp : (timeLeft now start ≤ 0) ↔ 30000 ≤ now - start := by
      rw [hleft]
      simp only [TURN_DURATION]
      omega
    have hacc : 30000 ≤ now - start → s.auction.pendingRequest ≠ none →
        updateTimer now s = acceptRequest now s := by
      intro h hp
      have hsome : s.auction.pendingRequest.isSome = true := by
        cases hq : s.auction.pendingRequest with
        | none => exact absurd hq hp
        | some r => rfl
      simp [updateTimer, hidle, hstart, hexp.mpr h, hsome]
    have hnext : 30000 ≤ now - start → s.auction.pendingRequest = none →
        updateTimer now s = saveState (nextTurn now s) := by
      intro h hp
      simp [updateTimer, hidle, hstart, hexp.mpr h, hp]
    refine ⟨?_, ?_, ?_, ?_, ?_, ?_, hnext⟩
    · rw [hdisp]; simp [timeLeft, TURN_DURATION]
    · rw [hdisp, hleft]; simp [TURN_DURATION]
    · rw [hdisp, hleft]; omega
    · rw [hdisp, hleft]; simp only [TURN_DURATION]; omega
    · constructor
      · intro hne
        by_contra hlt
        apply hne
        have : ¬ timeLeft now start ≤ 0 := fun h => hlt (hexp.mp h)
        simp [updateTimer, hidle, hstart, this]
      · intro h hEq
        cases hq : s.auction.pendingRequest with
        | none =>
          have h1 := hnext h hq
          have h2 : (updateTimer now s).auction.stateVersion = s.auction.stateVersion + 3 := by
            rw [h1, saveState_stateVersion, nextTurn_stateVersion]
          rw [hEq] at h2
          omega
        | some r =>
          have h1 := hacc h (by simp [hq])
          have h2 := acceptRequest_stateVersion_lt now s r hq
          rw [← h1, hEq] at h2
          omega
    · intro h hp
      refine ⟨hacc h hp, fun req c hreq hfind => ?_⟩
      rw [hacc h hp, acceptRequest_candidates now s req c hreq hfind]
      exact mem_markAssigned_of_find _ c _ hfind
  · intro h
    have hidle : timerIdle s = true := by
      rcases h with h | h | h
      · simp [timerIdle, h]
      · simp [timerIdle, h]
      · simp [timerIdle, h]
    simp [updateTimer, timerDisplay, hidle, TURN_DURATION]

/-- C8 at a concrete tick: the turn started at 1000 ms, the tick comes at
31000 ms with a request pending for the unassigned candidate Ann; she is
assigned by the tick. -/
theorem updateTimer_tick_witness :
    ({ name := "Ann", cls := "1", admissionNumber := "17", assigned := true, image := none }
        : Candidate) ∈
      (updateTimer 31000
        { candidates := [⟨"Ann", "1", "17", false, none⟩, ⟨"Bob", "1", "18", false, none⟩]
          teams := [⟨"A", "x", "", []⟩, ⟨"B", "y", "", []⟩]
          auction := { defaultState.auction with
            status := Status.in_progress
            turnOrder := ["A", "B"]
            turnStartTime := some 1000
            pendingRequest := some ⟨"A", "Ann", "1"⟩ } }).candidates :=
  ((updateTimer_tick 31000 _).1 1000 (by decide) (by decide) (by decide) (by decide)
    (by decide)).2.2.2.2.2.1 (by decide) (by decide) |>.2 ⟨"A", "Ann", "1"⟩
      ⟨"Ann", "1", "17", false, none⟩ (by decide) (by decide)


/-! ## The state version -/

theorem setTurnOrder_stateVersion (now : Nat) (orderStr : Option String) (s : State) :
    (setTurnOrder now orderStr s).state = s ∨
      s.auction.stateVersion < (setTurnOrder now orderStr s).state.auction.stateVersion := by
  unfold setTurnOrder
  split
  · left; rfl
  · split
    · left; rfl
    · simp only []
      split
      · right
        simp only [saveState]
        omega
      · left; rfl

theorem startAuction_stateVersion (now : Nat) (orderStr : Option String) (s : State) :
    (startAuction now orderStr s).state = s ∨
      s.auction.stateVersion < (startAuction now orderStr s).state.auction.stateVersion := by
  unfold startAuction
  split
  · left; rfl
  · split
    · left; rfl
    · split
      · left; rfl
      · right
        have hreset : (startAuctionReset now s).auction.stateVersion =
            s.auction.stateVersion + 2 := rfl
        rcases setTurnOrder_stateVersion now orderStr (startAuctionReset now s) with h | h
        · rw [h, hreset]; omega
        · rw [hreset] at h; omega

theorem requestCandidate_stateVersion (team name classNum : String) (s : State) :
    (requestCandidate team name classNum s).state = s ∨
      s.auction.stateVersion <
        (requestCandidate team name classNum s).state.auction.stateVersion := by
  unfold requestCandidate
  split
  · left; rfl
  · split
    · left; rfl
    · split
      · left; rfl
      · split
        · left; rfl
        · split
          · left; rfl
          · right
            simp only [saveState]
            omega

theorem acceptRequest_stateVersion (now : Nat) (s : State) :
    acceptRequest now s = s ∨
      s.auction.stateVersion < (acceptRequest now s).auction.stateVersion := by
  cases hreq : s.auction.pendingRequest with
  | none => left; simp [acceptRequest, hreq]
  | some req => right; exact acceptRequest_stateVersion_lt now s req hreq

theorem updateTimer_stateVersion (now : Nat) (s : State) :
    updateTimer now s = s ∨
      s.auction.stateVersion < (updateTimer now s).auction.stateVersion := by
  unfold updateTimer
  split
  · left; rfl
  · split
    · split
      · exact acceptRequest_stateVersion now s
      · right
        rw [saveState_stateVersion, nextTurn_stateVersion]
        omega
    · left; rfl

theorem run_stateVersion (op : Op) (s : State) :
    runOp op s = s ∨ s.auction.stateVersion < (runOp op s).auction.stateVersion := by
  cases op with
  | saveState => right; simp [runOp, saveState]
  | addCandidate c => right; simp [runOp, addCandidate, saveState]
  | addTeam t => right; simp [runOp, addTeam, saveState]
  | deleteCandidate name classNum =>
    simp only [runOp, deleteCandidate]
    split
    · left; rfl
    · right; simp [saveState]
  | deleteTeam name =>
    simp only [runOp, deleteTeam]
    split
    · left; rfl
    · right; simp [saveState]
  | startAuction now orderStr => exact startAuction_stateVersion now orderStr s
  | setTurnOrder now orderStr => exact setTurnOrder_stateVersion now orderStr s
  | requestCandidate team name classNum => exact requestCandidate_stateVersion team name classNum s
  | acceptRequest now => exact acceptRequest_stateVersion now s
  | rejectRequest =>
    right
    simp only [runOp, rejectRequest, saveState]
    omega
  | stopAuction =>
    right
    simp only [runOp, stopAuction, saveState]
    omega
  | nextTurn now =>
    right
    simp only [runOp]
    rw [nextTurn_stateVersion]
    omega
  | updateTimer now => exact updateTimer_stateVersion now s

/-- C10, as the claim states it, fails for loadState: a tab that opened on an
empty store (lastStateVersion 0) and saved twice has local stateVersion 2; a
load that fetches a stored state of version 1 is applied, since 1 exceeds
lastStateVersion, and the local stateVersion drops from 2 to 1. -/
theorem loadState_lowers_stateVersion :
    (loadState
        (some { defaultState with auction := { defaultState.auction with stateVersion := 1 } })
        { state := saveState (saveState defaultState), lastStateVersion := 0 }
      ).state.auction.stateVersion <
    (saveState (saveState defaultState)).auction.stateVersion := by
  decide

/-- C10, amended: for every state and each of saveState, startAuction,
setTurnOrder, requestCandidate, acceptRequest, rejectRequest, nextTurn and
stopAuction (and the timer tick and the candidate and team operations), the
resulting stateVersion is at least the prior one, and strictly greater unless
the operation left the state unchanged; saveState adds exactly 1. For loadState
the result is either the unchanged tab or a state whose stateVersion exceeds
lastStateVersion, so the local stateVersion does not decrease whenever it was
at most lastStateVersion before the load. -/
theorem stateVersion_monotone (op : Op) (s : State) (t : Tab) (localData : Option State) :
    s.auction.stateVersion ≤ (runOp op s).auction.stateVersion ∧
    (runOp op s = s ∨ s.auction.stateVersion < (runOp op s).auction.stateVersion) ∧
    (saveState s).auction.stateVersion = s.auction.stateVersion + 1 ∧
    (loadState localData t = t ∨
      t.lastStateVersion < (loadState localData t).state.auction.stateVersion) ∧
    (t.state.auction.stateVersion ≤ t.lastStateVersion →
      t.state.auction.stateVersion ≤ (loadState localData t).state.auction.stateVersion) := by
  have hrun := run_stateVersion op s
  have hload : loadState localData t = t ∨
      t.lastStateVersion < (loadState localData t).state.auction.stateVersion := by
    unfold loadState
    split
    · left; rfl
    · split
      · right; assumption
      · left; rfl
  refine ⟨?_, hrun, rfl, hload, fun h => ?_⟩
  · rcases hrun with h | h
    · rw [h]
    · exact Nat.le_of_lt h
  · rcases hload with h' | h'
    · rw [h']
    · omega


/-! ## Validation of the turn order -/

theorem mem_uniqueValues (x : String) : ∀ l : List String, x ∈ uniqueValues l ↔ x ∈ l := by
  intro l
  induction l with
  | nil => simp [uniqueValues]
  | cons y ys ih =>
    simp only [uniqueValues, List.mem_cons, List.mem_filter, ih, bne_iff_ne, ne_eq]
    constructor
    · rintro (h | ⟨h, -⟩)
      · exact Or.inl h
      · exact Or.inr h
    · rintro (h | h)
      · exact Or.inl h
      · by_cases hxy : x = y
        · exact Or.inl hxy
        · exact Or.inr ⟨h, hxy⟩

theorem nodup_uniqueValues : ∀ l : List String, (uniqueValues l).Nodup := by
  intro l
  induction l with
  | nil => simp [uniqueValues]
  | cons y ys ih =>
    simp only [uniqueValues, List.nodup_cons, List.mem_filter, bne_iff_ne, ne_eq, not_true_eq_false,
      and_false, not_false_eq_true, true_and]
    exact ih.filter _

/-- What the test of `setTurnOrder` establishes: when the entered list passes
it, every entered name is a team name, every team name is entered and the team
names are pairwise distinct. Nothing is established about repetitions in the
entered list. -/
theorem setTurnOrder_test (order teamNames : List String)
    (hlen : (uniqueValues order).length = teamNames.length)
    (hall : (uniqueValues order).all (fun o => teamNames.contains o) = true) :
    (∀ o ∈ order, o ∈ teamNames) ∧ (∀ t ∈ teamNames, t ∈ order) ∧ teamNames.Nodup := by
  have hsub : uniqueValues order ⊆ teamNames := by
    intro o ho
    have := List.all_eq_true.mp hall o ho
    simpa using this
  have hperm : List.Perm (uniqueValues order) teamNames :=
    (List.subperm_of_subset (nodup_uniqueValues order) hsub).perm_of_length_le (by omega)
  refine ⟨fun o ho => hsub ((mem_uniqueValues o order).mpr ho), fun t ht => ?_, ?_⟩
  · exact (mem_uniqueValues t order).mp (hperm.mem_iff.mpr ht)
  · exact hperm.nodup_iff.mp (nodup_uniqueValues order)

/-- The part of the validation that holds: an entered list that names an
unknown team or omits a team is rejected and the state is left unchanged. -/
theorem setTurnOrder_rejects_unknown_or_missing (now : Nat) (str : String) (s : State)
    (h : (∃ o ∈ (jsSplitComma str).map jsTrim, o ∉ s.teams.map (fun t => t.name)) ∨
      (∃ t ∈ s.teams.map (fun t => t.name), t ∉ (jsSplitComma str).map jsTrim)) :
    (setTurnOrder now (some str) s).state = s := by
  unfold setTurnOrder
  simp only []
  split
  · rfl
  · split
    · rename_i hacc
      have htest := setTurnOrder_test _ _ hacc.1 hacc.2
      rcases h with ⟨o, ho, hno⟩ | ⟨t, ht, hnt⟩
      · exact absurd (htest.1 o ho) hno
      · exact absurd (htest.2.1 t ht) hnt
    · rfl

/-- C4: the claim fails on the code for a list with a duplicate. With the
teams A and B, the entered text "A,A,B" is no permutation of the team names (it
repeats A), yet setTurnOrder shows no alert, stores the list with its duplicate
as turnOrder, resets currentTeamIndex and raises stateVersion by 2: the test
is made on the de-duplicated list while the entered list is stored. -/
theorem setTurnOrder_accepts_duplicate :
    ¬ (["A", "A", "B"] : List String).Nodup ∧
    (jsSplitComma "A,A,B").map jsTrim = ["A", "A", "B"] ∧
    (setTurnOrder 5 (some "A,A,B")
      { candidates := [⟨"Ann", "1", "17", false, none⟩, ⟨"Bob", "1", "18", false, none⟩]
        teams := [⟨"A", "x", "", []⟩, ⟨"B", "y", "", []⟩]
        auction := { defaultState.auction with status := Status.in_progress } }) =
      { state :=
          { candidates := [⟨"Ann", "1", "17", false, none⟩, ⟨"Bob", "1", "18", false, none⟩]
            teams := [⟨"A", "x", "", []⟩, ⟨"B", "y", "", []⟩]
            auction := { defaultState.auction with
              status := Status.in_progress
              turnOrder := ["A", "A", "B"]
              currentTeamIndex := some 0
              turnStartTime := some 5
              stateVersion := 2 } }
        alerts := [] } := by
  decide


/-! ## Invariant of the reachable states -/

theorem Inv.congr {s s' : State} (h : Inv s) (hc : s'.candidates = s.candidates)
    (ht : s'.teams = s.teams) (hst : s'.auction.status = s.auction.status)
    (hp : s'.auction.pendingRequest = s.auction.pendingRequest)
    (ho : s'.auction.turnOrder = s.auction.turnOrder) : Inv s' := by
  constructor
  · rw [hst, hp]; exact h.idle
  · rw [hst, ho, ht]; exact h.order
  · rw [hp, ht]; exact h.request
  · rw [hst, ht, hc]; exact h.roster

theorem inv_saveState {s : State} (h : Inv s) : Inv (saveState s) :=
  h.congr rfl rfl rfl rfl rfl

theorem nextTurn_status (now : Nat) (s : State) :
    (nextTurn now s).auction.status = s.auction.status ∨
      (nextTurn now s).auction.status = Status.completed := by
  unfold nextTurn
  simp only []
  split
  · split
    · left; rfl
    · right; rfl
  · left; rfl

theorem nextTurn_turnOrder (now : Nat) (s : State) :
    (nextTurn now s).auction.turnOrder = s.auction.turnOrder ∨
      (nextTurn now s).auction.turnOrder = [] := by
  unfold nextTurn
  simp only []
  split
  · split <;> (right; rfl)
  · left; rfl

theorem inv_nextTurn (now : Nat) {s : State} (h : Inv s)
    (hp : s.auction.pendingRequest = none) : Inv (nextTurn now s) := by
  have hc := nextTurn_candidates now s
  have ht := nextTurn_teams now s
  have hpn := nextTurn_pendingRequest now s
  constructor
  · intro _; rw [hpn]; exact hp
  · intro hst n hn
    rw [ht]
    have hst' : s.auction.status = Status.in_progress := by
      rcases nextTurn_status now s with h1 | h1
      · rw [← h1]; exact hst
      · rw [h1] at hst; exact absurd hst (by decide)
    rcases nextTurn_turnOrder now s with h2 | h2
    · rw [h2] at hn; exact h.order hst' n hn
    · rw [h2] at hn; simp at hn
  · intro r hr
    rw [hpn, hp] at hr
    exact absurd hr (by simp)
  · intro hst
    rw [ht, hc]
    have hst' : s.auction.status = Status.in_progress := by
      rcases nextTurn_status now s with h1 | h1
      · rw [← h1]; exact hst
      · rw [h1] at hst; exact absurd hst (by decide)
    exact h.roster hst'

theorem inv_setTurnOrder (now : Nat) (orderStr : Option String) {s : State} (h : Inv s) :
    Inv (setTurnOrder now orderStr s).state := by
  unfold setTurnOrder
  split
  · exact h
  · split
    · exact h
    · simp only []
      split
      · rename_i hacc
        have htest := setTurnOrder_test _ _ hacc.1 hacc.2
        constructor
        · exact h.idle
        · intro _ n hn
          exact htest.1 n hn
        · exact h.request
        · exact h.roster
      · exact h

theorem inv_startAuctionReset (now : Nat) (s : State) : Inv (startAuctionReset now s) := by
  constructor
  · intro _; rfl
  · intro _ n hn
    simp [startAuctionReset, saveState] at hn
  · intro r hr
    simp [startAuctionReset, saveState] at hr
  · intro _ t ht e he
    simp only [startAuctionReset, saveState, List.mem_map] at ht
    obtain ⟨t0, -, rfl⟩ := ht
    simp at he

theorem inv_startAuction (now : Nat) (orderStr : Option String) {s : State} (h : Inv s) :
    Inv (startAuction now orderStr s).state := by
  unfold startAuction
  split
  · exact h
  · split
    · exact h
    · split
      · exact h
      · exact inv_setTurnOrder now orderStr (inv_startAuctionReset now s)

theorem inv_of_startOk (now : Nat) (orderStr : Option String) (s : State) (h : StartOk s) :
    Inv (startAuction now orderStr s).state := by
  obtain ⟨h1, h2, h3⟩ := h
  have e1 : ¬ s.candidates.length = 0 := fun he => h1 (List.length_eq_zero.mp he)
  have e2 : ¬ s.teams.length < 2 := by omega
  have e3 : ¬ s.candidates.length < s.teams.length := by omega
  simp only [startAuction, e1, e2, e3, if_false]
  exact inv_setTurnOrder now orderStr (inv_startAuctionReset now s)

theorem inv_requestCandidate (team name classNum : String) {s : State} (h : Inv s) :
    Inv (requestCandidate team name classNum s).state := by
  unfold requestCandidate
  split
  · exact h
  · rename_i hst
    have hst' : s.auction.status = Status.in_progress := by
      by_contra hne
      exact hst hne
    split
    · exact h
    · rename_i currentTeam hcur
      split
      · exact h
      · split
        · exact h
        · split
          · exact h
          · have hmem : currentTeam ∈ s.auction.turnOrder := by
              cases hidx : s.auction.currentTeamIndex with
              | none => simp [hidx] at hcur
              | some i =>
                simp only [hidx, Option.some_bind] at hcur
                exact List.getElem?_mem hcur
            constructor
            · intro hne; exact absurd hst' hne
            · exact h.order
            · intro r hr
              simp only [saveState, Option.some.injEq] at hr
              subst hr
              exact h.order hst' currentTeam hmem
            · exact h.roster


theorem unshiftRoster_names (name : String) (c : Candidate) : ∀ ts : List Team,
    (unshiftRoster name c ts).map (fun t => t.name) = ts.map (fun t => t.name) := by
  intro ts
  induction ts with
  | nil => rfl
  | cons t ts ih =>
    by_cases ht : (t.name == name) = true
    · simp [unshiftRoster, ht]
    · simp [unshiftRoster, ht, ih]

theorem roster_unshiftRoster (name : String) (c : Candidate) : ∀ ts : List Team,
    ∀ t' ∈ unshiftRoster name c ts, ∀ e ∈ t'.roster, e = c ∨ ∃ t ∈ ts, e ∈ t.roster := by
  intro ts
  induction ts with
  | nil => intro t' ht'; simp [unshiftRoster] at ht'
  | cons t ts ih =>
    intro t' ht' e he
    by_cases ht : (t.name == name) = true
    · simp only [unshiftRoster, ht, if_true, List.mem_cons] at ht'
      rcases ht' with rfl | ht'
      · simp only [List.mem_cons] at he
        rcases he with rfl | he
        · exact Or.inl rfl
        · exact Or.inr ⟨t, List.mem_cons_self _ _, he⟩
      · exact Or.inr ⟨t', List.mem_cons_of_mem _ ht', he⟩
    · simp only [unshiftRoster, ht, Bool.false_eq_true, if_false, List.mem_cons] at ht'
      rcases ht' with rfl | ht'
      · exact Or.inr ⟨t', List.mem_cons_self _ _, he⟩
      · rcases ih t' ht' e he with h | ⟨u, hu, hue⟩
        · exact Or.inl h
        · exact Or.inr ⟨u, List.mem_cons_of_mem _ hu, hue⟩

theorem mem_markAssigned_of_mem (p : Candidate → Bool) (x : Candidate) :
    ∀ l : List Candidate, x ∈ l → p x = false → x ∈ markAssigned p l := by
  intro l
  induction l with
  | nil => intro h; simp at h
  | cons y ys ih =>
    intro hx hp
    by_cases hy : p y = true
    · simp only [markAssigned, hy, if_true]
      rcases List.mem_cons.mp hx with rfl | h
      · rw [hp] at hy; exact absurd hy (by simp)
      · exact List.mem_cons_of_mem _ h
    · simp only [markAssigned, hy, Bool.false_eq_true, if_false]
      rcases List.mem_cons.mp hx with rfl | h
      · exact List.mem_cons_self _ _
      · exact List.mem_cons_of_mem _ (ih h hp)

theorem acceptRequest_eq (now : Nat) (s : State) (req : PendingRequest) (c : Candidate)
    (hreq : s.auction.pendingRequest = some req)
    (hfind : s.candidates.find? (isAvailable req.candidate req.cls) = some c) :
    acceptRequest now s = saveState (nextTurn now
      { candidates := markAssigned (isAvailable req.candidate req.cls) s.candidates
        teams := unshiftRoster req.team { c with assigned := true } s.teams
        auction := { s.auction with
          selections := s.auction.selections ++
            [{ candidate := req.candidate, cls := req.cls, team := req.team }]
          lastSelection := some
            { team := req.team, candidate := req.candidate, cls := req.cls, time := now }
          pendingRequest := none
          stateVersion := s.auction.stateVersion + 1 } }) := by
  simp only [acceptRequest, hreq, hfind]

theorem inv_acceptRequest (now : Nat) {s : State} (h : Inv s) : Inv (acceptRequest now s) := by
  cases hreq : s.auction.pendingRequest with
  | none =>
    have : acceptRequest now s = s := by simp [acceptRequest, hreq]
    rw [this]; exact h
  | some req =>
    cases hfind : s.candidates.find? (isAvailable req.candidate req.cls) with
    | none =>
      have : acceptRequest now s =
          saveState { s with auction := { s.auction with pendingRequest := none } } := by
        simp [acceptRequest, hreq, hfind]
      rw [this]
      apply inv_saveState
      constructor
      · intro _; rfl
      · exact h.order
      · intro r hr; exact absurd hr (by simp)
      · exact h.roster
    | some c =>
      rw [acceptRequest_eq now s req c hreq hfind]
      apply inv_saveState
      apply inv_nextTurn now _ rfl
      constructor
      · intro _; rfl
      · intro hst n hn
        simp only [unshiftRoster_names]
        exact h.order hst n hn
      · intro r hr; exact absurd hr (by simp)
      · intro hst t' ht' e he
        rcases roster_unshiftRoster _ _ _ t' ht' e he with rfl | ⟨t, ht, hte⟩
        · exact ⟨_, mem_markAssigned_of_find _ c _ hfind, rfl, rfl, rfl⟩
        · obtain ⟨x, hx, hxa, hxn, hxc⟩ := h.roster hst t ht e hte
          refine ⟨x, mem_markAssigned_of_mem _ x _ hx ?_, hxa, hxn, hxc⟩
          simp [isAvailable, hxa]

theorem inv_updateTimer (now : Nat) {s : State} (h : Inv s) : Inv (updateTimer now s) := by
  unfold updateTimer
  split
  · exact h
  · split
    · split
      · exact inv_acceptRequest now h
      · rename_i hp
        apply inv_saveState
        apply inv_nextTurn now h
        cases hq : s.auction.pendingRequest with
        | none => rfl
        | some r => simp [hq] at hp
    · exact h

theorem inv_runOp (op : Op) (hop : userOp op) {s : State} (h : Inv s) : Inv (runOp op s) := by
  cases op with
  | saveState => exact inv_saveState h
  | addCandidate c =>
    simp only [runOp, addCandidate]
    apply inv_saveState
    constructor
    · exact h.idle
    · exact h.order
    · exact h.request
    · intro hst t ht e he
      obtain ⟨x, hx, hrest⟩ := h.roster hst t ht e he
      exact ⟨x, List.mem_append_left _ hx, hrest⟩
  | addTeam team =>
    have hempty : team.roster = [] := hop
    simp only [runOp, addTeam]
    apply inv_saveState
    constructor
    · exact h.idle
    · intro hst n hn
      simp only [List.map_append, List.mem_append]
      exact Or.inl (h.order hst n hn)
    · intro r hr
      simp only [List.map_append, List.mem_append]
      exact Or.inl (h.request r hr)
    · intro hst t ht e he
      rcases List.mem_append.mp ht with ht | ht
      · exact h.roster hst t ht e he
      · simp only [List.mem_singleton] at ht
        subst ht
        rw [hempty] at he
        simp at he
  | deleteCandidate name classNum =>
    simp only [runOp, deleteCandidate]
    split
    · exact h
    · rename_i hst
      apply inv_saveState
      constructor
      · exact h.idle
      · intro hst'; exact absurd hst' hst
      · intro r hr
        rw [h.idle hst] at hr
        exact absurd hr (by simp)
      · intro hst'; exact absurd hst' hst
  | deleteTeam name =>
    simp only [runOp, deleteTeam]
    split
    · exact h
    · rename_i hst
      apply inv_saveState
      constructor
      · exact h.idle
      · intro hst'; exact absurd hst' hst
      · intro r hr
        rw [h.idle hst] at hr
        exact absurd hr (by simp)
      · intro hst'; exact absurd hst' hst
  | startAuction now orderStr => exact inv_startAuction now orderStr h
  | setTurnOrder now orderStr => exact inv_setTurnOrder now orderStr h
  | requestCandidate team name classNum => exact inv_requestCandidate team name classNum h
  | acceptRequest now => exact inv_acceptRequest now h
  | rejectRequest =>
    simp only [runOp, rejectRequest]
    apply inv_saveState
    constructor
    · intro _; rfl
    · exact h.order
    · intro r hr; exact absurd hr (by simp)
    · exact h.roster
  | stopAuction =>
    simp only [runOp, stopAuction]
    apply inv_saveState
    constructor
    · intro _; rfl
    · intro hst; exact Status.noConfusion hst
    · intro r hr; exact absurd hr (by simp)
    · intro hst; exact Status.noConfusion hst
  | nextTurn now => exact absurd hop (by simp [userOp])
  | updateTimer now => exact inv_updateTimer now h

theorem inv_of_reachable {s : State} (h : Reachable s) : Inv s := by
  induction h with
  | start now orderStr s hok => exact inv_of_startOk now orderStr s hok
  | step op s hop _ ih => exact inv_runOp op hop ih


/-! ## Accepting a request -/

theorem markAssigned_split (p : Candidate → Bool) (c : Candidate) :
    ∀ l : List Candidate, l.find? p = some c →
      ∃ l1 l2, l = l1 ++ c :: l2 ∧
        markAssigned p l = l1 ++ { c with assigned := true } :: l2 := by
  intro l
  induction l with
  | nil => intro h; simp at h
  | cons x xs ih =>
    intro h
    by_cases hx : p x = true
    · simp only [List.find?, hx] at h
      have hxc : x = c := Option.some.inj h
      subst hxc
      exact ⟨[], xs, rfl, by simp [markAssigned, hx]⟩
    · have hx' : p x = false := by simpa using hx
      simp only [List.find?, hx'] at h
      obtain ⟨l1, l2, h1, h2⟩ := ih h
      refine ⟨x :: l1, l2, by rw [h1]; rfl, ?_⟩
      simp only [markAssigned, hx', Bool.false_eq_true, if_false, h2, List.cons_append]

theorem unshiftRoster_split (name : String) (c : Candidate) :
    ∀ ts : List Team, name ∈ ts.map (fun t => t.name) →
      ∃ ts1 t ts2, ts = ts1 ++ t :: ts2 ∧ t.name = name ∧ (∀ u ∈ ts1, u.name ≠ name) ∧
        unshiftRoster name c ts = ts1 ++ { t with roster := c :: t.roster } :: ts2 := by
  intro ts
  induction ts with
  | nil => intro h; simp at h
  | cons t ts ih =>
    intro h
    by_cases ht : t.name = name
    · refine ⟨[], t, ts, rfl, ht, fun u hu => by simp at hu, ?_⟩
      simp [unshiftRoster, ht]
    · have hmem : name ∈ ts.map (fun t => t.name) := by
        simp only [List.map_cons, List.mem_cons] at h
        rcases h with h | h
        · exact absurd h.symm ht
        · exact h
      obtain ⟨ts1, u, ts2, h1, h2, h3, h4⟩ := ih hmem
      refine ⟨t :: ts1, u, ts2, by rw [h1]; rfl, h2, ?_, ?_⟩
      · intro v hv
        rcases List.mem_cons.mp hv with rfl | hv
        · exact ht
        · exact h3 v hv
      · simp [unshiftRoster, ht, h4]

theorem two_le_countP (p : Candidate → Bool) (x y : Candidate) (l : List Candidate)
    (hx : x ∈ l) (hy : y ∈ l) (hne : x ≠ y) (hpx : p x = true) (hpy : p y = true) :
    2 ≤ l.countP p := by
  rw [List.countP_eq_length_filter]
  have hx' : x ∈ l.filter p := List.mem_filter.mpr ⟨hx, hpx⟩
  have hy' : y ∈ l.filter p := List.mem_filter.mpr ⟨hy, hpy⟩
  generalize l.filter p = m at hx' hy'
  match m, hx', hy' with
  | [], hx', _ => simp at hx'
  | [a], hx', hy' =>
    simp only [List.mem_singleton] at hx' hy'
    exact absurd (hx'.trans hy'.symm) hne
  | _ :: _ :: _, _, _ => simp

/-- C2, as the claim states it, fails when two candidates share a name and
class: from a start with the twin candidates Ann of class 1 and the teams A
and B, after A has been given the first Ann and B has requested Ann, the state
is reachable, a request is pending and matches an unassigned candidate; after
acceptRequest the candidate is at the head of the roster of B and also in the
roster of the other team A. -/
theorem acceptRequest_twin_in_two_rosters :
    Reachable twinPending ∧
    twinPending.auction.pendingRequest = some ⟨"B", "Ann", "1"⟩ ∧
    twinPending.candidates.find? (isAvailable "Ann" "1") =
      some ⟨"Ann", "1", "17", false, none⟩ ∧
    (acceptRequest 3000 twinPending).teams =
      [⟨"A", "x", "", [⟨"Ann", "1", "17", true, none⟩]⟩,
       ⟨"B", "y", "", [⟨"Ann", "1", "17", true, none⟩]⟩] := by
  refine ⟨?_, by decide, by decide, by decide⟩
  exact Reachable.step _ _ True.intro
    (Reachable.step _ _ True.intro
      (Reachable.step _ _ True.intro
        (Reachable.start 1000 (some "A,B") twinStart (by unfold StartOk; decide))))

/-- C2, amended: in every state reachable from a successful start in which a
request is pending and its candidate and class match an unassigned candidate,
after acceptRequest that candidate is marked assigned in place, it is the first
element of the roster of the requesting team (the first team of that name) and
no other team is changed, selections is the old selections with the record of
candidate, class and team appended, and pendingRequest is none; and when no
assigned candidate of the state has that name and class, no other roster, nor
the rest of that roster, holds an entry of that name and class. -/
theorem acceptRequest_assigns (now : Nat) (s : State) (req : PendingRequest) (c : Candidate)
    (hreach : Reachable s)
    (hreq : s.auction.pendingRequest = some req)
    (hfind : s.candidates.find? (isAvailable req.candidate req.cls) = some c) :
    (∃ l1 l2, s.candidates = l1 ++ c :: l2 ∧
      (acceptRequest now s).candidates = l1 ++ { c with assigned := true } :: l2) ∧
    (∃ ts1 t ts2, s.teams = ts1 ++ t :: ts2 ∧ t.name = req.team ∧
      (∀ u ∈ ts1, u.name ≠ req.team) ∧
      (acceptRequest now s).teams =
        ts1 ++ { t with roster := { c with assigned := true } :: t.roster } :: ts2 ∧
      ((∀ x ∈ s.candidates, x.assigned = true → hasKey req.candidate req.cls x = false) →
        ∀ u ∈ ts1 ++ t :: ts2, ∀ e ∈ u.roster, hasKey req.candidate req.cls e = false)) ∧
    (acceptRequest now s).auction.selections = s.auction.selections ++
      [{ candidate := req.candidate, cls := req.cls, team := req.team }] ∧
    (acceptRequest now s).auction.pendingRequest = none := by
  have hinv := inv_of_reachable hreach
  have hrun := acceptRequest_eq now s req c hreq hfind
  have hst : s.auction.status = Status.in_progress := by
    by_contra hne
    have := hinv.idle hne
    rw [hreq] at this
    exact absurd this (by simp)
  have hnokey : (∀ x ∈ s.candidates, x.assigned = true →
      hasKey req.candidate req.cls x = false) →
      ∀ u ∈ s.teams, ∀ e ∈ u.roster, hasKey req.candidate req.cls e = false := by
    intro hfree u hu e he
    by_contra hk
    have hk' : hasKey req.candidate req.cls e = true := by simpa using hk
    simp only [hasKey, Bool.and_eq_true, beq_iff_eq] at hk'
    obtain ⟨x, hx, hxa, hxn, hxc⟩ := hinv.roster hst u hu e he
    have hxkey : hasKey req.candidate req.cls x = true := by
      simp [hasKey, hxn, hxc, hk'.1, hk'.2]
    rw [hfree x hx hxa] at hxkey
    exact absurd hxkey (by simp)
  refine ⟨?_, ?_, ?_, acceptRequest_pendingRequest now s⟩
  · obtain ⟨l1, l2, h1, h2⟩ := markAssigned_split _ c _ hfind
    exact ⟨l1, l2, h1, by rw [hrun, saveState_candidates, nextTurn_candidates]; exact h2⟩
  · obtain ⟨ts1, t, ts2, h1, h2, h3, h4⟩ :=
      unshiftRoster_split req.team { c with assigned := true } s.teams (hinv.request req hreq)
    refine ⟨ts1, t, ts2, h1, h2, h3, ?_, ?_⟩
    · rw [hrun, saveState_teams, nextTurn_teams]; exact h4
    · rw [← h1]; exact hnokey
  · rw [hrun]
    simp only [saveState, nextTurn_selections]

/-- C2 at the reachable state of the counterexample, in which team B has
requested the second candidate named Ann while the first is already assigned:
the request is cleared, the second Ann is marked and heads the roster of B. -/
theorem acceptRequest_assigns_witness :
    (acceptRequest 3000 twinPending).auction.pendingRequest = none :=
  (acceptRequest_assigns 3000 twinPending ⟨"B", "Ann", "1"⟩ ⟨"Ann", "1", "17", false, none⟩
    (Reachable.step _ _ True.intro
      (Reachable.step _ _ True.intro
        (Reachable.step _ _ True.intro
          (Reachable.start 1000 (some "A,B") twinStart (by unfold StartOk; decide)))))
    (by decide) (by decide)).2.2.2

/-! ## The shape of each operation -/

theorem splitChars_ne_nil (sep : Char) : ∀ cs : List Char, splitChars sep cs ≠ [] := by
  intro cs
  induction cs with
  | nil => simp [splitChars]
  | cons c cs ih =>
    simp only [splitChars]
    split
    · simp
    · split <;> simp

theorem setTurnOrder_shape (now : Nat) (orderStr : Option String) (s : State) :
    (setTurnOrder now orderStr s).state = s ∨
    ∃ order : List String, order ≠ [] ∧
      (∀ n ∈ order, n ∈ s.teams.map (fun t => t.name)) ∧
      (∀ n ∈ s.teams.map (fun t => t.name), n ∈ order) ∧
      (s.teams.map (fun t => t.name)).Nodup ∧
      (setTurnOrder now orderStr s).state = saveState { s with auction := { s.auction with
        turnOrder := order
        currentTeamIndex := some 0
        turnStartTime := some now
        stateVersion := s.auction.stateVersion + 1 } } := by
  unfold setTurnOrder
  split
  · left; rfl
  · rename_i str
    split
    · left; rfl
    · simp only []
      split
      · rename_i hacc
        right
        have htest := setTurnOrder_test _ _ hacc.1 hacc.2
        refine ⟨(jsSplitComma str).map jsTrim, ?_, htest.1, htest.2.1, htest.2.2, rfl⟩
        simp [jsSplitComma, splitChars_ne_nil]
      · left; rfl

theorem startAuction_shape (now : Nat) (orderStr : Option String) (s : State) :
    (startAuction now orderStr s).state = s ∨
    (StartOk s ∧
      (startAuction now orderStr s).state =
        (setTurnOrder now orderStr (startAuctionReset now s)).state) := by
  unfold startAuction
  split
  · left; rfl
  · split
    · left; rfl
    · split
      · left; rfl
      · rename_i h1 h2 h3
        right
        refine ⟨⟨fun hnil => h1 (by simp [hnil]), by omega, by omega⟩, rfl⟩

theorem startAuction_of_startOk (now : Nat) (orderStr : Option String) (s : State)
    (h : StartOk s) :
    (startAuction now orderStr s).state =
      (setTurnOrder now orderStr (startAuctionReset now s)).state := by
  obtain ⟨h1, h2, h3⟩ := h
  have e1 : ¬ s.candidates.length = 0 := fun he => h1 (List.length_eq_zero.mp he)
  have e2 : ¬ s.teams.length < 2 := by omega
  have e3 : ¬ s.candidates.length < s.teams.length := by omega
  simp only [startAuction, e1, e2, e3, if_false]

theorem requestCandidate_shape (team name classNum : String) (s : State) :
    (requestCandidate team name classNum s).state = s ∨
    (s.auction.status = Status.in_progress ∧ team ∈ s.auction.turnOrder ∧
      s.auction.pendingRequest = none ∧
      (requestCandidate team name classNum s).state = saveState { s with auction :=
        { s.auction with
          pendingRequest := some { team := team, candidate := name, cls := classNum } } }) := by
  unfold requestCandidate
  split
  · left; rfl
  · rename_i hst
    split
    · left; rfl
    · rename_i currentTeam hcur
      split
      · left; rfl
      · rename_i hteam
        split
        · left; rfl
        · rename_i hpend
          split
          · left; rfl
          · right
            have hteam' : currentTeam = team := by
              by_contra hne
              exact hteam hne
            subst hteam'
            refine ⟨by by_contra hne; exact hst hne, ?_, ?_, rfl⟩
            · cases hidx : s.auction.currentTeamIndex with
              | none => simp [hidx] at hcur
              | some i =>
                simp only [hidx, Option.some_bind] at hcur
                exact List.getElem?_mem hcur
            · cases hq : s.auction.pendingRequest with
              | none => rfl
              | some r => simp [hq] at hpend

theorem acceptRequest_eq_call (now : Nat) (s m : State) (h : acceptCall now s = some m) :
    acceptRequest now s = saveState (nextTurn now m) := by
  unfold acceptCall at h
  cases hreq : s.auction.pendingRequest with
  | none => simp [hreq] at h
  | some req =>
    cases hfind : s.candidates.find? (isAvailable req.candidate req.cls) with
    | none => simp [hreq, hfind] at h
    | some c =>
      simp only [hreq, hfind, Option.some.injEq] at h
      subst h
      exact acceptRequest_eq now s req c hreq hfind

theorem acceptRequest_shape (now : Nat) (s : State) :
    (s.auction.pendingRequest = none ∧ acceptCall now s = none ∧ acceptRequest now s = s) ∨
    (s.auction.pendingRequest ≠ none ∧ acceptCall now s = none ∧
      acceptRequest now s =
        saveState { s with auction := { s.auction with pendingRequest := none } }) ∨
    (∃ req c, s.auction.pendingRequest = some req ∧
      s.candidates.find? (isAvailable req.candidate req.cls) = some c ∧
      acceptCall now s = some (acceptedState now s req c) ∧
      acceptRequest now s = saveState (nextTurn now (acceptedState now s req c))) := by
  cases hreq : s.auction.pendingRequest with
  | none => left; simp [acceptCall, acceptRequest, hreq]
  | some req =>
    right
    cases hfind : s.candidates.find? (isAvailable req.candidate req.cls) with
    | none => left; simp [acceptCall, acceptRequest, hreq, hfind]
    | some c =>
      right
      have hcall : acceptCall now s = some (acceptedState now s req c) := by
        simp [acceptCall, hreq, hfind]
      exact ⟨req, c, rfl, hfind, hcall, acceptRequest_eq_call now s _ hcall⟩

theorem updateTimer_shape (now : Nat) (s : State) :
    (updateTimer now s = s ∧ nextTurnCall (Op.updateTimer now) s = none) ∨
    (s.auction.pendingRequest ≠ none ∧ updateTimer now s = acceptRequest now s ∧
      nextTurnCall (Op.updateTimer now) s = acceptCall now s) ∨
    (s.auction.pendingRequest = none ∧ s.auction.status = Status.in_progress ∧
      s.auction.turnOrder ≠ [] ∧ updateTimer now s = saveState (nextTurn now s) ∧
      nextTurnCall (Op.updateTimer now) s = some s) := by
  by_cases hidle : timerIdle s = true
  · left; simp [updateTimer, nextTurnCall, hidle]
  · by_cases hexp : timeLeft now (s.auction.turnStartTime.getD 0) ≤ 0
    swap
    · left; simp [updateTimer, nextTurnCall, hidle, hexp]
    right
    cases hreq : s.auction.pendingRequest with
    | some req =>
      left
      simp [updateTimer, nextTurnCall, hidle, hexp, hreq]
    | none =>
      right
      have hidle' : timerIdle s = false := by simpa using hidle
      simp only [timerIdle, Bool.or_eq_false_iff, decide_eq_false_iff_not, ne_eq, not_not,
        List.length_eq_zero] at hidle'
      refine ⟨rfl, hidle'.1.1, hidle'.1.2, ?_, ?_⟩
      · simp [updateTimer, hidle, hexp, hreq]
      · simp [nextTurnCall, hidle, hexp, hreq]

theorem nextTurn_rotate_or_reset (now : Nat) (s : State) :
    (rotates s ∧ nextTurn now s = saveState { s with auction := { s.auction with
      currentTeamIndex :=
        s.auction.currentTeamIndex.bind (fun i => jsMod (i + 1) s.auction.turnOrder.length)
      turnStartTime := some now
      stateVersion := s.auction.stateVersion + 1 } }) ∨
    (¬ rotates s ∧ ∃ st label, (st = s.auction.status ∨ st = Status.completed) ∧
      nextTurn now s = saveState { s with auction := { s.auction with
        status := st
        currentClass := label
        turnOrder := []
        currentTeamIndex := some 0
        turnStartTime := none
        stateVersion := s.auction.stateVersion + 1 } }) := by
  by_cases hrem : (s.candidates.filter (isUnassignedIn s.auction.currentClass)).length = 0
  · right
    refine ⟨by simp [rotates, hrem], ?_⟩
    unfold nextTurn
    simp only [hrem, if_true]
    split
    · rename_i label _
      exact ⟨s.auction.status, label, Or.inl rfl, rfl⟩
    · exact ⟨Status.completed, s.auction.currentClass, Or.inr rfl, rfl⟩
  · left
    refine ⟨hrem, ?_⟩
    simp only [nextTurn, hrem, if_false]

theorem nextTurn_shape (now : Nat) (s : State) (cur : Nat) (hlo : 1 ≤ cur) (hhi : cur ≤ 9)
    (hcur : s.auction.currentClass = classLabel cur) :
    (hasUnassigned s (classLabel cur) ∧
      nextTurn now s = saveState { s with auction := { s.auction with
        currentTeamIndex :=
          s.auction.currentTeamIndex.bind (fun i => jsMod (i + 1) s.auction.turnOrder.length)
        turnStartTime := some now
        stateVersion := s.auction.stateVersion + 1 } }) ∨
    (¬ hasUnassigned s (classLabel cur) ∧ ∃ k, cur < k ∧ k ≤ 9 ∧
      hasUnassigned s (classLabel k) ∧
      (∀ j, cur < j → j < k → ¬ hasUnassigned s (classLabel j)) ∧
      nextTurn now s = saveState { s with auction := { s.auction with
        currentClass := classLabel k
        turnOrder := []
        currentTeamIndex := some 0
        turnStartTime := none
        stateVersion := s.auction.stateVersion + 1 } }) ∨
    (¬ hasUnassigned s (classLabel cur) ∧
      (∀ k, cur < k → k ≤ 9 → ¬ hasUnassigned s (classLabel k)) ∧
      nextTurn now s = saveState { s with auction := { s.auction with
        status := Status.completed
        turnOrder := []
        currentTeamIndex := some 0
        turnStartTime := none
        stateVersion := s.auction.stateVersion + 1 } }) := by
  by_cases hrem : (s.candidates.filter (isUnassignedIn s.auction.currentClass)).length = 0
  · have hnot := (remaining_eq_zero_iff s _).mp hrem
    rw [hcur] at hnot
    right
    have hfuel := scanFuel_classLabel cur hhi
    have hnext := nextLabel_classLabel cur hhi
    have hrem' := hrem
    rw [hcur] at hrem'
    rcases scanClasses_spec s.candidates (9 - cur) (cur + 1) (by omega) with
      ⟨hnone, hall⟩ | ⟨k, hk1, hk2, hsome, hk, hbelow⟩
    · right
      refine ⟨hnot, fun j h1 h2 hj => ?_, ?_⟩
      · have := hall j (by omega) h2
        rw [(any_isUnassignedIn_iff s _).mpr hj] at this
        exact absurd this (by simp)
      · simp only [nextTurn, hcur, hrem', if_true, hfuel, hnext, hnone]
    · left
      refine ⟨hnot, k, by omega, hk2, (any_isUnassignedIn_iff s _).mp hk,
        fun j h1 h2 hj => ?_, ?_⟩
      · have := hbelow j (by omega) h2
        rw [(any_isUnassignedIn_iff s _).mpr hj] at this
        exact absurd this (by simp)
      · simp only [nextTurn, hcur, hrem', if_true, hfuel, hnext, hsome]
  · left
    have hyes : hasUnassigned s s.auction.currentClass := by
      by_contra h
      exact hrem ((remaining_eq_zero_iff s _).mpr h)
    rw [hcur] at hyes
    refine ⟨hyes, ?_⟩
    simp only [nextTurn, hrem, if_false]

/-! ## The current class and the turn index in reachable states -/

theorem hasUnassigned_congr {s s' : State} (label : String)
    (h : s'.candidates = s.candidates) : hasUnassigned s' label ↔ hasUnassigned s label := by
  simp only [hasUnassigned, h]

theorem ClassOk.congrClass {s s' : State} (h : ClassOk s)
    (hc : s'.auction.currentClass = s.auction.currentClass) : ClassOk s' := by
  obtain ⟨cur, h1, h9, hcur⟩ := h
  exact ⟨cur, h1, h9, hc.trans hcur⟩

theorem classOk_nextTurn (now : Nat) {s : State} (h : ClassOk s) : ClassOk (nextTurn now s) := by
  obtain ⟨cur, h1, h9, hcur⟩ := h
  rcases nextTurn_shape now s cur h1 h9 hcur with ⟨-, hrun⟩ | ⟨-, k, hk1, hk9, -, -, hrun⟩ |
    ⟨-, -, hrun⟩
  · rw [hrun]; exact ⟨cur, h1, h9, hcur⟩
  · rw [hrun]; exact ⟨k, by omega, hk9, rfl⟩
  · rw [hrun]; exact ⟨cur, h1, h9, hcur⟩

theorem classOk_setTurnOrder (now : Nat) (orderStr : Option String) {s : State}
    (h : ClassOk s) : ClassOk (setTurnOrder now orderStr s).state := by
  rcases setTurnOrder_shape now orderStr s with hs | ⟨order, -, -, -, -, hs⟩
  · rw [hs]; exact h
  · rw [hs]; exact h.congrClass rfl

theorem classOk_startAuctionReset (now : Nat) (s : State) : ClassOk (startAuctionReset now s) :=
  ⟨1, le_refl 1, by omega, rfl⟩

theorem classOk_acceptRequest (now : Nat) {s : State} (h : ClassOk s) :
    ClassOk (acceptRequest now s) := by
  rcases acceptRequest_shape now s with ⟨-, -, hs⟩ | ⟨-, -, hs⟩ | ⟨req, c, -, -, -, hs⟩
  · rw [hs]; exact h
  · rw [hs]; exact h.congrClass rfl
  · rw [hs]
    exact (classOk_nextTurn now (@ClassOk.congrClass s (acceptedState now s req c) h rfl)).congrClass rfl

theorem classOk_updateTimer (now : Nat) {s : State} (h : ClassOk s) :
    ClassOk (updateTimer now s) := by
  rcases updateTimer_shape now s with ⟨hs, -⟩ | ⟨-, hs, -⟩ | ⟨-, -, -, hs, -⟩
  · rw [hs]; exact h
  · rw [hs]; exact classOk_acceptRequest now h
  · rw [hs]; exact (classOk_nextTurn now h).congrClass rfl

theorem classOk_runOp (op : Op) {s : State} (h : ClassOk s) : ClassOk (runOp op s) := by
  cases op with
  | saveState => exact h.congrClass rfl
  | addCandidate c => exact h.congrClass rfl
  | addTeam t => exact h.congrClass rfl
  | deleteCandidate name classNum =>
    simp only [runOp, deleteCandidate]
    split
    · exact h
    · exact h.congrClass rfl
  | deleteTeam name =>
    simp only [runOp, deleteTeam]
    split
    · exact h
    · exact h.congrClass rfl
  | startAuction now orderStr =>
    simp only [runOp]
    rcases startAuction_shape now orderStr s with hs | ⟨-, hs⟩
    · rw [hs]; exact h
    · rw [hs]; exact classOk_setTurnOrder now orderStr (classOk_startAuctionReset now s)
  | setTurnOrder now orderStr => exact classOk_setTurnOrder now orderStr h
  | requestCandidate team name classNum =>
    simp only [runOp]
    rcases requestCandidate_shape team name classNum s with hs | ⟨-, -, -, hs⟩
    · rw [hs]; exact h
    · rw [hs]; exact h.congrClass rfl
  | acceptRequest now => exact classOk_acceptRequest now h
  | rejectRequest => exact h.congrClass rfl
  | stopAuction => exact h.congrClass rfl
  | nextTurn now => exact classOk_nextTurn now h
  | updateTimer now => exact classOk_updateTimer now h

theorem classOk_of_reachable {s : State} (h : Reachable s) : ClassOk s := by
  induction h with
  | start now orderStr s hok =>
    rw [startAuction_of_startOk now orderStr s hok]
    exact classOk_setTurnOrder now orderStr (classOk_startAuctionReset now s)
  | step op s _ _ ih => exact classOk_runOp op ih

theorem TurnInv.congrTurn {s s' : State} (h : TurnInv s)
    (hi : s'.auction.currentTeamIndex = s.auction.currentTeamIndex)
    (ho : s'.auction.turnOrder = s.auction.turnOrder)
    (hp : s'.auction.pendingRequest = s.auction.pendingRequest) : TurnInv s' := by
  constructor
  · rw [hi, ho]; exact h.index
  · rw [hp, ho]; exact h.pending

theorem turnInv_cleared {s' : State} (hi : s'.auction.currentTeamIndex = some 0)
    (ho : s'.auction.turnOrder = []) (hp : s'.auction.pendingRequest = none) : TurnInv s' := by
  constructor
  · exact ⟨0, hi, fun h => absurd ho h⟩
  · intro h; exact absurd hp h

theorem turnInv_nextTurn (now : Nat) {s : State} (h : TurnInv s)
    (hp : s.auction.pendingRequest = none) (hrot : rotates s → s.auction.turnOrder ≠ []) :
    TurnInv (nextTurn now s) := by
  rcases nextTurn_rotate_or_reset now s with ⟨hr, hrun⟩ | ⟨-, st, label, -, hrun⟩
  · have hne := hrot hr
    obtain ⟨i, hi, hlt⟩ := h.index
    have hlen : s.auction.turnOrder.length ≠ 0 := fun h0 => hne (List.length_eq_zero.mp h0)
    rw [hrun]
    constructor
    · refine ⟨(i + 1) % s.auction.turnOrder.length, ?_, fun _ => ?_⟩
      · simp [saveState, hi, jsMod, hlen]
      · exact Nat.mod_lt _ (Nat.pos_of_ne_zero hlen)
    · intro hpn; exact absurd hp hpn
  · rw [hrun]
    exact turnInv_cleared rfl rfl hp

theorem turnInv_setTurnOrder (now : Nat) (orderStr : Option String) {s : State}
    (h : TurnInv s) : TurnInv (setTurnOrder now orderStr s).state := by
  rcases setTurnOrder_shape now orderStr s with hs | ⟨order, hne, -, -, -, hs⟩
  · rw [hs]; exact h
  · rw [hs]
    constructor
    · exact ⟨0, rfl, fun _ => List.length_pos.mpr hne⟩
    · intro _; exact hne

theorem turnInv_acceptRequest (now : Nat) {s : State} (h : TurnInv s) :
    TurnInv (acceptRequest now s) := by
  rcases acceptRequest_shape now s with ⟨-, -, hs⟩ | ⟨-, -, hs⟩ | ⟨req, c, hreq, -, -, hs⟩
  · rw [hs]; exact h
  · rw [hs]
    constructor
    · exact h.index
    · intro hp; exact absurd rfl hp
  · rw [hs]
    have hne : s.auction.turnOrder ≠ [] := h.pending (by simp [hreq])
    have hm : TurnInv (acceptedState now s req c) := by
      constructor
      · exact h.index
      · intro _; exact hne
    exact (turnInv_nextTurn now hm rfl (fun _ => hne)).congrTurn rfl rfl rfl

theorem turnInv_updateTimer (now : Nat) {s : State} (h : TurnInv s) :
    TurnInv (updateTimer now s) := by
  rcases updateTimer_shape now s with ⟨hs, -⟩ | ⟨-, hs, -⟩ | ⟨hp, -, hne, hs, -⟩
  · rw [hs]; exact h
  · rw [hs]; exact turnInv_acceptRequest now h
  · rw [hs]; exact (turnInv_nextTurn now h hp (fun _ => hne)).congrTurn rfl rfl rfl

theorem turnInv_startAuctionReset (now : Nat) (s : State) : TurnInv (startAuctionReset now s) :=
  turnInv_cleared rfl rfl rfl

theorem turnInv_runOp (op : Op) (hop : userOp op) {s : State} (h : TurnInv s) :
    TurnInv (runOp op s) := by
  cases op with
  | saveState => exact h.congrTurn rfl rfl rfl
  | addCandidate c => exact h.congrTurn rfl rfl rfl
  | addTeam t => exact h.congrTurn rfl rfl rfl
  | deleteCandidate name classNum =>
    simp only [runOp, deleteCandidate]
    split
    · exact h
    · exact h.congrTurn rfl rfl rfl
  | deleteTeam name =>
    simp only [runOp, deleteTeam]
    split
    · exact h
    · exact h.congrTurn rfl rfl rfl
  | startAuction now orderStr =>
    simp only [runOp]
    rcases startAuction_shape now orderStr s with hs | ⟨-, hs⟩
    · rw [hs]; exact h
    · rw [hs]; exact turnInv_setTurnOrder now orderStr (turnInv_startAuctionReset now s)
  | setTurnOrder now orderStr => exact turnInv_setTurnOrder now orderStr h
  | requestCandidate team name classNum =>
    simp only [runOp]
    rcases requestCandidate_shape team name classNum s with hs | ⟨-, hmem, -, hs⟩
    · rw [hs]; exact h
    · rw [hs]
      constructor
      · exact h.index
      · intro _; exact List.ne_nil_of_mem hmem
  | acceptRequest now => exact turnInv_acceptRequest now h
  | rejectRequest =>
    constructor
    · exact h.index
    · intro hp; exact absurd rfl hp
  | stopAuction => exact turnInv_cleared rfl rfl rfl
  | nextTurn now => exact absurd hop (by simp [userOp])
  | updateTimer now => exact turnInv_updateTimer now h

theorem turnInv_of_reachable {s : State} (h : Reachable s) : TurnInv s := by
  induction h with
  | start now orderStr s hok =>
    rw [startAuction_of_startOk now orderStr s hok]
    exact turnInv_setTurnOrder now orderStr (turnInv_startAuctionReset now s)
  | step op s hop _ ih => exact turnInv_runOp op hop ih

/-! ## The scenario states are reachable -/

theorem reachable_scenarioOrdered : Reachable scenarioOrdered :=
  Reachable.step _ _ True.intro
    (Reachable.start 1000 none scenarioStart (by unfold StartOk; decide))

theorem reachable_scenarioRequested : Reachable scenarioRequested :=
  Reachable.step _ _ True.intro reachable_scenarioOrdered

theorem reachable_scenarioFirstPick : Reachable scenarioFirstPick :=
  Reachable.step _ _ True.intro reachable_scenarioRequested

theorem reachable_scenarioSecondRequest : Reachable scenarioSecondRequest :=
  Reachable.step _ _ True.intro reachable_scenarioFirstPick

theorem reachable_scenarioCompleted : Reachable scenarioCompleted :=
  Reachable.step _ _ True.intro reachable_scenarioSecondRequest

/-! ## Claims on reachable states -/

/-- C11: for every state reachable from a successful start with status
in_progress and each of setTurnOrder, requestCandidate, acceptRequest,
rejectRequest, nextTurn and a timer tick, the current class before and after
are labels of numbers a and b between 1 and 9 with a at most b (their numeric
values, as parseInt reads them), and when the current class changes the
operation has called nextTurn on a state in which no unassigned candidate has
the prior class; the candidates of the resulting state are those of that
state. -/
theorem currentClass_monotone (s : State) (op : Op) (hreach : Reachable s)
    (_hst : s.auction.status = Status.in_progress) (hop : engineOp op) :
    ∃ a b : Nat, 1 ≤ a ∧ a ≤ b ∧ b ≤ 9 ∧
      s.auction.currentClass = classLabel a ∧
      (runOp op s).auction.currentClass = classLabel b ∧
      parseInt s.auction.currentClass = some (a : Int) ∧
      parseInt (runOp op s).auction.currentClass = some (b : Int) ∧
      ((runOp op s).auction.currentClass ≠ s.auction.currentClass →
        ¬ hasUnassigned (runOp op s) s.auction.currentClass ∧
        ∃ m, nextTurnCall op s = some m ∧ ¬ hasUnassigned m s.auction.currentClass ∧
          (runOp op s).candidates = m.candidates) := by
  obtain ⟨cur, h1, h9, hcur⟩ := classOk_of_reachable hreach
  have hsame : (runOp op s).auction.currentClass = s.auction.currentClass →
      ∃ a b : Nat, 1 ≤ a ∧ a ≤ b ∧ b ≤ 9 ∧
      s.auction.currentClass = classLabel a ∧
      (runOp op s).auction.currentClass = classLabel b ∧
      parseInt s.auction.currentClass = some (a : Int) ∧
      parseInt (runOp op s).auction.currentClass = some (b : Int) ∧
      ((runOp op s).auction.currentClass ≠ s.auction.currentClass →
        ¬ hasUnassigned (runOp op s) s.auction.currentClass ∧
        ∃ m, nextTurnCall op s = some m ∧ ¬ hasUnassigned m s.auction.currentClass ∧
          (runOp op s).candidates = m.candidates) := by
    intro heq
    refine ⟨cur, cur, h1, le_refl cur, h9, hcur, heq.trans hcur, ?_, ?_, fun hne => absurd heq hne⟩
    · rw [hcur]; exact parseInt_classLabel cur (by omega)
    · rw [heq, hcur]; exact parseInt_classLabel cur (by omega)
  have hcall : ∀ (now : Nat) (m : State), nextTurnCall op s = some m →
      m.auction.currentClass = s.auction.currentClass →
      (runOp op s).candidates = (nextTurn now m).candidates →
      (runOp op s).auction.currentClass = (nextTurn now m).auction.currentClass →
      ∃ a b : Nat, 1 ≤ a ∧ a ≤ b ∧ b ≤ 9 ∧
      s.auction.currentClass = classLabel a ∧
      (runOp op s).auction.currentClass = classLabel b ∧
      parseInt s.auction.currentClass = some (a : Int) ∧
      parseInt (runOp op s).auction.currentClass = some (b : Int) ∧
      ((runOp op s).auction.currentClass ≠ s.auction.currentClass →
        ¬ hasUnassigned (runOp op s) s.auction.currentClass ∧
        ∃ m, nextTurnCall op s = some m ∧ ¬ hasUnassigned m s.auction.currentClass ∧
          (runOp op s).candidates = m.candidates) := by
    intro now m hm hmc hcands hclass
    have hmcur : m.auction.currentClass = classLabel cur := hmc.trans hcur
    have hcands' : (runOp op s).candidates = m.candidates := by
      rw [hcands, nextTurn_candidates]
    rcases nextTurn_shape now m cur h1 h9 hmcur with ⟨-, hrun⟩ | ⟨hno, k, hk1, hk9, -, -, hrun⟩ |
      ⟨-, -, hrun⟩
    · apply hsame
      rw [hclass, hrun]; exact hmc
    · have hb : (runOp op s).auction.currentClass = classLabel k := by
        rw [hclass, hrun]; rfl
      refine ⟨cur, k, h1, by omega, hk9, hcur, hb, ?_, ?_, fun _ => ⟨?_, m, hm, ?_, hcands'⟩⟩
      · rw [hcur]; exact parseInt_classLabel cur (by omega)
      · rw [hb]; exact parseInt_classLabel k (by omega)
      · rw [hcur, hasUnassigned_congr _ hcands']; exact hno
      · rw [hcur]; exact hno
    · apply hsame
      rw [hclass, hrun]; exact hmc
  have haccept : ∀ now : Nat, nextTurnCall op s = acceptCall now s →
      runOp op s = acceptRequest now s →
      ∃ a b : Nat, 1 ≤ a ∧ a ≤ b ∧ b ≤ 9 ∧
      s.auction.currentClass = classLabel a ∧
      (runOp op s).auction.currentClass = classLabel b ∧
      parseInt s.auction.currentClass = some (a : Int) ∧
      parseInt (runOp op s).auction.currentClass = some (b : Int) ∧
      ((runOp op s).auction.currentClass ≠ s.auction.currentClass →
        ¬ hasUnassigned (runOp op s) s.auction.currentClass ∧
        ∃ m, nextTurnCall op s = some m ∧ ¬ hasUnassigned m s.auction.currentClass ∧
          (runOp op s).candidates = m.candidates) := by
    intro now hc hr
    rcases acceptRequest_shape now s with ⟨-, -, hs⟩ | ⟨-, -, hs⟩ | ⟨req, c, -, -, hcall', hs⟩
    · apply hsame; rw [hr, hs]
    · apply hsame; rw [hr, hs]; rfl
    · refine hcall now (acceptedState now s req c) (hc.trans hcall') rfl ?_ ?_
      · rw [hr, hs]; rfl
      · rw [hr, hs]; rfl
  cases op with
  | saveState => exact absurd hop (by simp [engineOp, auctionOp])
  | addCandidate c => exact absurd hop (by simp [engineOp, auctionOp])
  | addTeam t => exact absurd hop (by simp [engineOp, auctionOp])
  | deleteCandidate name classNum => exact absurd hop (by simp [engineOp, auctionOp])
  | deleteTeam name => exact absurd hop (by simp [engineOp, auctionOp])
  | startAuction now orderStr => exact absurd hop (by simp [engineOp, auctionOp])
  | stopAuction => exact absurd hop (by simp [engineOp, auctionOp])
  | setTurnOrder now orderStr =>
    apply hsame
    simp only [runOp]
    rcases setTurnOrder_shape now orderStr s with hs | ⟨order, -, -, -, -, hs⟩
    · rw [hs]
    · rw [hs]; rfl
  | requestCandidate team name classNum =>
    apply hsame
    simp only [runOp]
    rcases requestCandidate_shape team name classNum s with hs | ⟨-, -, -, hs⟩
    · rw [hs]
    · rw [hs]; rfl
  | rejectRequest => exact hsame rfl
  | acceptRequest now => exact haccept now rfl rfl
  | nextTurn now => exact hcall now s rfl rfl rfl rfl
  | updateTimer now =>
    rcases updateTimer_shape now s with ⟨hs, -⟩ | ⟨-, hs, hc⟩ | ⟨-, -, -, hs, hc⟩
    · apply hsame; simp only [runOp]; rw [hs]
    · exact haccept now hc hs
    · refine hcall now s hc rfl ?_ ?_
      · simp only [runOp]; rw [hs]; rfl
      · simp only [runOp]; rw [hs]; rfl

/-- C11 at the scenario state in which A has requested c1: the acceptance
leaves the current class at 1. -/
theorem currentClass_monotone_witness :
    ∃ a b : Nat, 1 ≤ a ∧ a ≤ b ∧ b ≤ 9 ∧
      scenarioRequested.auction.currentClass = classLabel a ∧
      (runOp (Op.acceptRequest 2000) scenarioRequested).auction.currentClass = classLabel b ∧
      parseInt scenarioRequested.auction.currentClass = some (a : Int) ∧
      parseInt (runOp (Op.acceptRequest 2000) scenarioRequested).auction.currentClass =
        some (b : Int) ∧
      ((runOp (Op.acceptRequest 2000) scenarioRequested).auction.currentClass ≠
          scenarioRequested.auction.currentClass →
        ¬ hasUnassigned (runOp (Op.acceptRequest 2000) scenarioRequested)
            scenarioRequested.auction.currentClass ∧
        ∃ m, nextTurnCall (Op.acceptRequest 2000) scenarioRequested = some m ∧
          ¬ hasUnassigned m scenarioRequested.auction.currentClass ∧
          (runOp (Op.acceptRequest 2000) scenarioRequested).candidates = m.candidates) :=
  currentClass_monotone scenarioRequested (Op.acceptRequest 2000) reachable_scenarioRequested
    (by decide) True.intro

/-- C14: in every state reachable from a successful start by operations a
user or the timer can trigger (setTurnOrder, requestCandidate, acceptRequest,
rejectRequest, timer ticks and stopAuction among them), whenever one of them
calls nextTurn on a state whose rotation branch runs, the turn order of that
state is non-empty, so the remainder is not taken by zero and the index after
the operation is a number; and whenever status is in_progress and turnOrder
is non-empty, currentTeamIndex is a number below the length of turnOrder. -/
theorem rotation_index_safe (s : State) (op : Op) (hreach : Reachable s) (hop : userOp op) :
    (∀ m, nextTurnCall op s = some m → rotates m → m.auction.turnOrder ≠ []) ∧
    (∃ i, (runOp op s).auction.currentTeamIndex = some i) ∧
    (s.auction.status = Status.in_progress → s.auction.turnOrder ≠ [] →
      ∃ i, s.auction.currentTeamIndex = some i ∧ 0 ≤ i ∧ i < s.auction.turnOrder.length) := by
  have hinv := turnInv_of_reachable hreach
  refine ⟨?_, ?_, fun _ hne => ?_⟩
  · have hacc : ∀ now m, acceptCall now s = some m → m.auction.turnOrder ≠ [] := by
      intro now m hm
      rcases acceptRequest_shape now s with ⟨-, hc, -⟩ | ⟨-, hc, -⟩ | ⟨req, c, hreq, -, hc, -⟩
      · rw [hc] at hm; exact absurd hm (by simp)
      · rw [hc] at hm; exact absurd hm (by simp)
      · rw [hc] at hm
        have hm' : acceptedState now s req c = m := Option.some.inj hm
        rw [← hm']
        exact hinv.pending (by simp [hreq])
    intro m hm _
    cases op with
    | saveState => simp [nextTurnCall] at hm
    | addCandidate c => simp [nextTurnCall] at hm
    | addTeam t => simp [nextTurnCall] at hm
    | deleteCandidate name classNum => simp [nextTurnCall] at hm
    | deleteTeam name => simp [nextTurnCall] at hm
    | startAuction now orderStr => simp [nextTurnCall] at hm
    | setTurnOrder now orderStr => simp [nextTurnCall] at hm
    | requestCandidate team name classNum => simp [nextTurnCall] at hm
    | rejectRequest => simp [nextTurnCall] at hm
    | stopAuction => simp [nextTurnCall] at hm
    | nextTurn now => exact absurd hop (by simp [userOp])
    | acceptRequest now => exact hacc now m hm
    | updateTimer now =>
      rcases updateTimer_shape now s with ⟨-, hc⟩ | ⟨-, -, hc⟩ | ⟨-, -, hne, -, hc⟩
      · rw [hc] at hm; exact absurd hm (by simp)
      · rw [hc] at hm; exact hacc now m hm
      · rw [hc] at hm
        have hm' : s = m := Option.some.inj hm
        rw [← hm']; exact hne
  · obtain ⟨i, hi, -⟩ := (turnInv_runOp op hop hinv).index
    exact ⟨i, hi⟩
  · obtain ⟨i, hi, hlt⟩ := hinv.index
    exact ⟨i, hi, Nat.zero_le i, hlt hne⟩

/-- C14 at the scenario state in which A has requested c1: the acceptance
rotates the turn with a turn order of two teams. -/
theorem rotation_index_safe_witness :
    ∃ i, scenarioRequested.auction.currentTeamIndex = some i ∧ 0 ≤ i ∧
      i < scenarioRequested.auction.turnOrder.length :=
  (rotation_index_safe scenarioRequested (Op.acceptRequest 2000) reachable_scenarioRequested
    True.intro).2.2 (by decide) (by decide)

/-- C15: in every state with status completed that is reachable from a
successful start, none of setTurnOrder, requestCandidate, acceptRequest,
rejectRequest, nextTurn or a timer tick changes the candidates (hence any
assigned flag), the teams (hence any roster) or selections. -/
theorem completed_keeps_assignments (s : State) (op : Op) (hreach : Reachable s)
    (hdone : s.auction.status = Status.completed) (hop : engineOp op) :
    (runOp op s).candidates = s.candidates ∧
    (runOp op s).candidates.map (fun c => c.assigned) =
      s.candidates.map (fun c => c.assigned) ∧
    (runOp op s).teams = s.teams ∧
    (runOp op s).teams.map (fun t => t.roster) = s.teams.map (fun t => t.roster) ∧
    (runOp op s).auction.selections = s.auction.selections := by
  have hinv := inv_of_reachable hreach
  have hnot : s.auction.status ≠ Status.in_progress := by
    rw [hdone]; exact fun h => Status.noConfusion h
  have hp : s.auction.pendingRequest = none := hinv.idle hnot
  have hall : (runOp op s).candidates = s.candidates ∧ (runOp op s).teams = s.teams ∧
      (runOp op s).auction.selections = s.auction.selections := by
    cases op with
    | saveState => exact absurd hop (by simp [engineOp, auctionOp])
    | addCandidate c => exact absurd hop (by simp [engineOp, auctionOp])
    | addTeam t => exact absurd hop (by simp [engineOp, auctionOp])
    | deleteCandidate name classNum => exact absurd hop (by simp [engineOp, auctionOp])
    | deleteTeam name => exact absurd hop (by simp [engineOp, auctionOp])
    | startAuction now orderStr => exact absurd hop (by simp [engineOp, auctionOp])
    | stopAuction => exact absurd hop (by simp [engineOp, auctionOp])
    | setTurnOrder now orderStr =>
      simp only [runOp]
      rcases setTurnOrder_shape now orderStr s with hs | ⟨order, -, -, -, -, hs⟩
      · rw [hs]; exact ⟨rfl, rfl, rfl⟩
      · rw [hs]; exact ⟨rfl, rfl, rfl⟩
    | requestCandidate team name classNum =>
      simp only [runOp]
      rcases requestCandidate_shape team name classNum s with hs | ⟨hin, -, -, -⟩
      · rw [hs]; exact ⟨rfl, rfl, rfl⟩
      · exact absurd hin hnot
    | rejectRequest => exact ⟨rfl, rfl, rfl⟩
    | acceptRequest now =>
      have : acceptRequest now s = s := by simp [acceptRequest, hp]
      simp only [runOp]
      rw [this]; exact ⟨rfl, rfl, rfl⟩
    | nextTurn now =>
      exact ⟨nextTurn_candidates now s, nextTurn_teams now s, nextTurn_selections now s⟩
    | updateTimer now =>
      simp only [runOp]
      rcases updateTimer_shape now s with ⟨hs, -⟩ | ⟨hpn, -, -⟩ | ⟨-, hin, -, -, -⟩
      · rw [hs]; exact ⟨rfl, rfl, rfl⟩
      · exact absurd hp hpn
      · exact absurd hin hnot
  exact ⟨hall.1, by rw [hall.1], hall.2.1, by rw [hall.2.1], hall.2.2⟩

/-- C15 at the completed state of the scenario: a timer tick changes no
candidate. -/
theorem completed_keeps_assignments_witness :
    (runOp (Op.updateTimer 99000) scenarioCompleted).candidates = scenarioCompleted.candidates :=
  (completed_keeps_assignments scenarioCompleted (Op.updateTimer 99000)
    reachable_scenarioCompleted (by decide) True.intro).1

/-! ## The two-team scenario -/

theorem scanClasses_none_of_assigned (cands : List Candidate)
    (h : ∀ c ∈ cands, c.assigned = true) :
    ∀ (fuel : Nat) (label : String), scanClasses cands fuel label = none := by
  intro fuel
  induction fuel with
  | zero => intro label; rfl
  | succ n ih =>
    intro label
    have hany : cands.any (isUnassignedIn label) = false := by
      rw [List.any_eq_false]
      intro c hc
      simp [isUnassignedIn, h c hc]
    simp only [scanClasses, hany]
    split
    · rfl
    · split
      · simp [ih]
      · rfl

theorem parse_order_AB : (jsSplitComma "A,B").map jsTrim = ["A", "B"] := by decide

theorem pairState_ordered (t0 t1 : Nat) (n1 ad1 : String) (f1 : Bool) (im1 : Option String)
    (n2 ad2 : String) (f2 : Bool) (im2 : Option String) (tA tB : Team) (a0 : AuctionState) :
    (setTurnOrder t1 (some "A,B")
      (startAuction t0 none (pairState n1 ad1 f1 im1 n2 ad2 f2 im2 tA tB a0)).state).state =
    { candidates := [⟨n1, "1", ad1, false, im1⟩, ⟨n2, "1", ad2, false, im2⟩]
      teams := [{ tA with name := "A", roster := [] }, { tB with name := "B", roster := [] }]
      auction :=
        { status := Status.in_progress
          currentClass := "1"
          currentTeamIndex := some 0
          turnOrder := ["A", "B"]
          selections := []
          pendingRequest := none
          lastSelection := none
          turnStartTime := some t1
          stateVersion := a0.stateVersion + 4 } } := by
  have hA : jsTrim "A" = "A" := by decide
  have hB : jsTrim "B" = "B" := by decide
  simp [pairState, startAuction, startAuctionReset, setTurnOrder, saveState, parse_order_AB,
    uniqueValues, hA, hB]

theorem pairState_firstPick (t0 t1 t2 : Nat) (n1 ad1 : String) (f1 : Bool)
    (im1 : Option String) (n2 ad2 : String) (f2 : Bool) (im2 : Option String) (tA tB : Team)
    (a0 : AuctionState) :
    firstPick t0 t1 t2 n1 (pairState n1 ad1 f1 im1 n2 ad2 f2 im2 tA tB a0) =
    { candidates := [⟨n1, "1", ad1, true, im1⟩, ⟨n2, "1", ad2, false, im2⟩]
      teams := [{ tA with name := "A", roster := [⟨n1, "1", ad1, true, im1⟩] },
        { tB with name := "B", roster := [] }]
      auction :=
        { status := Status.in_progress
          currentClass := "1"
          currentTeamIndex := some 1
          turnOrder := ["A", "B"]
          selections := [⟨n1, "1", "A"⟩]
          pendingRequest := none
          lastSelection := some ⟨"A", n1, "1", t2⟩
          turnStartTime := some t2
          stateVersion := a0.stateVersion + 9 } } := by
  simp [firstPick, pairState_ordered, requestCandidate, acceptRequest, isAvailable, saveState,
    markAssigned, unshiftRoster, nextTurn, isUnassignedIn, jsMod]

theorem nextTurn_all_assigned (now : Nat) (s : State)
    (h : ∀ c ∈ s.candidates, c.assigned = true) :
    nextTurn now s = saveState { s with auction := { s.auction with
      status := Status.completed
      turnOrder := []
      currentTeamIndex := some 0
      turnStartTime := none
      stateVersion := s.auction.stateVersion + 1 } } := by
  have hrem : (s.candidates.filter (isUnassignedIn s.auction.currentClass)).length = 0 := by
    rw [List.length_eq_zero, List.filter_eq_nil_iff]
    intro c hc
    simp [isUnassignedIn, h c hc]
  simp only [nextTurn, hrem, if_true, scanClasses_none_of_assigned _ h]

theorem pairState_secondRequest (t0 t1 t2 : Nat) (n1 ad1 : String) (f1 : Bool)
    (im1 : Option String) (n2 ad2 : String) (f2 : Bool) (im2 : Option String) (tA tB : Team)
    (a0 : AuctionState) :
    (requestCandidate "B" n2 "1"
      (firstPick t0 t1 t2 n1 (pairState n1 ad1 f1 im1 n2 ad2 f2 im2 tA tB a0))).state =
    { candidates := [⟨n1, "1", ad1, true, im1⟩, ⟨n2, "1", ad2, false, im2⟩]
      teams := [{ tA with name := "A", roster := [⟨n1, "1", ad1, true, im1⟩] },
        { tB with name := "B", roster := [] }]
      auction :=
        { status := Status.in_progress
          currentClass := "1"
          currentTeamIndex := some 1
          turnOrder := ["A", "B"]
          selections := [⟨n1, "1", "A"⟩]
          pendingRequest := some ⟨"B", n2, "1"⟩
          lastSelection := some ⟨"A", n1, "1", t2⟩
          turnStartTime := some t2
          stateVersion := a0.stateVersion + 10 } } := by
  simp [pairState_firstPick, requestCandidate, isAvailable, saveState]

theorem pairState_secondPick (t0 t1 t2 t3 : Nat) (n1 ad1 : String) (f1 : Bool)
    (im1 : Option String) (n2 ad2 : String) (f2 : Bool) (im2 : Option String) (tA tB : Team)
    (a0 : AuctionState) :
    secondPick t3 n2 (firstPick t0 t1 t2 n1 (pairState n1 ad1 f1 im1 n2 ad2 f2 im2 tA tB a0)) =
    { candidates := [⟨n1, "1", ad1, true, im1⟩, ⟨n2, "1", ad2, true, im2⟩]
      teams := [{ tA with name := "A", roster := [⟨n1, "1", ad1, true, im1⟩] },
        { tB with name := "B", roster := [⟨n2, "1", ad2, true, im2⟩] }]
      auction :=
        { status := Status.completed
          currentClass := "1"
          currentTeamIndex := some 0
          turnOrder := []
          selections := [⟨n1, "1", "A"⟩, ⟨n2, "1", "B"⟩]
          pendingRequest := none
          lastSelection := some ⟨"B", n2, "1", t3⟩
          turnStartTime := none
          stateVersion := a0.stateVersion + 14 } } := by
  unfold secondPick
  rw [pairState_secondRequest]
  rw [acceptRequest_eq t3 _ ⟨"B", n2, "1"⟩ ⟨n2, "1", ad2, false, im2⟩ rfl
    (by simp [isAvailable])]
  rw [nextTurn_all_assigned _ _ (by simp [markAssigned, isAvailable])]
  simp [saveState, markAssigned, unshiftRoster, isAvailable]

/-- C16: from any state with two candidates of class 1 and the teams A and B,
startAuction, setTurnOrder with A,B, requestCandidate by A for the first
candidate and acceptRequest give a state where the first candidate is assigned
and heads the roster of A, the second is unassigned, turnOrder[currentTeamIndex]
is B, currentClass is 1 and status is in_progress; requestCandidate by B for
the second candidate and acceptRequest then give a state where both are
assigned, selections is the record of the first pick for A followed by that
of the second for B, and status is completed. -/
theorem two_team_scenario (t0 t1 t2 t3 : Nat) (n1 ad1 : String) (f1 : Bool)
    (im1 : Option String) (n2 ad2 : String) (f2 : Bool) (im2 : Option String) (tA tB : Team)
    (a0 : AuctionState) :
    (firstPick t0 t1 t2 n1 (pairState n1 ad1 f1 im1 n2 ad2 f2 im2 tA tB a0)).candidates =
      [⟨n1, "1", ad1, true, im1⟩, ⟨n2, "1", ad2, false, im2⟩] ∧
    (firstPick t0 t1 t2 n1 (pairState n1 ad1 f1 im1 n2 ad2 f2 im2 tA tB a0)).teams =
      [{ tA with name := "A", roster := [⟨n1, "1", ad1, true, im1⟩] },
        { tB with name := "B", roster := [] }] ∧
    (firstPick t0 t1 t2 n1
        (pairState n1 ad1 f1 im1 n2 ad2 f2 im2 tA tB a0)).auction.currentTeamIndex.bind
      (fun i => (firstPick t0 t1 t2 n1
        (pairState n1 ad1 f1 im1 n2 ad2 f2 im2 tA tB a0)).auction.turnOrder[i]?) = some "B" ∧
    (firstPick t0 t1 t2 n1
      (pairState n1 ad1 f1 im1 n2 ad2 f2 im2 tA tB a0)).auction.currentClass = "1" ∧
    (firstPick t0 t1 t2 n1
      (pairState n1 ad1 f1 im1 n2 ad2 f2 im2 tA tB a0)).auction.status = Status.in_progress ∧
    (secondPick t3 n2 (firstPick t0 t1 t2 n1
      (pairState n1 ad1 f1 im1 n2 ad2 f2 im2 tA tB a0))).candidates =
      [⟨n1, "1", ad1, true, im1⟩, ⟨n2, "1", ad2, true, im2⟩] ∧
    (secondPick t3 n2 (firstPick t0 t1 t2 n1
      (pairState n1 ad1 f1 im1 n2 ad2 f2 im2 tA tB a0))).auction.selections =
      [⟨n1, "1", "A"⟩, ⟨n2, "1", "B"⟩] ∧
    (secondPick t3 n2 (firstPick t0 t1 t2 n1
      (pairState n1 ad1 f1 im1 n2 ad2 f2 im2 tA tB a0))).auction.status = Status.completed := by
  rw [pairState_secondPick, pairState_firstPick]
  exact ⟨rfl, rfl, rfl, rfl, rfl, rfl, rfl, rfl⟩

/-! ## Results export -/

theorem foldl_append_lines {α : Type} (f : α → String) (l : List α) :
    ∀ init : String, l.foldl (fun csv x => csv ++ f x) init = init ++ concatLines (l.map f) := by
  induction l with
  | nil => intro init; simp [concatLines]
  | cons x xs ih =>
    intro init
    simp only [List.foldl_cons, List.map_cons, concatLines, ih, String.append_assoc]

theorem concatLines_append (l1 l2 : List String) :
    concatLines (l1 ++ l2) = concatLines l1 ++ concatLines l2 := by
  induction l1 with
  | nil => simp [concatLines]
  | cons x xs ih =>
    show x ++ concatLines (xs ++ l2) = (x ++ concatLines xs) ++ concatLines l2
    rw [ih, String.append_assoc]

theorem renderRow_selection (x : Selection) :
    renderRow [x.candidate, x.cls, x.team] = selectionLine x := by
  simp only [renderRow, List.foldr, selectionLine, String.append_assoc]

theorem renderRow_unassigned (c : Candidate) :
    renderRow [c.name, c.cls, "Unassigned"] = unassignedLine c := by
  simp only [renderRow, List.foldr, unassignedLine, String.append_assoc]

/-- C17: downloadResults produces a file exactly when selections is
non-empty or some candidate is unassigned, and the file then consists, in
order, of the header row Candidate,Class,Team, one row (candidate, class, team)
per entry of selections in the order of selections, and one row (name, class,
Unassigned) per unassigned candidate in the order of candidates, and nothing
else; the number of data rows is the number of selections plus the number of
unassigned candidates. -/
theorem downloadResults_rows (s : State) :
    ((downloadResults s).isSome = true ↔
      (s.auction.selections ≠ [] ∨ ∃ c ∈ s.candidates, c.assigned = false)) ∧
    ((s.auction.selections ≠ [] ∨ ∃ c ∈ s.candidates, c.assigned = false) →
      downloadResults s = some (concatLines ((exportRows s).map renderRow))) ∧
    exportRows s = ["Candidate", "Class", "Team"] ::
      (s.auction.selections.map (fun x => [x.candidate, x.cls, x.team]) ++
        (s.candidates.filter (fun c => !c.assigned)).map
          (fun c => [c.name, c.cls, "Unassigned"])) ∧
    (exportRows s).length =
      1 + (s.auction.selections.length + (s.candidates.filter (fun c => !c.assigned)).length) := by
  have hcond : (s.auction.selections.length = 0 ∧
      s.candidates.all (fun c => c.assigned) = true) ↔
      ¬ (s.auction.selections ≠ [] ∨ ∃ c ∈ s.candidates, c.assigned = false) := by
    simp only [List.length_eq_zero, List.all_eq_true, ne_eq, not_or, not_not, not_exists,
      not_and, Bool.not_eq_false]
  have htext : ∀ h : ¬ (s.auction.selections.length = 0 ∧
      s.candidates.all (fun c => c.assigned) = true),
      downloadResults s = some (concatLines ((exportRows s).map renderRow)) := by
    intro h
    have hheader : renderRow ["Candidate", "Class", "Team"] = "Candidate,Class,Team\n" := by
      decide
    have hsel : (s.auction.selections.map (fun x => [x.candidate, x.cls, x.team])).map renderRow
        = s.auction.selections.map selectionLine := by
      simp only [List.map_map]
      apply List.map_congr_left
      intro x _
      exact renderRow_selection x
    have hun : ((s.candidates.filter (fun c => !c.assigned)).map
        (fun c => [c.name, c.cls, "Unassigned"])).map renderRow
        = (s.candidates.filter (fun c => !c.assigned)).map unassignedLine := by
      simp only [List.map_map]
      apply List.map_congr_left
      intro c _
      exact renderRow_unassigned c
    simp only [downloadResults, h, if_false, foldl_append_lines, exportRows, List.map_cons,
      List.map_append, hheader, hsel, hun, concatLines, concatLines_append, String.append_assoc]
  refine ⟨?_, ?_, rfl, ?_⟩
  · constructor
    · intro hsome
      by_contra hno
      have := hcond.mpr hno
      simp [downloadResults, this] at hsome
    · intro hyes
      have hn : ¬ (s.auction.selections.length = 0 ∧
          s.candidates.all (fun c => c.assigned) = true) := fun h => (hcond.mp h) hyes
      rw [htext hn]; rfl
  · intro hyes
    exact htext (fun h => (hcond.mp h) hyes)
  · simp [exportRows]
    omega

/-- C18: the claim fails on the code for the class field. A candidate whose
class is the text 1,5 (which the CSV upload accepts, parseInt reading it as 1)
and who is unassigned is exported as the line Ann,1,5,Unassigned: the class is
written without quotes and the data row splits on commas into four fields, not
three. -/
theorem downloadResults_class_unquoted :
    parseInt "1,5" = some 1 ∧
    downloadResults
      { candidates := [⟨"Ann", "1,5", "17", false, none⟩]
        teams := [⟨"A", "x", "", []⟩, ⟨"B", "y", "", []⟩]
        auction := defaultState.auction } =
      some "Candidate,Class,Team\nAnn,1,5,Unassigned\n" ∧
    jsSplitComma "Ann,1,5,Unassigned" = ["Ann", "1", "5", "Unassigned"] ∧
    (jsSplitComma "Ann,1,5,Unassigned").length = 4 := by
  decide

/-! ## No unassigned candidate below the current class -/

theorem mem_markAssigned (p : Candidate → Bool) (x : Candidate) :
    ∀ l : List Candidate, x ∈ markAssigned p l →
      x ∈ l ∨ ∃ c ∈ l, x = { c with assigned := true } := by
  intro l
  induction l with
  | nil => intro h; simp [markAssigned] at h
  | cons y ys ih =>
    intro h
    by_cases hy : p y = true
    · simp only [markAssigned, hy, if_true, List.mem_cons] at h
      rcases h with rfl | h
      · exact Or.inr ⟨y, List.mem_cons_self _ _, rfl⟩
      · exact Or.inl (List.mem_cons_of_mem _ h)
    · simp only [markAssigned, hy, Bool.false_eq_true, if_false, List.mem_cons] at h
      rcases h with rfl | h
      · exact Or.inl (List.mem_cons_self _ _)
      · rcases ih h with h' | ⟨c, hc, hx⟩
        · exact Or.inl (List.mem_cons_of_mem _ h')
        · exact Or.inr ⟨c, List.mem_cons_of_mem _ hc, hx⟩

theorem LowInv.congrLow {s s' : State} (h : LowInv s) (hc : s'.candidates = s.candidates)
    (hcl : s'.auction.currentClass = s.auction.currentClass)
    (hst : s'.auction.status = s.auction.status) : LowInv s' := by
  obtain ⟨cur, h1, h9, hcur, hall, hdone⟩ := h
  refine ⟨cur, h1, h9, hcl.trans hcur, ?_, ?_⟩
  · rw [hc]; exact hall
  · rw [hc, hst]; exact hdone

theorem lowInv_nextTurn (now : Nat) {s : State} (h : LowInv s) : LowInv (nextTurn now s) := by
  obtain ⟨cur, h1, h9, hcur, hall, hdone⟩ := h
  rcases nextTurn_shape now s cur h1 h9 hcur with ⟨-, hrun⟩ |
    ⟨hno, k, hk1, hk9, -, hbelow, hrun⟩ | ⟨hno, hnone, hrun⟩
  · rw [hrun]
    exact ⟨cur, h1, h9, hcur, hall, hdone⟩
  · rw [hrun]
    refine ⟨k, by omega, hk9, rfl, fun c hc => ?_, hdone⟩
    obtain ⟨j, hj1, hj9, hcls, hlow⟩ := hall c hc
    refine ⟨j, hj1, hj9, hcls, fun hun => ?_⟩
    have hge := hlow hun
    by_contra hlt
    have hyes : hasUnassigned s (classLabel j) := ⟨c, hc, hun, hcls⟩
    rcases Nat.eq_or_lt_of_le hge with heq | hgt
    · rw [← heq] at hyes; exact hno hyes
    · exact hbelow j hgt (by omega) hyes
  · rw [hrun]
    refine ⟨cur, h1, h9, hcur, hall, fun _ c hc => ?_⟩
    obtain ⟨j, hj1, hj9, hcls, hlow⟩ := hall c hc
    by_contra hun
    have hun' : c.assigned = false := by simpa using hun
    have hge := hlow hun'
    have hyes : hasUnassigned s (classLabel j) := ⟨c, hc, hun', hcls⟩
    rcases Nat.eq_or_lt_of_le hge with heq | hgt
    · rw [← heq] at hyes; exact hno hyes
    · exact hnone j hgt hj9 hyes

theorem lowInv_acceptedState (now : Nat) {s : State} (req : PendingRequest) (c : Candidate)
    (h : LowInv s) : LowInv (acceptedState now s req c) := by
  obtain ⟨cur, h1, h9, hcur, hall, hdone⟩ := h
  refine ⟨cur, h1, h9, hcur, fun x hx => ?_, fun hst x hx => ?_⟩
  · rcases mem_markAssigned _ x _ hx with hmem | ⟨y, hy, rfl⟩
    · exact hall x hmem
    · obtain ⟨j, hj1, hj9, hcls, -⟩ := hall y hy
      exact ⟨j, hj1, hj9, hcls, fun hf => absurd hf (by simp)⟩
  · rcases mem_markAssigned _ x _ hx with hmem | ⟨y, hy, rfl⟩
    · exact hdone hst x hmem
    · rfl

theorem lowInv_acceptRequest (now : Nat) {s : State} (h : LowInv s) :
    LowInv (acceptRequest now s) := by
  rcases acceptRequest_shape now s with ⟨-, -, hs⟩ | ⟨-, -, hs⟩ | ⟨req, c, -, -, -, hs⟩
  · rw [hs]; exact h
  · rw [hs]; exact h.congrLow rfl rfl rfl
  · rw [hs]
    exact (lowInv_nextTurn now (lowInv_acceptedState now req c h)).congrLow rfl rfl rfl

theorem lowInv_setTurnOrder (now : Nat) (orderStr : Option String) {s : State}
    (h : LowInv s) : LowInv (setTurnOrder now orderStr s).state := by
  rcases setTurnOrder_shape now orderStr s with hs | ⟨order, -, -, -, -, hs⟩
  · rw [hs]; exact h
  · rw [hs]; exact h.congrLow rfl rfl rfl

theorem lowInv_runOp (op : Op) (hop : auctionOp op) {s : State} (h : LowInv s) :
    LowInv (runOp op s) := by
  cases op with
  | saveState => exact absurd hop (by simp [auctionOp])
  | addCandidate c => exact absurd hop (by simp [auctionOp])
  | addTeam t => exact absurd hop (by simp [auctionOp])
  | deleteCandidate name classNum => exact absurd hop (by simp [auctionOp])
  | deleteTeam name => exact absurd hop (by simp [auctionOp])
  | startAuction now orderStr => exact absurd hop (by simp [auctionOp])
  | stopAuction => exact absurd hop (by simp [auctionOp])
  | nextTurn now => exact absurd hop (by simp [auctionOp])
  | setTurnOrder now orderStr => exact lowInv_setTurnOrder now orderStr h
  | requestCandidate team name classNum =>
    simp only [runOp]
    rcases requestCandidate_shape team name classNum s with hs | ⟨-, -, -, hs⟩
    · rw [hs]; exact h
    · rw [hs]; exact h.congrLow rfl rfl rfl
  | acceptRequest now => exact lowInv_acceptRequest now h
  | rejectRequest => exact h.congrLow rfl rfl rfl
  | updateTimer now =>
    simp only [runOp]
    rcases updateTimer_shape now s with ⟨hs, -⟩ | ⟨-, hs, -⟩ | ⟨-, -, -, hs, -⟩
    · rw [hs]; exact h
    · rw [hs]; exact lowInv_acceptRequest now h
    · rw [hs]; exact (lowInv_nextTurn now h).congrLow rfl rfl rfl

theorem lowInv_of_labelledStart {s : State} (h : LabelledStart s) : LowInv s := by
  obtain ⟨now, orderStr, s0, hok, hlab, rfl⟩ := h
  rw [startAuction_of_startOk now orderStr s0 hok]
  apply lowInv_setTurnOrder
  refine ⟨1, le_refl 1, by omega, rfl, fun c hc => ?_, fun hst => ?_⟩
  · simp only [startAuctionReset, saveState, List.mem_map] at hc
    obtain ⟨c0, hc0, rfl⟩ := hc
    obtain ⟨j, hj1, hj9, hcls⟩ := hlab c0 hc0
    exact ⟨j, hj1, hj9, hcls, fun _ => hj1⟩
  · exact Status.noConfusion hst

theorem lowInv_of_auctionRun {s : State} (h : AuctionRun s) : LowInv s := by
  induction h with
  | base s hs => exact lowInv_of_labelledStart hs
  | step op s hop _ ih => exact lowInv_runOp op hop ih

theorem auctionRun_scenarioFirstPick : AuctionRun scenarioFirstPick := by
  have hbase : AuctionRun (startAuction 1000 none scenarioStart).state := by
    refine ReachBy.base _ ⟨1000, none, scenarioStart, by unfold StartOk; decide, ?_, rfl⟩
    intro c hc
    simp only [scenarioStart, List.mem_cons, List.mem_singleton, List.not_mem_nil,
      or_false] at hc
    rcases hc with rfl | rfl
    · exact ⟨1, le_refl 1, by omega, rfl⟩
    · exact ⟨1, le_refl 1, by omega, rfl⟩
  exact ReachBy.step (Op.acceptRequest 2000) _ True.intro
    (ReachBy.step (Op.requestCandidate "A" "c1" "1") _ True.intro
      (ReachBy.step (Op.setTurnOrder 1000 (some "A,B")) _ True.intro hbase))

theorem auctionRun_scenarioCompleted : AuctionRun scenarioCompleted :=
  ReachBy.step (Op.acceptRequest 3000) _ True.intro
    (ReachBy.step (Op.requestCandidate "B" "c2" "1") _ True.intro
      auctionRun_scenarioFirstPick)

/-- C19: in every state of a run that begins with a successful startAuction
on candidates whose class labels are all among 1 to 9 and continues with
setTurnOrder, requestCandidate, acceptRequest, rejectRequest and timer ticks,
no unassigned candidate has a class numerically below the current class, and
when the status is completed every candidate is assigned. -/
theorem unassigned_not_below_currentClass (s : State) (hrun : AuctionRun s) :
    (∀ c ∈ s.candidates, c.assigned = false →
      ∃ a b : Nat, parseInt c.cls = some (a : Int) ∧
        parseInt s.auction.currentClass = some (b : Int) ∧ b ≤ a) ∧
    (s.auction.status = Status.completed → ∀ c ∈ s.candidates, c.assigned = true) := by
  obtain ⟨cur, h1, h9, hcur, hall, hdone⟩ := lowInv_of_auctionRun hrun
  refine ⟨fun c hc hun => ?_, hdone⟩
  obtain ⟨j, hj1, hj9, hcls, hlow⟩ := hall c hc
  refine ⟨j, cur, ?_, ?_, hlow hun⟩
  · rw [hcls]; exact parseInt_classLabel j (by omega)
  · rw [hcur]; exact parseInt_classLabel cur (by omega)

/-- C19 at the scenario state in which A has been given c1: the class of the
unassigned candidate c2 is not below the current class. -/
theorem unassigned_not_below_currentClass_witness :
    ∃ a b : Nat,
      parseInt (⟨"c2", "1", "102", false, none⟩ : Candidate).cls = some (a : Int) ∧
      parseInt scenarioFirstPick.auction.currentClass = some (b : Int) ∧ b ≤ a :=
  (unassigned_not_below_currentClass scenarioFirstPick auctionRun_scenarioFirstPick).1
    ⟨"c2", "1", "102", false, none⟩ (by decide) rfl

/-! ## Counting roster entries and assigned candidates -/

theorem sum_unshiftRoster (q : Candidate → Bool) (name : String) (c : Candidate)
    (ts : List Team) (h : name ∈ ts.map (fun t => t.name)) :
    ((unshiftRoster name c ts).map (fun t => t.roster.countP q)).sum =
      (ts.map (fun t => t.roster.countP q)).sum + (if q c then 1 else 0) := by
  obtain ⟨ts1, t, ts2, h1, -, -, h4⟩ := unshiftRoster_split name c ts h
  rw [h4, h1]
  simp only [List.map_append, List.map_cons, List.sum_append, List.sum_cons, List.countP_cons]
  omega

theorem countP_markAssigned (q : Candidate → Bool) (p : Candidate → Bool) (c : Candidate)
    (l : List Candidate) (hfind : l.find? p = some c) (hun : c.assigned = false)
    (hq : q { c with assigned := true } = q c) :
    (markAssigned p l).countP (fun x => x.assigned && q x) =
      l.countP (fun x => x.assigned && q x) + (if q c then 1 else 0) := by
  obtain ⟨l1, l2, h1, h2⟩ := markAssigned_split p c l hfind
  rw [h2, h1]
  simp only [List.countP_append, List.countP_cons, hun, Bool.false_and, Bool.true_and, hq,
    Bool.false_eq_true, if_false]
  omega

theorem hasKey_assigned (name classNum : String) (c : Candidate) :
    hasKey name classNum { c with assigned := true } = hasKey name classNum c := rfl

theorem find_isAvailable {l : List Candidate} {name classNum : String} {c : Candidate}
    (h : l.find? (isAvailable name classNum) = some c) :
    c ∈ l ∧ c.name = name ∧ c.cls = classNum ∧ c.assigned = false := by
  have hmem := List.mem_of_find?_eq_some h
  have hp := List.find?_some h
  simp only [isAvailable, Bool.and_eq_true, beq_iff_eq, Bool.not_eq_true'] at hp
  exact ⟨hmem, hp.1.1, hp.1.2, hp.2⟩

theorem countP_and_of_unique (q r : Candidate → Bool) (c : Candidate) (l : List Candidate)
    (hone : l.countP q = 1) (hc : c ∈ l) (hq : q c = true) :
    l.countP (fun x => r x && q x) = if r c then 1 else 0 := by
  have hfil : l.filter q = [c] := by
    have hlen : (l.filter q).length = 1 := by rw [← List.countP_eq_length_filter]; exact hone
    have hmem : c ∈ l.filter q := List.mem_filter.mpr ⟨hc, hq⟩
    match hm : l.filter q, hlen, hmem with
    | [a], _, hmem' =>
      simp only [List.mem_singleton] at hmem'
      rw [hmem']
  rw [← List.countP_filter, hfil]
  simp [List.countP_cons]

theorem filter_length_of_sum_zero {α : Type} (f : α → Nat) (g : α → Bool)
    (hg : ∀ t, g t = true ↔ f t ≠ 0) :
    ∀ l : List α, (l.map f).sum = 0 → (l.filter g).length = 0 := by
  intro l
  induction l with
  | nil => intro _; rfl
  | cons a as ih =>
    intro h
    simp only [List.map_cons, List.sum_cons] at h
    have ha : g a = false := by
      cases hga : g a with
      | false => rfl
      | true => exact absurd (by omega : f a = 0) ((hg a).mp hga)
    have hrest : (as.map f).sum = 0 := by omega
    rw [List.filter_cons_of_neg (by simp [ha])]
    exact ih hrest

theorem filter_length_of_sum_one {α : Type} (f : α → Nat) (g : α → Bool)
    (hg : ∀ t, g t = true ↔ f t ≠ 0) :
    ∀ l : List α, (l.map f).sum = 1 → (l.filter g).length = 1 := by
  intro l
  induction l with
  | nil => intro h; simp at h
  | cons a as ih =>
    intro h
    simp only [List.map_cons, List.sum_cons] at h
    cases hga : g a with
    | false =>
      have ha : f a = 0 := by
        by_contra hne
        have := (hg a).mpr hne
        rw [hga] at this
        exact absurd this (by simp)
      have hrest : (as.map f).sum = 1 := by omega
      rw [List.filter_cons_of_neg (by simp [hga])]
      exact ih hrest
    | true =>
      have ha : f a ≠ 0 := (hg a).mp hga
      have hrest : (as.map f).sum = 0 := by omega
      rw [List.filter_cons_of_pos hga, List.length_cons,
        filter_length_of_sum_zero f g hg as hrest]

/-! ## Invariant of the states reached from the empty initial state -/

theorem EmptyInv.congrEmpty {s s' : State} (h : EmptyInv s) (hc : s'.candidates = s.candidates)
    (ht : s'.teams = s.teams) (hst : s'.auction.status = s.auction.status)
    (hp : s'.auction.pendingRequest = s.auction.pendingRequest)
    (ho : s'.auction.turnOrder = s.auction.turnOrder) : EmptyInv s' := by
  constructor
  · rw [ht]; exact h.names
  · rw [hst, ho, ht]; exact h.order
  · rw [hst, hp, ht]; exact h.request
  · rw [hst, ht, hc]; exact h.tally

theorem emptyInv_idle {s' : State}
    (ht : (s'.teams.map (fun t => t.name)).Nodup)
    (hst : s'.auction.status ≠ Status.in_progress) : EmptyInv s' := by
  constructor
  · exact ht
  · intro hin; exact absurd hin hst
  · intro hin; exact absurd hin hst
  · intro hin; exact absurd hin hst

theorem emptyInv_nextTurn (now : Nat) {s : State} (h : EmptyInv s) :
    EmptyInv (nextTurn now s) := by
  have hc := nextTurn_candidates now s
  have ht := nextTurn_teams now s
  have hpn := nextTurn_pendingRequest now s
  have hst : (nextTurn now s).auction.status = Status.in_progress →
      s.auction.status = Status.in_progress := by
    intro hin
    rcases nextTurn_status now s with h1 | h1
    · rw [← h1]; exact hin
    · rw [h1] at hin; exact Status.noConfusion hin
  constructor
  · rw [ht]; exact h.names
  · intro hin n hn
    rw [ht]
    rcases nextTurn_turnOrder now s with h2 | h2
    · rw [h2] at hn; exact h.order (hst hin) n hn
    · rw [h2] at hn; simp at hn
  · intro hin r hr
    rw [ht]
    rw [hpn] at hr
    exact h.request (hst hin) r hr
  · intro hin name classNum
    rw [ht, hc]
    exact h.tally (hst hin) name classNum

theorem emptyInv_setTurnOrder (now : Nat) (orderStr : Option String) {s : State}
    (h : EmptyInv s) : EmptyInv (setTurnOrder now orderStr s).state := by
  rcases setTurnOrder_shape now orderStr s with hs | ⟨order, -, hsub, -, -, hs⟩
  · rw [hs]; exact h
  · rw [hs]
    constructor
    · exact h.names
    · intro _ n hn; exact hsub n hn
    · exact h.request
    · exact h.tally

theorem emptyInv_startAuctionReset (now : Nat) {s : State} (h : EmptyInv s) :
    EmptyInv (startAuctionReset now s) := by
  constructor
  · have : (startAuctionReset now s).teams.map (fun t => t.name) =
        s.teams.map (fun t => t.name) := by
      simp [startAuctionReset, saveState, List.map_map, Function.comp_def]
    rw [this]; exact h.names
  · intro _ n hn
    simp [startAuctionReset, saveState] at hn
  · intro _ r hr
    simp [startAuctionReset, saveState] at hr
  · intro _ name classNum
    have h1 : ((startAuctionReset now s).teams.map
        (fun t => t.roster.countP (hasKey name classNum))).sum = 0 := by
      simp [startAuctionReset, saveState, List.map_map, Function.comp_def]
    have h2 : (startAuctionReset now s).candidates.countP
        (fun c => c.assigned && hasKey name classNum c) = 0 := by
      rw [List.countP_eq_zero]
      intro c hc
      simp only [startAuctionReset, saveState, List.mem_map] at hc
      obtain ⟨c0, -, rfl⟩ := hc
      simp
    rw [h1, h2]

theorem emptyInv_acceptedState (now : Nat) {s : State} (req : PendingRequest) (c : Candidate)
    (h : EmptyInv s) (hreq : s.auction.pendingRequest = some req)
    (hfind : s.candidates.find? (isAvailable req.candidate req.cls) = some c) :
    EmptyInv (acceptedState now s req c) := by
  constructor
  · simp only [acceptedState, unshiftRoster_names]
    exact h.names
  · intro hin n hn
    simp only [acceptedState, unshiftRoster_names]
    exact h.order hin n hn
  · intro _ r hr
    exact absurd hr (by simp [acceptedState])
  · intro hin name classNum
    have hteam := h.request hin req hreq
    have hc := find_isAvailable hfind
    show ((unshiftRoster req.team { c with assigned := true } s.teams).map
        (fun t => t.roster.countP (hasKey name classNum))).sum =
      (markAssigned (isAvailable req.candidate req.cls) s.candidates).countP
        (fun x => x.assigned && hasKey name classNum x)
    rw [sum_unshiftRoster _ _ _ _ hteam,
      countP_markAssigned (hasKey name classNum) _ c _ hfind hc.2.2.2
        (hasKey_assigned name classNum c),
      hasKey_assigned, h.tally hin]

theorem emptyInv_acceptRequest (now : Nat) {s : State} (h : EmptyInv s) :
    EmptyInv (acceptRequest now s) := by
  rcases acceptRequest_shape now s with ⟨-, -, hs⟩ | ⟨-, -, hs⟩ | ⟨req, c, hreq, hfind, -, hs⟩
  · rw [hs]; exact h
  · rw [hs]
    constructor
    · exact h.names
    · exact h.order
    · intro _ r hr; exact absurd hr (by simp [saveState])
    · exact h.tally
  · rw [hs]
    exact (emptyInv_nextTurn now (emptyInv_acceptedState now req c h hreq hfind)).congrEmpty
      rfl rfl rfl rfl rfl

theorem emptyInv_updateTimer (now : Nat) {s : State} (h : EmptyInv s) :
    EmptyInv (updateTimer now s) := by
  rcases updateTimer_shape now s with ⟨hs, -⟩ | ⟨-, hs, -⟩ | ⟨-, -, -, hs, -⟩
  · rw [hs]; exact h
  · rw [hs]; exact emptyInv_acceptRequest now h
  · rw [hs]; exact (emptyInv_nextTurn now h).congrEmpty rfl rfl rfl rfl rfl

theorem emptyInv_runOp (op : Op) {s : State} (hop : formOp s op) (h : EmptyInv s) :
    EmptyInv (runOp op s) := by
  cases op with
  | saveState => exact h.congrEmpty rfl rfl rfl rfl rfl
  | addCandidate c =>
    have hun : c.assigned = false := hop
    constructor
    · exact h.names
    · exact h.order
    · exact h.request
    · intro hin name classNum
      show (s.teams.map (fun t => t.roster.countP (hasKey name classNum))).sum =
        (s.candidates ++ [c]).countP (fun x => x.assigned && hasKey name classNum x)
      rw [List.countP_append, h.tally hin]
      simp [List.countP_cons, hun]
  | addTeam team =>
    have hop' : team.roster = [] ∧ team.name ∉ s.teams.map (fun t : Team => t.name) := hop
    obtain ⟨hempty, hfresh⟩ := hop'
    constructor
    · show ((s.teams ++ [team]).map (fun t => t.name)).Nodup
      rw [List.map_append, List.nodup_append]
      refine ⟨h.names, by simp, ?_⟩
      intro a ha hb
      simp only [List.map_cons, List.map_nil, List.mem_singleton] at hb
      subst hb
      exact hfresh ha
    · intro hin n hn
      show n ∈ (s.teams ++ [team]).map (fun t => t.name)
      rw [List.map_append, List.mem_append]
      exact Or.inl (h.order hin n hn)
    · intro hin r hr
      show r.team ∈ (s.teams ++ [team]).map (fun t => t.name)
      rw [List.map_append, List.mem_append]
      exact Or.inl (h.request hin r hr)
    · intro hin name classNum
      show ((s.teams ++ [team]).map (fun t => t.roster.countP (hasKey name classNum))).sum =
        s.candidates.countP (fun x => x.assigned && hasKey name classNum x)
      rw [List.map_append, List.sum_append, h.tally hin]
      simp [hempty]
  | deleteCandidate name classNum =>
    simp only [runOp, deleteCandidate]
    split
    · exact h
    · rename_i hst
      exact emptyInv_idle h.names hst
  | deleteTeam name =>
    simp only [runOp, deleteTeam]
    split
    · exact h
    · rename_i hst
      refine emptyInv_idle ?_ hst
      exact h.names.sublist ((List.filter_sublist _).map _)
  | startAuction now orderStr =>
    simp only [runOp]
    rcases startAuction_shape now orderStr s with hs | ⟨-, hs⟩
    · rw [hs]; exact h
    · rw [hs]; exact emptyInv_setTurnOrder now orderStr (emptyInv_startAuctionReset now h)
  | setTurnOrder now orderStr => exact emptyInv_setTurnOrder now orderStr h
  | requestCandidate team name classNum =>
    simp only [runOp]
    rcases requestCandidate_shape team name classNum s with hs | ⟨hin, hmem, -, hs⟩
    · rw [hs]; exact h
    · rw [hs]
      constructor
      · exact h.names
      · exact h.order
      · intro _ r hr
        simp only [saveState, Option.some.injEq] at hr
        subst hr
        exact h.order hin team hmem
      · exact h.tally
  | acceptRequest now => exact emptyInv_acceptRequest now h
  | rejectRequest =>
    constructor
    · exact h.names
    · exact h.order
    · intro _ r hr; exact absurd hr (by simp [runOp, rejectRequest, saveState])
    · exact h.tally
  | stopAuction => exact emptyInv_idle h.names (fun hin => Status.noConfusion hin)
  | nextTurn now => exact emptyInv_nextTurn now h
  | updateTimer now => exact emptyInv_updateTimer now h

theorem emptyInv_defaultState : EmptyInv defaultState := by
  constructor
  · simp [defaultState]
  · intro hin; exact Status.noConfusion hin
  · intro hin; exact Status.noConfusion hin
  · intro hin; exact Status.noConfusion hin

theorem emptyInv_of_fromEmpty {s : State} (h : FromEmpty s) : EmptyInv s := by
  induction h with
  | base s hs => rw [hs]; exact emptyInv_defaultState
  | step op s hop _ ih => exact emptyInv_runOp op hop ih

/-! ## Turn order and rosters in the states reached from the empty state -/

theorem fromEmpty_step (op : Op) (s : State) (hop : formOp s op) (h : FromEmpty s) :
    FromEmpty (runOp op s) :=
  ReachBy.step op s hop h

theorem fromEmpty_defaultState : FromEmpty defaultState :=
  ReachBy.base defaultState rfl

theorem fromEmpty_populated : FromEmpty populated :=
  fromEmpty_step (Op.addCandidate ⟨"c2", "1", "102", false, none⟩) _ rfl
    (fromEmpty_step (Op.addCandidate ⟨"c1", "1", "101", false, none⟩) _ rfl
      (fromEmpty_step (Op.addTeam ⟨"B", "y", "", []⟩) _ ⟨rfl, by decide⟩
        (fromEmpty_step (Op.addTeam ⟨"A", "x", "", []⟩) _ ⟨rfl, by decide⟩
          fromEmpty_defaultState)))

theorem fromEmpty_populatedPick : FromEmpty populatedPick :=
  fromEmpty_step (Op.acceptRequest 2000) _ True.intro
    (fromEmpty_step (Op.requestCandidate "A" "c1" "1") _ True.intro
      (fromEmpty_step (Op.startAuction 1000 (some "A,B")) _ True.intro fromEmpty_populated))

theorem fromEmpty_lateTeam : FromEmpty lateTeam :=
  fromEmpty_step (Op.addTeam ⟨"C", "z", "", []⟩) _ ⟨rfl, by decide⟩
    (fromEmpty_step (Op.startAuction 1000 (some "A,B")) _ True.intro fromEmpty_populated)

theorem fromEmpty_strandedPick : FromEmpty strandedPick :=
  fromEmpty_step (Op.deleteTeam "A") _ True.intro
    (fromEmpty_step Op.stopAuction _ True.intro fromEmpty_populatedPick)

theorem fromEmpty_twinPicks : FromEmpty twinPicks :=
  fromEmpty_step (Op.acceptRequest 3000) _ True.intro
    (fromEmpty_step (Op.requestCandidate "B" "Ann" "1") _ True.intro
      (fromEmpty_step (Op.acceptRequest 2000) _ True.intro
        (fromEmpty_step (Op.requestCandidate "A" "Ann" "1") _ True.intro
          (fromEmpty_step (Op.startAuction 1000 (some "A,B")) _ True.intro
            (fromEmpty_step (Op.addCandidate ⟨"Cy", "2", "19", false, none⟩) _ rfl
              (fromEmpty_step (Op.addCandidate ⟨"Ann", "1", "17", false, none⟩) _ rfl
                (fromEmpty_step (Op.addCandidate ⟨"Ann", "1", "17", false, none⟩) _ rfl
                  (fromEmpty_step (Op.addTeam ⟨"B", "y", "", []⟩) _ ⟨rfl, by decide⟩
                    (fromEmpty_step (Op.addTeam ⟨"A", "x", "", []⟩) _ ⟨rfl, by decide⟩
                      fromEmpty_defaultState)))))))))

/-- C12, as the claim states it, fails: from the empty initial state, after
the teams A and B and two candidates are added, the auction is started with
the order A, B and a team C is added, turnOrder is the non-empty list A, B
while the teams are A, B and C, so it is no permutation of the team names. -/
theorem turnOrder_misses_added_team :
    FromEmpty lateTeam ∧
    lateTeam.auction.status = Status.in_progress ∧
    lateTeam.auction.turnOrder = ["A", "B"] ∧
    lateTeam.teams.map (fun t => t.name) = ["A", "B", "C"] ∧
    lateTeam.auction.turnOrder ≠ [] ∧
    ¬ List.Perm lateTeam.auction.turnOrder (lateTeam.teams.map (fun t => t.name)) := by
  have h1 : lateTeam.auction.turnOrder = ["A", "B"] := by decide
  have h2 : lateTeam.teams.map (fun t => t.name) = ["A", "B", "C"] := by decide
  refine ⟨fromEmpty_lateTeam, by decide, h1, h2, by rw [h1]; simp, ?_⟩
  rw [h1, h2]
  intro hperm
  exact absurd hperm.length_eq (by decide)

/-- C12, amended: in every state reached from the empty initial state by
adding candidates, adding teams, deleting candidates, deleting teams,
startAuction, setTurnOrder, requestCandidate, acceptRequest, rejectRequest,
nextTurn and stopAuction (and timer ticks), the team names are pairwise
distinct and, while status is in_progress, every entry of turnOrder is a
current team name; and whenever setTurnOrder changes the state, the turn order
it stores is non-empty, names only current teams and names every current
team. -/
theorem turnOrder_names_teams (s : State) (hreach : FromEmpty s) :
    (s.teams.map (fun t => t.name)).Nodup ∧
    (s.auction.status = Status.in_progress →
      ∀ n ∈ s.auction.turnOrder, n ∈ s.teams.map (fun t => t.name)) ∧
    (∀ now orderStr, (setTurnOrder now orderStr s).state ≠ s →
      (setTurnOrder now orderStr s).state.auction.turnOrder ≠ [] ∧
      (∀ n ∈ (setTurnOrder now orderStr s).state.auction.turnOrder,
        n ∈ s.teams.map (fun t => t.name)) ∧
      (∀ n ∈ s.teams.map (fun t => t.name),
        n ∈ (setTurnOrder now orderStr s).state.auction.turnOrder)) := by
  have hinv := emptyInv_of_fromEmpty hreach
  refine ⟨hinv.names, hinv.order, fun now orderStr hne => ?_⟩
  rcases setTurnOrder_shape now orderStr s with hs | ⟨order, hnil, hsub, hsup, -, hs⟩
  · exact absurd hs hne
  · rw [hs]
    exact ⟨hnil, hsub, hsup⟩

/-- C12 at the state with the late team C: the first entry A of the turn
order A, B is a team name. -/
theorem turnOrder_names_teams_witness :
    "A" ∈ lateTeam.teams.map (fun t => t.name) :=
  (turnOrder_names_teams lateTeam fromEmpty_lateTeam).2.1 (by decide) "A" (by decide)

/-- C13, as the claim states it, fails in two ways. After the stop of the
auction and the deletion of team A, the candidate c1 that A had been given is
still assigned but is in no roster. And with two candidates Ann of class 1,
once A and B have each been given one, the same candidate record is in the
rosters of both teams while the auction is in progress. -/
theorem assigned_without_single_roster :
    FromEmpty strandedPick ∧
    strandedPick.candidates =
      [⟨"c1", "1", "101", true, none⟩, ⟨"c2", "1", "102", false, none⟩] ∧
    strandedPick.teams = [⟨"B", "y", "", []⟩] ∧
    FromEmpty twinPicks ∧
    twinPicks.auction.status = Status.in_progress ∧
    twinPicks.teams =
      [⟨"A", "x", "", [⟨"Ann", "1", "17", true, none⟩]⟩,
       ⟨"B", "y", "", [⟨"Ann", "1", "17", true, none⟩]⟩] := by
  refine ⟨fromEmpty_strandedPick, by decide, by decide, fromEmpty_twinPicks, by decide,
    by decide⟩

theorem rosterFlags_of_teams {s s' : State} (h : RosterFlags s) (ht : s'.teams = s.teams) :
    RosterFlags s' := by
  intro t hmem e he
  rw [ht] at hmem
  exact h t hmem e he

theorem rosterFlags_setTurnOrder (now : Nat) (orderStr : Option String) {s : State}
    (h : RosterFlags s) : RosterFlags (setTurnOrder now orderStr s).state := by
  rcases setTurnOrder_shape now orderStr s with hs | ⟨order, -, -, -, -, hs⟩
  · rw [hs]; exact h
  · rw [hs]; exact rosterFlags_of_teams h rfl

theorem rosterFlags_acceptRequest (now : Nat) {s : State} (h : RosterFlags s) :
    RosterFlags (acceptRequest now s) := by
  rcases acceptRequest_shape now s with ⟨-, -, hs⟩ | ⟨-, -, hs⟩ | ⟨req, c, -, -, -, hs⟩
  · rw [hs]; exact h
  · rw [hs]; exact rosterFlags_of_teams h rfl
  · have hm : RosterFlags (acceptedState now s req c) := by
      intro t ht e he
      rcases roster_unshiftRoster _ _ _ t ht e he with rfl | ⟨u, hu, hue⟩
      · rfl
      · exact h u hu e hue
    rw [hs]
    exact rosterFlags_of_teams hm (by rw [saveState_teams, nextTurn_teams])

theorem rosterFlags_updateTimer (now : Nat) {s : State} (h : RosterFlags s) :
    RosterFlags (updateTimer now s) := by
  rcases updateTimer_shape now s with ⟨hs, -⟩ | ⟨-, hs, -⟩ | ⟨-, -, -, hs, -⟩
  · rw [hs]; exact h
  · rw [hs]; exact rosterFlags_acceptRequest now h
  · rw [hs]; exact rosterFlags_of_teams h (by rw [saveState_teams, nextTurn_teams])

theorem rosterFlags_runOp (op : Op) {s : State} (hop : formOp s op) (h : RosterFlags s) :
    RosterFlags (runOp op s) := by
  cases op with
  | saveState => exact rosterFlags_of_teams h rfl
  | addCandidate c => exact rosterFlags_of_teams h rfl
  | addTeam team =>
    have hop' : team.roster = [] ∧ team.name ∉ s.teams.map (fun t : Team => t.name) := hop
    intro t ht e he
    have ht' : t ∈ s.teams ++ [team] := ht
    rcases List.mem_append.mp ht' with h1 | h2
    · exact h t h1 e he
    · simp only [List.mem_singleton] at h2
      subst h2
      rw [hop'.1] at he
      simp at he
  | deleteCandidate name classNum =>
    simp only [runOp, deleteCandidate]
    split
    · exact h
    · exact rosterFlags_of_teams h rfl
  | deleteTeam name =>
    simp only [runOp, deleteTeam]
    split
    · exact h
    · intro t ht e he
      have ht' : t ∈ s.teams.filter (fun t => t.name != name) := ht
      exact h t (List.mem_filter.mp ht').1 e he
  | startAuction now orderStr =>
    simp only [runOp]
    rcases startAuction_shape now orderStr s with hs | ⟨-, hs⟩
    · rw [hs]; exact h
    · rw [hs]
      apply rosterFlags_setTurnOrder
      intro t ht e he
      simp only [startAuctionReset, saveState, List.mem_map] at ht
      obtain ⟨t0, -, rfl⟩ := ht
      simp at he
  | setTurnOrder now orderStr => exact rosterFlags_setTurnOrder now orderStr h
  | requestCandidate team name classNum =>
    simp only [runOp]
    rcases requestCandidate_shape team name classNum s with hs | ⟨-, -, -, hs⟩
    · rw [hs]; exact h
    · rw [hs]; exact rosterFlags_of_teams h rfl
  | acceptRequest now => exact rosterFlags_acceptRequest now h
  | rejectRequest => exact rosterFlags_of_teams h rfl
  | stopAuction => exact rosterFlags_of_teams h rfl
  | nextTurn now => exact rosterFlags_of_teams h (nextTurn_teams now s)
  | updateTimer now => exact rosterFlags_updateTimer now h

theorem rosterFlags_of_fromEmpty {s : State} (h : FromEmpty s) : RosterFlags s := by
  induction h with
  | base s hs =>
    rw [hs]
    intro t ht
    simp [defaultState] at ht
  | step op s hop _ ih => exact rosterFlags_runOp op hop ih

/-- C13, amended: in every state reached from the empty initial state by
adding candidates, adding teams, deleting candidates, deleting teams,
startAuction, setTurnOrder, requestCandidate, acceptRequest, rejectRequest,
nextTurn and stopAuction (and timer ticks), a candidate whose assigned flag is
false is in no roster (no roster entry is that candidate, every entry being
flagged assigned); and while status is in_progress, each candidate such
that no other candidate that is assigned shares its name and class has exactly
one roster entry of its name and class if it is assigned and none if it is
not, so it is in exactly one team's roster if and only if its assigned flag is
true. -/
theorem roster_iff_assigned (s : State) (c : Candidate) (hreach : FromEmpty s)
    (_hc : c ∈ s.candidates) :
    (c.assigned = false → ∀ t ∈ s.teams, c ∉ t.roster) ∧
    (s.auction.status = Status.in_progress →
      (∃ l1 l2, s.candidates = l1 ++ c :: l2 ∧
        ∀ x ∈ l1 ++ l2, x.assigned = true → hasKey c.name c.cls x = false) →
      (s.teams.map (fun t => t.roster.countP (hasKey c.name c.cls))).sum =
        (if c.assigned then 1 else 0) ∧
      ((s.teams.filter (fun t => t.roster.any (hasKey c.name c.cls))).length = 1 ↔
        c.assigned = true) ∧
      (c.assigned = false →
        ∀ t ∈ s.teams, ∀ e ∈ t.roster, hasKey c.name c.cls e = false)) := by
  refine ⟨fun hun t ht hin => ?_, fun hst hother => ?_⟩
  · have := rosterFlags_of_fromEmpty hreach t ht c hin
    rw [hun] at this
    exact absurd this (by simp)
  have hinv := emptyInv_of_fromEmpty hreach
  have hkey : hasKey c.name c.cls c = true := by simp [hasKey]
  have hsum : (s.teams.map (fun t => t.roster.countP (hasKey c.name c.cls))).sum =
      (if c.assigned then 1 else 0) := by
    rw [hinv.tally hst c.name c.cls]
    obtain ⟨l1, l2, hsplit, hfree⟩ := hother
    have h1 : l1.countP (fun x => x.assigned && hasKey c.name c.cls x) = 0 := by
      rw [List.countP_eq_zero]
      intro x hx hp
      simp only [Bool.and_eq_true] at hp
      rw [hfree x (List.mem_append_left _ hx) hp.1] at hp
      exact absurd hp.2 (by simp)
    have h2 : l2.countP (fun x => x.assigned && hasKey c.name c.cls x) = 0 := by
      rw [List.countP_eq_zero]
      intro x hx hp
      simp only [Bool.and_eq_true] at hp
      rw [hfree x (List.mem_append_right _ hx) hp.1] at hp
      exact absurd hp.2 (by simp)
    rw [hsplit, List.countP_append, List.countP_cons, h1, h2, hkey]
    simp
  have hg : ∀ t : Team, t.roster.any (hasKey c.name c.cls) = true ↔
      t.roster.countP (hasKey c.name c.cls) ≠ 0 := by
    intro t
    rw [List.any_eq_true, ← Nat.pos_iff_ne_zero, List.countP_pos_iff]
  have hnone : c.assigned = false →
      (s.teams.filter (fun t => t.roster.any (hasKey c.name c.cls))).length = 0 := by
    intro hun
    apply filter_length_of_sum_zero _ _ hg
    rw [hsum, hun]; rfl
  refine ⟨hsum, ⟨fun hone => ?_, fun hyes => ?_⟩, fun hun t ht e he => ?_⟩
  · by_contra hno
    have hun : c.assigned = false := by simpa using hno
    rw [hnone hun] at hone
    exact absurd hone (by decide)
  · apply filter_length_of_sum_one _ _ hg
    rw [hsum, hyes]; rfl
  · have hnil := List.length_eq_zero.mp (hnone hun)
    have hall := List.filter_eq_nil_iff.mp hnil t ht
    by_contra hk
    apply hall
    rw [List.any_eq_true]
    exact ⟨e, he, by simpa using hk⟩

/-- C13 at the state in which A has been given c1: c1 is assigned, no other
assigned candidate shares its name and class, and it is in exactly one
roster. -/
theorem roster_iff_assigned_witness :
    (populatedPick.teams.filter
      (fun t => t.roster.any (hasKey "c1" "1"))).length = 1 :=
  (((roster_iff_assigned populatedPick ⟨"c1", "1", "101", true, none⟩ fromEmpty_populatedPick
    (by decide)).2 (by decide)
      ⟨[], [⟨"c2", "1", "102", false, none⟩], by decide, by decide⟩).2.1).mpr rfl

/-! ## Selections, assigned candidates and rosters -/

theorem sum_length_unshiftRoster (name : String) (c : Candidate) (ts : List Team)
    (h : name ∈ ts.map (fun t => t.name)) :
    ((unshiftRoster name c ts).map (fun t => t.roster.length)).sum =
      (ts.map (fun t => t.roster.length)).sum + 1 := by
  obtain ⟨ts1, t, ts2, h1, -, -, h4⟩ := unshiftRoster_split name c ts h
  rw [h4, h1]
  simp only [List.map_append, List.map_cons, List.sum_append, List.sum_cons, List.length_cons]
  omega

theorem countP_assigned_markAssigned (p : Candidate → Bool) (c : Candidate)
    (l : List Candidate) (hfind : l.find? p = some c) (hun : c.assigned = false) :
    (markAssigned p l).countP (fun x => x.assigned) = l.countP (fun x => x.assigned) + 1 := by
  obtain ⟨l1, l2, h1, h2⟩ := markAssigned_split p c l hfind
  rw [h2, h1]
  simp only [List.countP_append, List.countP_cons, hun, Bool.false_eq_true, if_false, if_true]
  omega

theorem TallyInv.congrTally {s s' : State} (h : TallyInv s) (hc : s'.candidates = s.candidates)
    (ht : s'.teams = s.teams) (hsel : s'.auction.selections = s.auction.selections)
    (hp : s'.auction.pendingRequest = s.auction.pendingRequest)
    (ho : s'.auction.turnOrder = s.auction.turnOrder) : TallyInv s' := by
  constructor
  · rw [ht]; exact h.names
  · rw [ho, ht]; exact h.order
  · rw [hp, ht]; exact h.request
  · rw [hsel, ht]; exact h.known
  · rw [hsel, hc]; exact h.assigned
  · rw [hsel, ht]; exact h.rosters
  · rw [hsel, ht]; exact h.perTeam

theorem tallyInv_nextTurn (now : Nat) {s : State} (h : TallyInv s) :
    TallyInv (nextTurn now s) := by
  have hc := nextTurn_candidates now s
  have ht := nextTurn_teams now s
  have hpn := nextTurn_pendingRequest now s
  have hsel := nextTurn_selections now s
  constructor
  · rw [ht]; exact h.names
  · intro n hn
    rw [ht]
    rcases nextTurn_turnOrder now s with h2 | h2
    · rw [h2] at hn; exact h.order n hn
    · rw [h2] at hn; simp at hn
  · rw [hpn, ht]; exact h.request
  · rw [hsel, ht]; exact h.known
  · rw [hsel, hc]; exact h.assigned
  · rw [hsel, ht]; exact h.rosters
  · rw [hsel, ht]; exact h.perTeam

theorem tallyInv_setTurnOrder (now : Nat) (orderStr : Option String) {s : State}
    (h : TallyInv s) : TallyInv (setTurnOrder now orderStr s).state := by
  rcases setTurnOrder_shape now orderStr s with hs | ⟨order, -, hsub, -, -, hs⟩
  · rw [hs]; exact h
  · rw [hs]
    constructor
    · exact h.names
    · intro n hn; exact hsub n hn
    · exact h.request
    · exact h.known
    · exact h.assigned
    · exact h.rosters
    · exact h.perTeam

theorem tallyInv_acceptedState (now : Nat) {s : State} (req : PendingRequest) (c : Candidate)
    (h : TallyInv s) (hreq : s.auction.pendingRequest = some req)
    (hfind : s.candidates.find? (isAvailable req.candidate req.cls) = some c) :
    TallyInv (acceptedState now s req c) := by
  have hteam := h.request req hreq
  have hc := find_isAvailable hfind
  obtain ⟨ts1, t, ts2, h1, h2, -, h4⟩ :=
    unshiftRoster_split req.team { c with assigned := true } s.teams hteam
  have hnames : (ts1.map (fun t => t.name) ++ t.name :: ts2.map (fun t => t.name)).Nodup := by
    have := h.names
    rw [h1] at this
    simpa using this
  have hother : ∀ u ∈ ts1 ++ ts2, u.name ≠ t.name := by
    intro u hu heq
    have hmid := (List.nodup_cons.mp (List.nodup_middle.mp hnames)).1
    apply hmid
    rw [← heq, ← List.map_append]
    exact List.mem_map_of_mem _ hu
  constructor
  · simp only [acceptedState, unshiftRoster_names]
    exact h.names
  · intro n hn
    simp only [acceptedState, unshiftRoster_names]
    exact h.order n hn
  · intro r hr
    exact absurd hr (by simp [acceptedState])
  · intro x hx
    simp only [acceptedState, unshiftRoster_names, List.mem_append, List.mem_singleton] at hx ⊢
    rcases hx with hx | rfl
    · exact h.known x hx
    · exact hteam
  · show (s.auction.selections ++ [_]).length =
      (markAssigned (isAvailable req.candidate req.cls) s.candidates).countP
        (fun x => x.assigned)
    rw [countP_assigned_markAssigned _ c _ hfind hc.2.2.2, List.length_append, h.assigned]
    rfl
  · show (s.auction.selections ++ [_]).length =
      ((unshiftRoster req.team { c with assigned := true } s.teams).map
        (fun t => t.roster.length)).sum
    rw [sum_length_unshiftRoster _ _ _ hteam, List.length_append, h.rosters]
    rfl
  · intro u hu
    have hu' : u ∈ ts1 ++ { t with roster := { c with assigned := true } :: t.roster } :: ts2 := by
      rw [← h4]; exact hu
    show (s.auction.selections ++
      [({ candidate := req.candidate, cls := req.cls, team := req.team } : Selection)]).countP
        (fun x => x.team == u.name) = u.roster.length
    rw [List.countP_append]
    rcases List.mem_append.mp hu' with hu1 | hu2
    · have hmem : u ∈ s.teams := by rw [h1]; exact List.mem_append_left _ hu1
      have hne : u.name ≠ t.name := hother u (List.mem_append_left _ hu1)
      have hne' : ¬ req.team = u.name := by rw [← h2]; exact fun he => hne he.symm
      rw [h.perTeam u hmem]
      simp [List.countP_cons, hne']
    · rcases List.mem_cons.mp hu2 with rfl | hu3
      · have hmem : t ∈ s.teams := by rw [h1]; simp
        rw [h.perTeam t hmem]
        simp [List.countP_cons, h2]
      · have hmem : u ∈ s.teams := by
          rw [h1]; exact List.mem_append_right _ (List.mem_cons_of_mem _ hu3)
        have hne : u.name ≠ t.name := hother u (List.mem_append_right _ hu3)
        have hne' : ¬ req.team = u.name := by rw [← h2]; exact fun he => hne he.symm
        rw [h.perTeam u hmem]
        simp [List.countP_cons, hne']

theorem tallyInv_acceptRequest (now : Nat) {s : State} (h : TallyInv s) :
    TallyInv (acceptRequest now s) := by
  rcases acceptRequest_shape now s with ⟨-, -, hs⟩ | ⟨-, -, hs⟩ | ⟨req, c, hreq, hfind, -, hs⟩
  · rw [hs]; exact h
  · rw [hs]
    constructor
    · exact h.names
    · exact h.order
    · intro r hr; exact absurd hr (by simp [saveState])
    · exact h.known
    · exact h.assigned
    · exact h.rosters
    · exact h.perTeam
  · rw [hs]
    exact (tallyInv_nextTurn now (tallyInv_acceptedState now req c h hreq hfind)).congrTally
      rfl rfl rfl rfl rfl

theorem tallyInv_runOp (op : Op) {s : State} (hop : growOp s op) (h : TallyInv s) :
    TallyInv (runOp op s) := by
  cases op with
  | saveState => exact absurd hop (by simp [growOp, auctionOp])
  | deleteCandidate name classNum => exact absurd hop (by simp [growOp, auctionOp])
  | deleteTeam name => exact absurd hop (by simp [growOp, auctionOp])
  | startAuction now orderStr => exact absurd hop (by simp [growOp, auctionOp])
  | stopAuction => exact absurd hop (by simp [growOp, auctionOp])
  | nextTurn now => exact absurd hop (by simp [growOp, auctionOp])
  | addCandidate c =>
    have hun : c.assigned = false := hop
    constructor
    · exact h.names
    · exact h.order
    · exact h.request
    · exact h.known
    · show s.auction.selections.length = (s.candidates ++ [c]).countP (fun x => x.assigned)
      rw [List.countP_append, h.assigned]
      simp [List.countP_cons, hun]
    · exact h.rosters
    · exact h.perTeam
  | addTeam team =>
    have hop' : team.roster = [] ∧ team.name ∉ s.teams.map (fun t : Team => t.name) := hop
    obtain ⟨hempty, hfresh⟩ := hop'
    have hmono : ∀ n, n ∈ s.teams.map (fun t => t.name) →
        n ∈ (s.teams ++ [team]).map (fun t => t.name) := by
      intro n hn
      rw [List.map_append, List.mem_append]
      exact Or.inl hn
    constructor
    · show ((s.teams ++ [team]).map (fun t => t.name)).Nodup
      rw [List.map_append, List.nodup_append]
      refine ⟨h.names, by simp, ?_⟩
      intro a ha hb
      simp only [List.map_cons, List.map_nil, List.mem_singleton] at hb
      subst hb
      exact hfresh ha
    · intro n hn; exact hmono n (h.order n hn)
    · intro r hr; exact hmono _ (h.request r hr)
    · intro x hx; exact hmono _ (h.known x hx)
    · exact h.assigned
    · show s.auction.selections.length =
        ((s.teams ++ [team]).map (fun t => t.roster.length)).sum
      rw [List.map_append, List.sum_append, h.rosters]
      simp [hempty]
    · intro u hu
      have hu' : u ∈ s.teams ++ [team] := hu
      show s.auction.selections.countP (fun x => x.team == u.name) = u.roster.length
      rcases List.mem_append.mp hu' with hu1 | hu2
      · exact h.perTeam u hu1
      · simp only [List.mem_singleton] at hu2
        subst hu2
        rw [hempty, List.length_nil, List.countP_eq_zero]
        intro x hx hxu
        have hxu' : x.team = u.name := by simpa using hxu
        exact hfresh (hxu' ▸ h.known x hx)
  | setTurnOrder now orderStr => exact tallyInv_setTurnOrder now orderStr h
  | requestCandidate team name classNum =>
    simp only [runOp]
    rcases requestCandidate_shape team name classNum s with hs | ⟨-, hmem, -, hs⟩
    · rw [hs]; exact h
    · rw [hs]
      constructor
      · exact h.names
      · exact h.order
      · intro r hr
        simp only [saveState, Option.some.injEq] at hr
        subst hr
        exact h.order team hmem
      · exact h.known
      · exact h.assigned
      · exact h.rosters
      · exact h.perTeam
  | acceptRequest now => exact tallyInv_acceptRequest now h
  | rejectRequest =>
    constructor
    · exact h.names
    · exact h.order
    · intro r hr; exact absurd hr (by simp [runOp, rejectRequest, saveState])
    · exact h.known
    · exact h.assigned
    · exact h.rosters
    · exact h.perTeam
  | updateTimer now =>
    simp only [runOp]
    rcases updateTimer_shape now s with ⟨hs, -⟩ | ⟨-, hs, -⟩ | ⟨-, -, -, hs, -⟩
    · rw [hs]; exact h
    · rw [hs]; exact tallyInv_acceptRequest now h
    · rw [hs]; exact (tallyInv_nextTurn now h).congrTally rfl rfl rfl rfl rfl

theorem tallyInv_of_namedStart {s : State} (h : NamedStart s) : TallyInv s := by
  obtain ⟨now, orderStr, s0, hok, hnames, rfl⟩ := h
  rw [startAuction_of_startOk now orderStr s0 hok]
  apply tallyInv_setTurnOrder
  have hn : (startAuctionReset now s0).teams.map (fun t => t.name) =
      s0.teams.map (fun t => t.name) := by
    simp [startAuctionReset, saveState, List.map_map, Function.comp_def]
  constructor
  · rw [hn]; exact hnames
  · intro n hn'
    simp [startAuctionReset, saveState] at hn'
  · intro r hr
    simp [startAuctionReset, saveState] at hr
  · intro x hx
    simp [startAuctionReset, saveState] at hx
  · show (0 : Nat) = (startAuctionReset now s0).candidates.countP (fun c => c.assigned)
    symm
    rw [List.countP_eq_zero]
    intro c hc
    simp only [startAuctionReset, saveState, List.mem_map] at hc
    obtain ⟨c0, -, rfl⟩ := hc
    simp
  · show (0 : Nat) = ((startAuctionReset now s0).teams.map (fun t => t.roster.length)).sum
    simp [startAuctionReset, saveState, List.map_map, Function.comp_def]
  · intro t ht
    simp only [startAuctionReset, saveState, List.mem_map] at ht
    obtain ⟨t0, -, rfl⟩ := ht
    rfl

theorem tallyInv_of_growingRun {s : State} (h : GrowingRun s) : TallyInv s := by
  induction h with
  | base s hs => exact tallyInv_of_namedStart hs
  | step op s hop _ ih => exact tallyInv_runOp op hop ih

theorem growingRun_step (op : Op) (s : State) (hop : growOp s op) (h : GrowingRun s) :
    GrowingRun (runOp op s) :=
  ReachBy.step op s hop h

theorem growingRun_scenarioCompleted : GrowingRun scenarioCompleted := by
  have hbase : GrowingRun (startAuction 1000 none scenarioStart).state :=
    ReachBy.base _ ⟨1000, none, scenarioStart, by unfold StartOk; decide, by decide, rfl⟩
  exact growingRun_step (Op.acceptRequest 3000) _ True.intro
    (growingRun_step (Op.requestCandidate "B" "c2" "1") _ True.intro
      (growingRun_step (Op.acceptRequest 2000) _ True.intro
        (growingRun_step (Op.requestCandidate "A" "c1" "1") _ True.intro
          (growingRun_step (Op.setTurnOrder 1000 (some "A,B")) _ True.intro hbase))))

/-- C20: in every state of a run that begins with a successful startAuction
(on teams with pairwise distinct names, as the team form keeps them) and
continues with setTurnOrder, requestCandidate, acceptRequest, rejectRequest,
timer ticks and additions of candidates and teams, the length of selections
equals the number of candidates with assigned true and the sum of the lengths
of all rosters, and for each team the number of selections naming it equals
the length of its roster. -/
theorem selections_match_rosters (s : State) (hrun : GrowingRun s) :
    s.auction.selections.length = s.candidates.countP (fun c => c.assigned) ∧
    s.auction.selections.length = (s.teams.map (fun t => t.roster.length)).sum ∧
    (∀ t ∈ s.teams,
      s.auction.selections.countP (fun x => x.team == t.name) = t.roster.length) := by
  have hinv := tallyInv_of_growingRun hrun
  exact ⟨hinv.assigned, hinv.rosters, hinv.perTeam⟩

/-- C20 at the completed state of the scenario: two selections, two assigned
candidates. -/
theorem selections_match_rosters_witness :
    scenarioCompleted.auction.selections.length =
      scenarioCompleted.candidates.countP (fun c => c.assigned) :=
  (selections_match_rosters scenarioCompleted growingRun_scenarioCompleted).1

end Auction
